import Mathlib

/-!
# leveldb `TableBuilder` (table/table_builder.cc)

A shallow embedding of the table-building state machine: `Rep` is the builder
state, every member function of `TableBuilder` is a function on `Rep`, and an
`assert` that fails is the result `none`.

The collaborators whose code is outside `table_builder.cc` (output file, block
builder, comparator, compressor, checksum, handle and footer codecs) are either
small models written from the specification or fields of `Env`.
-/

namespace leveldb

/-- A byte string (`Slice`, `std::string`): one list element per byte. -/
abbrev Bytes := List Nat

/-- The result of an operation (`leveldb::Status`): `OK` or an error kind with its message. -/
inductive Status where
  | OK
  | NotFound (msg : String)
  | Corruption (msg : String)
  | NotSupported (msg : String)
  | InvalidArgument (msg : String)
  | IOError (msg : String)
  deriving DecidableEq, Repr

/-- The test `Status::ok()`. -/
def Status.ok : Status → Bool
  | Status.OK => true
  | _ => false

/-- The `enum CompressionType`: `kNoCompression = 0x0`, `kSnappyCompression = 0x1`. -/
inductive CompressionType where
  | kNoCompression
  | kSnappyCompression
  deriving DecidableEq, Repr

/-- The byte stored for a compression type (`trailer[0] = type`). -/
def CompressionType.toNat : CompressionType → Nat
  | CompressionType.kNoCompression => 0
  | CompressionType.kSnappyCompression => 1

/-- Modelled from the spec: Comparator (leveldb/comparator.h is not under src/).
`addr` is the identity of the comparator object (the code compares comparator
pointers); `FindShortestSeparator start limit` is the new value of `*start`,
`FindShortSuccessor key` the new value of `*key`. -/
structure Comparator where
  addr : Nat
  Compare : Bytes → Bytes → Int
  FindShortestSeparator : Bytes → Bytes → Bytes
  FindShortSuccessor : Bytes → Bytes

/-- The fields of `Options` that `table_builder.cc` and the block builders read. -/
structure Options where
  comparator : Comparator
  block_size : Nat
  block_restart_interval : Int
  compression : CompressionType

/-- A block handle (`BlockHandle`): where a block lies in the file. -/
structure BlockHandle where
  offset : Nat
  size : Nat
  deriving DecidableEq, Repr

/-- A handle nobody has set yet. The constructor of `BlockHandle` is in
table/format.h, which is not under src/, and the code never reads a handle before
`WriteBlock` has set it; here both fields hold the largest 64-bit value. -/
def BlockHandle.unset : BlockHandle := ⟨2 ^ 64 - 1, 2 ^ 64 - 1⟩

/-- The two handles a footer stores (`Footer`). -/
structure Footer where
  metaindex_handle : BlockHandle
  index_handle : BlockHandle
  deriving DecidableEq, Repr

/-- Modelled from the spec: the fixed size of a block trailer, one type byte and
a 32-bit checksum (`kBlockTrailerSize` of table/format.h, not under src/). -/
def kBlockTrailerSize : Nat := 5

/-- Modelled from the spec: `EncodeFixed32` (util/coding.h is not under src/),
the four bytes of a 32-bit value, least significant first. -/
def EncodeFixed32 (v : Nat) : Bytes :=
  [v % 256, v / 256 % 256, v / 65536 % 256, v / 16777216 % 256]

/-- Modelled from the spec: Output File (`WritableFile` of leveldb/env.h, not
under src/). `contents` are the bytes appended so far, `flush_calls` counts the
calls of `Flush`, and `script` gives the outcome of each coming call in turn
(a call beyond the end of the script succeeds). A failed append adds nothing. -/
structure WritableFile where
  contents : Bytes
  flush_calls : Nat
  script : List Status
  deriving DecidableEq, Repr

/-- A new, empty output file whose calls will answer as `script` says. -/
def WritableFile.create (script : List Status) : WritableFile :=
  { contents := [], flush_calls := 0, script := script }

/-- The call `WritableFile::Append`: its status and the file after it. -/
def WritableFile.Append (f : WritableFile) (data : Bytes) : Status × WritableFile :=
  match f.script with
  | [] => (Status.OK, { f with contents := f.contents ++ data })
  | s :: rest =>
    if s.ok then (Status.OK, { f with contents := f.contents ++ data, script := rest })
    else (s, { f with script := rest })

/-- The call `WritableFile::Flush`: its status and the file after it. -/
def WritableFile.Flush (f : WritableFile) : Status × WritableFile :=
  match f.script with
  | [] => (Status.OK, { f with flush_calls := f.flush_calls + 1 })
  | s :: rest =>
    if s.ok then (Status.OK, { f with flush_calls := f.flush_calls + 1, script := rest })
    else (s, { f with flush_calls := f.flush_calls + 1, script := rest })

/-- The functions of other files that `table_builder.cc` calls and whose code is
not under src/: the compressor (`none` when snappy is not supported), the
checksum functions of util/crc32c.h, the serialization and the size estimate of
table/block_builder.h, and the codecs of table/format.h. -/
structure Env where
  Snappy_Compress : Bytes → Option Bytes
  crc32c_Value : Bytes → Nat
  crc32c_Extend : Nat → Bytes → Nat
  crc32c_Mask : Nat → Nat
  BlockBuilder_Finish : Options → List (Bytes × Bytes) → Bytes
  BlockBuilder_CurrentSizeEstimate : Options → List (Bytes × Bytes) → Nat
  BlockHandle_EncodeTo : BlockHandle → Bytes
  Footer_EncodeTo : Footer → Bytes

/-- Modelled from the spec: Block Builder (table/block_builder.h is not under
src/), held as the entries added since the last reset. -/
structure BlockBuilder where
  entries : List (Bytes × Bytes)
  deriving DecidableEq, Repr

/-- The call `BlockBuilder::Add`. -/
def BlockBuilder.Add (b : BlockBuilder) (key value : Bytes) : BlockBuilder :=
  { entries := b.entries ++ [(key, value)] }

/-- The test `BlockBuilder::empty`. -/
def BlockBuilder.empty (b : BlockBuilder) : Bool := b.entries.isEmpty

/-- The call `BlockBuilder::Reset`. -/
def BlockBuilder.Reset (_b : BlockBuilder) : BlockBuilder := { entries := [] }

/-- The call `BlockBuilder::Finish`: the serialized block, under the options the builder points to. -/
def BlockBuilder.Finish (env : Env) (o : Options) (b : BlockBuilder) : Bytes :=
  env.BlockBuilder_Finish o b.entries

/-- The call `BlockBuilder::CurrentSizeEstimate`. -/
def BlockBuilder.CurrentSizeEstimate (env : Env) (o : Options) (b : BlockBuilder) : Nat :=
  env.BlockBuilder_CurrentSizeEstimate o b.entries

/-- The state `TableBuilder::Rep`. The `file` field holds the state of the output file;
`offset` is a `uint64_t`; `num_entries` is an `int64_t` (only ever incremented,
an overflow of it is undefined in the source and not modelled). -/
structure Rep where
  options : Options
  index_block_options : Options
  file : WritableFile
  offset : Nat
  status : Status
  data_block : BlockBuilder
  index_block : BlockBuilder
  last_key : Bytes
  num_entries : Int
  closed : Bool
  pending_index_entry : Bool
  pending_handle : BlockHandle
  compressed_output : Bytes

/-- The constructor `Rep::Rep(opt, f)`, lines 45-56. -/
def Rep.create (opt : Options) (f : WritableFile) : Rep :=
  { options := opt
    index_block_options := { opt with block_restart_interval := 1 }
    file := f
    offset := 0
    status := Status.OK
    data_block := { entries := [] }
    index_block := { entries := [] }
    last_key := []
    num_entries := 0
    closed := false
    pending_index_entry := false
    pending_handle := BlockHandle.unset
    compressed_output := [] }

/-- The test `TableBuilder::ok()`: `status().ok()`. -/
def ok (r : Rep) : Bool := r.status.ok

/-- The accessor `TableBuilder::status()`. -/
def status (r : Rep) : Status := r.status

/-- The accessor `TableBuilder::NumEntries()`: `num_entries` converted to `uint64_t`. -/
def NumEntries (r : Rep) : Nat := (r.num_entries % 2 ^ 64).toNat

/-- The accessor `TableBuilder::FileSize()`. -/
def FileSize (r : Rep) : Nat := r.offset

/-- The call `TableBuilder::ChangeOptions`, lines 68-82: the returned status and the state
after the call. -/
def ChangeOptions (r : Rep) (options : Options) : Status × Rep :=
  if options.comparator.addr ≠ r.options.comparator.addr then
    (Status.InvalidArgument "changing comparator while building table", r)
  else
    (Status.OK,
      { r with
        options := options
        index_block_options := { options with block_restart_interval := 1 } })

/-- Lines 137-158 of `WriteBlock`: the bytes to store for the serialized block
`raw`, the type recorded for them, and the scratch buffer after the attempt. -/
def WriteBlock_contents (env : Env) (compression : CompressionType) (scratch raw : Bytes) :
    Bytes × CompressionType × Bytes :=
  match compression with
  | CompressionType.kNoCompression => (raw, CompressionType.kNoCompression, scratch)
  | CompressionType.kSnappyCompression =>
    match env.Snappy_Compress raw with
    | some compressed =>
      if compressed.length < raw.length - raw.length / 8 then
        (compressed, CompressionType.kSnappyCompression, compressed)
      else
        (raw, CompressionType.kNoCompression, compressed)
    | none => (raw, CompressionType.kNoCompression, scratch)

/-- Lines 164-168 of `WriteBlock`: the trailer of a block, its type byte and the
masked checksum of contents and type byte. -/
def WriteBlock_trailer (env : Env) (block_contents : Bytes) (type : CompressionType) : Bytes :=
  type.toNat ::
    EncodeFixed32
      (env.crc32c_Mask (env.crc32c_Extend (env.crc32c_Value block_contents) [type.toNat]))

/-- The call `TableBuilder::WriteBlock(block, handle)`, lines 128-176. `o` are the options
`block` points to. The result is the state after the call, the block builder
after its reset, and the handle. -/
def WriteBlock (env : Env) (r : Rep) (o : Options) (block : BlockBuilder) :
    Option (Rep × BlockBuilder × BlockHandle) :=
  if ok r then
    let raw := block.Finish env o
    let chosen := WriteBlock_contents env r.options.compression r.compressed_output raw
    let block_contents := chosen.1
    let type := chosen.2.1
    let handle : BlockHandle := { offset := r.offset, size := block_contents.length }
    let a1 := r.file.Append block_contents
    let r1 : Rep :=
      if a1.1.ok then
        let a2 := a1.2.Append (WriteBlock_trailer env block_contents type)
        if a2.1.ok then
          { r with
            file := a2.2
            status := a2.1
            offset := (r.offset + (block_contents.length + kBlockTrailerSize)) % 2 ^ 64 }
        else
          { r with file := a2.2, status := a2.1 }
      else
        { r with file := a1.2, status := a1.1 }
    some ({ r1 with compressed_output := [] }, block.Reset, handle)
  else
    none

/-- The call `TableBuilder::Flush`, lines 113-126. -/
def Flush (env : Env) (r : Rep) : Option Rep :=
  if r.closed then none
  else if !ok r then some r
  else if r.data_block.empty then some r
  else if r.pending_index_entry then none
  else
    match WriteBlock env r r.options r.data_block with
    | none => none
    | some (r1, block, handle) =>
      let r2 : Rep := { r1 with data_block := block, pending_handle := handle }
      if ok r2 then
        let fl := r2.file.Flush
        some { r2 with pending_index_entry := true, status := fl.1, file := fl.2 }
      else
        some r2

/-- Lines 89-105 of `Add`, which run when the builder is open and its status is
ok: the order check, the deferred index entry, and the new entry. -/
def Add_entry (env : Env) (r : Rep) (key value : Bytes) : Option Rep :=
  if r.num_entries > 0 ∧ ¬ (r.options.comparator.Compare key r.last_key > 0) then none
  else if r.pending_index_entry = true ∧ r.data_block.empty = false then none
  else
    let r1 : Rep :=
      if r.pending_index_entry then
        let sep := r.options.comparator.FindShortestSeparator r.last_key key
        { r with
          last_key := sep
          index_block := r.index_block.Add sep (env.BlockHandle_EncodeTo r.pending_handle)
          pending_index_entry := false }
      else r
    some
      { r1 with
        last_key := key
        num_entries := r1.num_entries + 1
        data_block := r1.data_block.Add key value }

/-- The call `TableBuilder::Add`, lines 84-111. -/
def Add (env : Env) (r : Rep) (key value : Bytes) : Option Rep :=
  if r.closed then none
  else if !ok r then some r
  else
    match Add_entry env r key value with
    | none => none
    | some r2 =>
      if r2.data_block.CurrentSizeEstimate env r2.options ≥ r2.options.block_size then
        Flush env r2
      else
        some r2

/-- Lines 186-187 of `Finish`: the closed check and the closing. -/
def Finish_close (r : Rep) : Option Rep :=
  if r.closed then none else some { r with closed := true }

/-- Lines 191-195 of `Finish`: the empty meta-index block and its handle. -/
def Finish_metaindex (env : Env) (r : Rep) : Option (Rep × BlockHandle) :=
  if ok r then
    match WriteBlock env r r.options { entries := [] } with
    | none => none
    | some (r1, _, handle) => some (r1, handle)
  else
    some (r, BlockHandle.unset)

/-- Lines 197-203 of `Finish`: the index entry of the last data block. -/
def Finish_pending (env : Env) (r : Rep) : Rep :=
  if r.pending_index_entry then
    let succ := r.options.comparator.FindShortSuccessor r.last_key
    { r with
      last_key := succ
      index_block := r.index_block.Add succ (env.BlockHandle_EncodeTo r.pending_handle)
      pending_index_entry := false }
  else r

/-- Lines 196-206 of `Finish`: the index block and its handle. -/
def Finish_index (env : Env) (r : Rep) : Option (Rep × BlockHandle) :=
  if ok r then
    let r1 := Finish_pending env r
    match WriteBlock env r1 r1.index_block_options r1.index_block with
    | none => none
    | some (r2, block, handle) => some ({ r2 with index_block := block }, handle)
  else
    some (r, BlockHandle.unset)

/-- Lines 208-218 of `Finish`: the footer. -/
def Finish_footer (env : Env) (r : Rep) (metaindex_block_handle index_block_handle : BlockHandle) :
    Rep :=
  if ok r then
    let footer_encoding :=
      env.Footer_EncodeTo
        { metaindex_handle := metaindex_block_handle, index_handle := index_block_handle }
    let a := r.file.Append footer_encoding
    if a.1.ok then
      { r with file := a.2, status := a.1, offset := (r.offset + footer_encoding.length) % 2 ^ 64 }
    else
      { r with file := a.2, status := a.1 }
  else r

/-- The call `TableBuilder::Finish`, lines 183-220: the returned status and the state after
the call. -/
def Finish (env : Env) (r : Rep) : Option (Status × Rep) :=
  match Flush env r with
  | none => none
  | some r0 =>
    match Finish_close r0 with
    | none => none
    | some r1 =>
      match Finish_metaindex env r1 with
      | none => none
      | some (r2, metaindex_block_handle) =>
        match Finish_index env r2 with
        | none => none
        | some (r3, index_block_handle) =>
          let r4 := Finish_footer env r3 metaindex_block_handle index_block_handle
          some (r4.status, r4)

/-- The call `TableBuilder::Abandon`, lines 222-226. -/
def Abandon (r : Rep) : Option Rep :=
  if r.closed then none else some { r with closed := true }

/-- The bytes `WriteBlock` stores for `block` in state `r` (`block_contents`). -/
def WriteBlock_payload (env : Env) (r : Rep) (o : Options) (block : BlockBuilder) : Bytes :=
  (WriteBlock_contents env r.options.compression r.compressed_output (block.Finish env o)).1

/-- The compression type `WriteBlock` records for `block` in state `r` (`type` at line 165). -/
def WriteBlock_type (env : Env) (r : Rep) (o : Options) (block : BlockBuilder) :
    CompressionType :=
  (WriteBlock_contents env r.options.compression r.compressed_output (block.Finish env o)).2.1

/-- The payload a block write stores for the serialized block `raw` under the
configured compression. -/
def WriteBlock_stored (env : Env) (compression : CompressionType) (raw : Bytes) : Bytes :=
  (WriteBlock_contents env compression [] raw).1

/-- The bytes a block write whose appends succeed adds to the file for the
serialized block `raw`: the stored payload and its trailer. -/
def WriteBlock_bytes (env : Env) (compression : CompressionType) (raw : Bytes) : Bytes :=
  WriteBlock_stored env compression raw ++
    WriteBlock_trailer env (WriteBlock_stored env compression raw)
      (WriteBlock_contents env compression [] raw).2.1

/-- A call of a public member function of `TableBuilder`. -/
inductive Op where
  | add (key value : Bytes)
  | flush
  | changeOptions (o : Options)
  | finish
  | abandon

/-- The state after one call, `none` when an assertion of the call fails. -/
def step (env : Env) (r : Rep) : Op → Option Rep
  | Op.add key value => Add env r key value
  | Op.flush => Flush env r
  | Op.changeOptions o => some (ChangeOptions r o).2
  | Op.finish => (Finish env r).map Prod.snd
  | Op.abandon => Abandon r

/-- The state after a sequence of calls. -/
def run (env : Env) : Rep → List Op → Option Rep
  | r, [] => some r
  | r, op :: ops =>
    match step env r op with
    | none => none
    | some r1 => run env r1 ops

/-- The states the builder can be in: the state after construction over a new
file, closed under the public member functions and under each stage of `Add`
and `Finish`, so that the states in which `Flush` and `WriteBlock` are called
from inside `Add` and `Finish` are included. -/
inductive Reach (env : Env) : Rep → Prop
  | create (opt : Options) (script : List Status) :
      Reach env (Rep.create opt (WritableFile.create script))
  | changeOptions {r : Rep} (o : Options) : Reach env r → Reach env (ChangeOptions r o).2
  | add_entry {r r1 : Rep} (key value : Bytes) :
      Reach env r → r.closed = false → ok r = true → Add_entry env r key value = some r1 →
      Reach env r1
  | flush {r r1 : Rep} : Reach env r → Flush env r = some r1 → Reach env r1
  | finish_close {r r1 : Rep} : Reach env r → Finish_close r = some r1 → Reach env r1
  | finish_metaindex {r r1 : Rep} {h : BlockHandle} :
      Reach env r → r.closed = true → Finish_metaindex env r = some (r1, h) → Reach env r1
  | finish_pending {r : Rep} :
      Reach env r → r.closed = true → ok r = true → Reach env (Finish_pending env r)
  | finish_index {r r1 : Rep} {h : BlockHandle} :
      Reach env r → r.closed = true → Finish_index env r = some (r1, h) → Reach env r1
  | finish_footer {r : Rep} (h1 h2 : BlockHandle) :
      Reach env r → r.closed = true → Reach env (Finish_footer env r h1 h2)
  | abandon {r r1 : Rep} : Reach env r → Abandon r = some r1 → Reach env r1

/-- A data block written to the file: the entries it holds and the handle
`WriteBlock` returned for it. -/
structure WrittenBlock where
  entries : List (Bytes × Bytes)
  handle : BlockHandle
  deriving DecidableEq, Repr

/-- The data block a call of `Flush` in state `r` writes: none when `Flush`
returns before line 120, and none when an append of the block write fails. -/
def Flush_written (env : Env) (r : Rep) : List WrittenBlock :=
  if r.closed = true ∨ ok r = false ∨ r.data_block.empty = true ∨ r.pending_index_entry = true
  then []
  else
    match WriteBlock env r r.options r.data_block with
    | some (r1, _, handle) =>
      if ok r1 then [{ entries := r.data_block.entries, handle := handle }] else []
    | none => []

/-- The data block a call of `Add` in state `r` writes, through the call of `Flush` at line 109. -/
def Add_written (env : Env) (r : Rep) (key value : Bytes) : List WrittenBlock :=
  if r.closed = true ∨ ok r = false then []
  else
    match Add_entry env r key value with
    | some r2 =>
      if r2.data_block.CurrentSizeEstimate env r2.options ≥ r2.options.block_size then
        Flush_written env r2
      else []
    | none => []

/-- The data block one public call in state `r` writes (`Finish` writes it
through the call of `Flush` at line 185). -/
def step_written (env : Env) (r : Rep) : Op → List WrittenBlock
  | Op.add key value => Add_written env r key value
  | Op.flush => Flush_written env r
  | Op.finish => Flush_written env r
  | Op.changeOptions _ => []
  | Op.abandon => []

/-- The data blocks a sequence of public calls writes, in the order of writing. -/
def run_written (env : Env) : Rep → List Op → List WrittenBlock
  | _, [] => []
  | r, op :: ops =>
    match step env r op with
    | none => []
    | some r1 => step_written env r op ++ run_written env r1 ops

/-- The index block `Finish` hands to `WriteBlock` at line 205, when it gets there. -/
def Finish_index_block (env : Env) (r : Rep) : Option BlockBuilder :=
  match Flush env r with
  | none => none
  | some r0 =>
    match Finish_close r0 with
    | none => none
    | some r1 =>
      match Finish_metaindex env r1 with
      | none => none
      | some (r2, _) => if ok r2 then some (Finish_pending env r2).index_block else none

/-- A call of `Add` or of `Flush`. -/
def Op.isAddOrFlush : Op → Bool
  | Op.add _ _ => true
  | Op.flush => true
  | _ => false

/-- The keys a sequence of calls adds, in order. -/
def keysOf : List Op → List Bytes
  | [] => []
  | Op.add key _ :: ops => key :: keysOf ops
  | _ :: ops => keysOf ops

/-- The entries a sequence of calls adds, in order. -/
def entriesOf : List Op → List (Bytes × Bytes)
  | [] => []
  | Op.add key value :: ops => (key, value) :: entriesOf ops
  | _ :: ops => entriesOf ops

/-- The index entries emitted so far and the pending one are the encoded
handles of the data blocks `B` written so far, in order. -/
def HandlesInv (env : Env) (r : Rep) (B : List WrittenBlock) : Prop :=
  B.map (fun b => env.BlockHandle_EncodeTo b.handle) =
    r.index_block.entries.map Prod.snd ++
      (if r.pending_index_entry = true then [env.BlockHandle_EncodeTo r.pending_handle] else [])

/-- The key `a` is before the key `b` in the order of the comparator. -/
def Comparator.lt (c : Comparator) (a b : Bytes) : Prop := c.Compare a b < 0

/-- The key `a` is before or equal to the key `b` in the order of the comparator. -/
def Comparator.le (c : Comparator) (a b : Bytes) : Prop := c.Compare a b ≤ 0

/-- Modelled from the spec: the contract of a comparator. `Compare` is a strict
total order (the sign turns when the arguments are swapped, only equal keys
compare equal, before is transitive); `FindShortestSeparator start limit`
is a key in `[start, limit)` when `start` is before `limit`;
`FindShortSuccessor key` is a key at or after `key`. -/
structure Comparator.Lawful (c : Comparator) : Prop where
  swap : ∀ a b, c.Compare a b > 0 ↔ c.Compare b a < 0
  eq_of_compare : ∀ a b, c.Compare a b = 0 → a = b
  lt_trans : ∀ a b d, c.Compare a b < 0 → c.Compare b d < 0 → c.Compare a d < 0
  separator : ∀ start limit, c.Compare start limit < 0 →
    c.Compare start (c.FindShortestSeparator start limit) ≤ 0 ∧
      c.Compare (c.FindShortestSeparator start limit) limit < 0
  successor : ∀ key, c.Compare key (c.FindShortSuccessor key) ≤ 0

/-- The first key of a list of entries. -/
def firstKey (es : List (Bytes × Bytes)) : Option Bytes := es.head?.map Prod.fst

/-- The last key of a list of entries. -/
def lastKey (es : List (Bytes × Bytes)) : Option Bytes := es.getLast?.map Prod.fst

/-- How the index entries emitted so far lie between the data blocks `B`
written so far, in the order of the comparator `c`. -/
structure KeysInv (c : Comparator) (r : Rep) (B : List WrittenBlock) : Prop where
  cmp : r.options.comparator = c
  count : r.index_block.entries.length + (if r.pending_index_entry = true then 1 else 0) =
    B.length
  nonempty : ∀ b ∈ B, b.entries ≠ []
  cur_last : ∀ kl, lastKey r.data_block.entries = some kl → kl = r.last_key
  pend_last : r.pending_index_entry = true →
    ∀ b, B.getLast? = some b → lastKey b.entries = some r.last_key
  upper : ∀ (i : Nat) (b : WrittenBlock) (e : Bytes × Bytes), B[i]? = some b →
    r.index_block.entries[i]? = some e → ∀ kl, lastKey b.entries = some kl → c.le kl e.1
  lower : ∀ (i : Nat) (e : Bytes × Bytes) (b : WrittenBlock),
    r.index_block.entries[i]? = some e → B[i + 1]? = some b →
    ∀ kf, firstKey b.entries = some kf → c.lt e.1 kf
  lower_cur : r.pending_index_entry = false →
    ∀ (e : Bytes × Bytes) (kf : Bytes), r.index_block.entries.getLast? = some e →
      firstKey r.data_block.entries = some kf → c.lt e.1 kf
  sorted : (r.index_block.entries.map Prod.fst).Pairwise c.lt
  below_last : ∀ e ∈ r.index_block.entries, c.lt e.1 r.last_key
  entered : (r.pending_index_entry = true ∨ r.index_block.entries ≠ [] ∨
    r.data_block.entries ≠ []) → r.num_entries > 0
  nonneg : 0 ≤ r.num_entries

/-- The data blocks `B` written so far and the entries of the data block in
progress are, in order, the entries `E` added so far. -/
def EntriesInv (r : Rep) (B : List WrittenBlock) (E : List (Bytes × Bytes)) : Prop :=
  (B.map fun b => b.entries).flatten ++ r.data_block.entries = E

/-- An output file none of whose coming calls fails. -/
def WritableFile.NeverFails (f : WritableFile) : Prop := ∀ s ∈ f.script, s.ok = true

/-- The running offset agrees with the output file: it never exceeds the
number of bytes appended and equals it while the status is ok (as long as that
number fits the 64 bits of `offset`). -/
def OffsetInv (r : Rep) : Prop :=
  r.file.contents.length < 2 ^ 64 →
    r.offset ≤ r.file.contents.length ∧ (ok r = true → r.offset = r.file.contents.length)

/-- The invariant stated at line 39: an index entry is pending only while the data block is empty. -/
def PendingInv (r : Rep) : Prop :=
  r.pending_index_entry = true → r.data_block.entries = []

/-- The output file only grows from `r` to `r1`, and so does the running
offset as long as the file fits the 64 bits of `offset`. -/
def Grows (r r1 : Rep) : Prop :=
  r.file.contents.length ≤ r1.file.contents.length ∧
    (r1.file.contents.length < 2 ^ 64 → r.offset ≤ r1.offset)

/-! ## A concrete environment for the examples -/

/-- Bytewise order of two keys: the first differing byte decides, a proper prefix is smaller. -/
def bytewiseCompare : Bytes → Bytes → Int
  | [], [] => 0
  | [], _ :: _ => -1
  | _ :: _, [] => 1
  | a :: as, b :: bs => if a < b then -1 else if b < a then 1 else bytewiseCompare as bs

/-- A bytewise comparator that shortens nothing. -/
def sampleComparator : Comparator :=
  { addr := 1
    Compare := bytewiseCompare
    FindShortestSeparator := fun start _ => start
    FindShortSuccessor := fun key => key }

/-- Options of the examples: bytewise order, 4096-byte blocks, no compression. -/
def sampleOptions : Options :=
  { comparator := sampleComparator
    block_size := 4096
    block_restart_interval := 16
    compression := CompressionType.kNoCompression }

/-- A variable-length encoding of a number, seven bits per byte, for the examples. -/
def sampleVarint : Nat → Nat → Bytes
  | 0, _ => []
  | fuel + 1, v => if v < 128 then [v] else (v % 128 + 128) :: sampleVarint fuel (v / 128)

/-- A run-length coding standing for the compressor in the examples. -/
def sampleCompress : Bytes → Bytes
  | [] => []
  | b :: rest =>
    match sampleCompress rest with
    | c :: b1 :: tl => if b = b1 ∧ c < 255 then (c + 1) :: b1 :: tl else 1 :: b :: c :: b1 :: tl
    | _ => [1, b]

/-- The serialized form of a block in the examples: each entry with its two
lengths, then one restart point and the number of restart points. -/
def sampleBlock (entries : List (Bytes × Bytes)) : Bytes :=
  (entries.map fun e => 0 :: e.1.length :: e.2.length :: (e.1 ++ e.2)).flatten ++
    EncodeFixed32 0 ++ EncodeFixed32 1

/-- The handle encoding of the examples. -/
def sampleHandle (h : BlockHandle) : Bytes := sampleVarint 10 h.offset ++ sampleVarint 10 h.size

/-- The environment of the examples. -/
def sampleEnv : Env :=
  { Snappy_Compress := fun raw => some (sampleCompress raw)
    crc32c_Value := fun data => data.sum % 2 ^ 32
    crc32c_Extend := fun crc data => (crc + data.sum) % 2 ^ 32
    crc32c_Mask := fun crc => (crc / 2 ^ 15 + crc % 2 ^ 15 * 2 ^ 17 + 2726488792) % 2 ^ 32
    BlockBuilder_Finish := fun _ entries => sampleBlock entries
    BlockBuilder_CurrentSizeEstimate := fun _ entries => (sampleBlock entries).length
    BlockHandle_EncodeTo := sampleHandle
    Footer_EncodeTo := fun f =>
      let handles := sampleHandle f.metaindex_handle ++ sampleHandle f.index_handle
      handles ++ List.replicate (40 - handles.length) 0 ++ [87, 251, 128, 139, 36, 117, 71, 219] }

/-- A new builder of the examples over a file whose calls answer as `script` says. -/
def sampleRep (script : List Status) : Rep :=
  Rep.create sampleOptions (WritableFile.create script)

/-- A data block of the examples holding the one entry ("a", "1"). -/
def sampleDataBlock : BlockBuilder := { entries := [([97], [49])] }

/-- The state of the sample builder after the calls `ops` (the new builder itself
should an assertion fail on the way). -/
def sampleRun (script : List Status) (ops : List Op) : Rep :=
  (run sampleEnv (sampleRep script) ops).getD (sampleRep script)

/-- The file and the table contents are the same in `r1` as in `r`. -/
def SameTable (r r1 : Rep) : Prop :=
  r1.status = r.status ∧ r1.file = r.file ∧ r1.offset = r.offset ∧
    r1.num_entries = r.num_entries ∧ r1.last_key = r.last_key ∧
    r1.data_block = r.data_block ∧ r1.index_block = r.index_block

/-- The options of the index block are the options of the data blocks with
restart interval 1. -/
def IndexOptionsInv (r : Rep) : Prop :=
  r.index_block_options = { r.options with block_restart_interval := 1 }

/-- A comparator object other than the one of the examples, with the same order. -/
def otherComparator : Comparator := { sampleComparator with addr := 2 }

/-- The entry count and the last key after the keys `H` were added. -/
def HistoryInv (r : Rep) (H : List Bytes) : Prop :=
  r.num_entries = (H.length : Int) ∧ ∀ k, H.getLast? = some k → r.last_key = k

/-- The file holds the data blocks `B` written so far, each as stored payload
and trailer, and nothing else; the handle of each has the size of its payload. -/
def ContentsInv (env : Env) (opt : Options) (r : Rep) (B : List WrittenBlock) : Prop :=
  r.options = opt ∧
    r.file.contents =
      (B.map fun b =>
        WriteBlock_bytes env opt.compression (env.BlockBuilder_Finish opt b.entries)).flatten ∧
    ∀ b ∈ B, b.handle.size =
      (WriteBlock_stored env opt.compression (env.BlockBuilder_Finish opt b.entries)).length

/-- The end of a call: it returns a result, or one of its assertions fails. An
assertion fails in some state of the builder, which holds the output file and
all that was appended to it so far; `aborted` keeps that state. -/
inductive Outcome (α : Type) where
  | returned (a : α)
  | aborted (r : Rep)

/-- The result of a call that returned. -/
def Outcome.result {α : Type} : Outcome α → Option α
  | Outcome.returned a => some a
  | Outcome.aborted _ => none

/-- The call `WriteBlock` with the state at a failed assertion. Its one
assertion, `assert(ok())` at line 133, is its first statement, so it fails in
the state of the call. -/
def WriteBlock_outcome (env : Env) (r : Rep) (o : Options) (block : BlockBuilder) :
    Outcome (Rep × BlockBuilder × BlockHandle) :=
  match WriteBlock env r o block with
  | some res => Outcome.returned res
  | none => Outcome.aborted r

/-- The call `TableBuilder::Flush`, lines 113-126, with the state at a failed assertion. -/
def Flush_outcome (env : Env) (r : Rep) : Outcome Rep :=
  if r.closed then Outcome.aborted r
  else if !ok r then Outcome.returned r
  else if r.data_block.empty then Outcome.returned r
  else if r.pending_index_entry then Outcome.aborted r
  else
    match WriteBlock_outcome env r r.options r.data_block with
    | Outcome.aborted s => Outcome.aborted s
    | Outcome.returned (r1, block, handle) =>
      let r2 : Rep := { r1 with data_block := block, pending_handle := handle }
      if ok r2 then
        let fl := r2.file.Flush
        Outcome.returned { r2 with pending_index_entry := true, status := fl.1, file := fl.2 }
      else
        Outcome.returned r2

/-- Lines 89-105 of `Add` with the state at a failed assertion: the assertion of
line 90 is the first statement, the one of line 94 comes before the first
assignment (line 95). -/
def Add_entry_outcome (env : Env) (r : Rep) (key value : Bytes) : Outcome Rep :=
  if r.num_entries > 0 ∧ ¬ (r.options.comparator.Compare key r.last_key > 0) then
    Outcome.aborted r
  else if r.pending_index_entry = true ∧ r.data_block.empty = false then Outcome.aborted r
  else
    let r1 : Rep :=
      if r.pending_index_entry then
        let sep := r.options.comparator.FindShortestSeparator r.last_key key
        { r with
          last_key := sep
          index_block := r.index_block.Add sep (env.BlockHandle_EncodeTo r.pending_handle)
          pending_index_entry := false }
      else r
    Outcome.returned
      { r1 with
        last_key := key
        num_entries := r1.num_entries + 1
        data_block := r1.data_block.Add key value }

/-- The call `TableBuilder::Add`, lines 84-111, with the state at a failed assertion. -/
def Add_outcome (env : Env) (r : Rep) (key value : Bytes) : Outcome Rep :=
  if r.closed then Outcome.aborted r
  else if !ok r then Outcome.returned r
  else
    match Add_entry_outcome env r key value with
    | Outcome.aborted s => Outcome.aborted s
    | Outcome.returned r2 =>
      if r2.data_block.CurrentSizeEstimate env r2.options ≥ r2.options.block_size then
        Flush_outcome env r2
      else
        Outcome.returned r2

/-- Lines 191-195 of `Finish` with the state at a failed assertion. -/
def Finish_metaindex_outcome (env : Env) (r : Rep) : Outcome (Rep × BlockHandle) :=
  if ok r then
    match WriteBlock_outcome env r r.options { entries := [] } with
    | Outcome.aborted s => Outcome.aborted s
    | Outcome.returned (r1, _, handle) => Outcome.returned (r1, handle)
  else
    Outcome.returned (r, BlockHandle.unset)

/-- Lines 196-206 of `Finish` with the state at a failed assertion. -/
def Finish_index_outcome (env : Env) (r : Rep) : Outcome (Rep × BlockHandle) :=
  if ok r then
    let r1 := Finish_pending env r
    match WriteBlock_outcome env r1 r1.index_block_options r1.index_block with
    | Outcome.aborted s => Outcome.aborted s
    | Outcome.returned (r2, block, handle) =>
      Outcome.returned ({ r2 with index_block := block }, handle)
  else
    Outcome.returned (r, BlockHandle.unset)

/-- The call `TableBuilder::Finish`, lines 183-220, with the state at a failed
assertion: the call of `Flush` at line 185 comes first, the assertion of line
186 after it. -/
def Finish_outcome (env : Env) (r : Rep) : Outcome (Status × Rep) :=
  match Flush_outcome env r with
  | Outcome.aborted s => Outcome.aborted s
  | Outcome.returned r0 =>
    if r0.closed then Outcome.aborted r0
    else
      let r1 : Rep := { r0 with closed := true }
      match Finish_metaindex_outcome env r1 with
      | Outcome.aborted s => Outcome.aborted s
      | Outcome.returned (r2, metaindex_block_handle) =>
        match Finish_index_outcome env r2 with
        | Outcome.aborted s => Outcome.aborted s
        | Outcome.returned (r3, index_block_handle) =>
          let r4 := Finish_footer env r3 metaindex_block_handle index_block_handle
          Outcome.returned (r4.status, r4)

/-- The call `TableBuilder::Abandon`, lines 222-226, with the state at a failed assertion. -/
def Abandon_outcome (r : Rep) : Outcome Rep :=
  if r.closed then Outcome.aborted r else Outcome.returned { r with closed := true }

/-- One call, with the state at a failed assertion. -/
def step_outcome (env : Env) (r : Rep) : Op → Outcome Rep
  | Op.add key value => Add_outcome env r key value
  | Op.flush => Flush_outcome env r
  | Op.changeOptions o => Outcome.returned (ChangeOptions r o).2
  | Op.finish =>
    match Finish_outcome env r with
    | Outcome.aborted s => Outcome.aborted s
    | Outcome.returned res => Outcome.returned res.2
  | Op.abandon => Abandon_outcome r

/-- A sequence of calls, up to the first assertion that fails. -/
def run_outcome (env : Env) : Rep → List Op → Outcome Rep
  | r, [] => Outcome.returned r
  | r, op :: ops =>
    match step_outcome env r op with
    | Outcome.aborted s => Outcome.aborted s
    | Outcome.returned r1 => run_outcome env r1 ops

/-- The calls that assert that the builder is not closed. -/
def Op.assertsOpen : Op → Bool
  | Op.changeOptions _ => false
  | _ => true

/-! ## The output file -/

theorem Status_ok_iff (s : Status) : s.ok = true ↔ s = Status.OK := by
  cases s <;> simp [Status.ok]

theorem Status_OK_ok : Status.OK.ok = true := rfl

theorem File_Append_ok_contents (f : WritableFile) (data : Bytes) (h : (f.Append data).1.ok = true) :
    (f.Append data).2.contents = f.contents ++ data := by
  unfold WritableFile.Append at h ⊢
  cases hsc : f.script with
  | nil => rfl
  | cons s rest =>
    rw [hsc] at h
    by_cases hs : s.ok = true
    · simp [hs]
    · simp [hs] at h

theorem File_Append_fail_contents (f : WritableFile) (data : Bytes)
    (h : (f.Append data).1.ok = false) : (f.Append data).2.contents = f.contents := by
  unfold WritableFile.Append at h ⊢
  cases hsc : f.script with
  | nil =>
    rw [hsc] at h
    simp [Status_OK_ok] at h
  | cons s rest =>
    rw [hsc] at h
    by_cases hs : s.ok = true
    · simp [hs, Status_OK_ok] at h
    · simp [hs]

theorem File_Append_flush_calls (f : WritableFile) (data : Bytes) :
    (f.Append data).2.flush_calls = f.flush_calls := by
  unfold WritableFile.Append
  split
  · rfl
  · split <;> rfl

theorem File_Append_contents_length_le (f : WritableFile) (data : Bytes) :
    f.contents.length ≤ (f.Append data).2.contents.length := by
  unfold WritableFile.Append
  split
  · simp
  · split <;> simp

theorem File_Append_neverFails (f : WritableFile) (data : Bytes) (h : f.NeverFails) :
    (f.Append data).1 = Status.OK ∧ (f.Append data).2.NeverFails ∧
      (f.Append data).2.contents = f.contents ++ data := by
  unfold WritableFile.NeverFails at *
  unfold WritableFile.Append
  cases hsc : f.script with
  | nil => simp [hsc]
  | cons s rest =>
    have hsok : s.ok = true := h s (by simp [hsc])
    simp only [hsok, if_true]
    refine ⟨trivial, ?_, trivial⟩
    intro t ht
    exact h t (by rw [hsc]; exact List.mem_cons_of_mem _ ht)

theorem File_Flush_neverFails (f : WritableFile) (h : f.NeverFails) :
    f.Flush.1 = Status.OK ∧ f.Flush.2.NeverFails ∧ f.Flush.2.contents = f.contents := by
  unfold WritableFile.NeverFails at *
  unfold WritableFile.Flush
  cases hsc : f.script with
  | nil => simp [hsc]
  | cons s rest =>
    have hsok : s.ok = true := h s (by simp [hsc])
    simp only [hsok, if_true]
    refine ⟨trivial, ?_, trivial⟩
    intro t ht
    exact h t (by rw [hsc]; exact List.mem_cons_of_mem _ ht)

theorem File_Flush_contents (f : WritableFile) : f.Flush.2.contents = f.contents := by
  unfold WritableFile.Flush
  split
  · rfl
  · split <;> rfl

/-! ## `WriteBlock` -/

theorem WriteBlock_none (env : Env) (r : Rep) (o : Options) (block : BlockBuilder)
    (h : ok r = false) : WriteBlock env r o block = none := by
  simp [WriteBlock, h]

theorem WriteBlock_isSome (env : Env) (r : Rep) (o : Options) (block : BlockBuilder)
    (h : ok r = true) : ∃ r1, WriteBlock env r o block =
      some (r1, { entries := [] }, { offset := r.offset, size := (WriteBlock_payload env r o block).length }) := by
  simp [WriteBlock, h, WriteBlock_payload, BlockBuilder.Reset]

theorem WriteBlock_frame {env : Env} {r r1 : Rep} {o : Options} {block b1 : BlockBuilder}
    {hd : BlockHandle} (h : WriteBlock env r o block = some (r1, b1, hd)) :
    ok r = true ∧ b1 = { entries := [] } ∧
      hd = { offset := r.offset, size := (WriteBlock_payload env r o block).length } ∧
      r1 = { r with file := r1.file, status := r1.status, offset := r1.offset,
                    compressed_output := [] } := by
  unfold WriteBlock at h
  by_cases hok : ok r = true
  · simp only [hok, if_true, Option.some.injEq, Prod.mk.injEq] at h
    obtain ⟨h1, h2, h3⟩ := h
    refine ⟨hok, ?_, ?_, ?_⟩
    · rw [← h2]; rfl
    · rw [← h3]; rfl
    · rw [← h1]
      split <;> [split; skip] <;> rfl
  · simp [hok] at h

theorem WriteBlock_both_ok {env : Env} {r r1 : Rep} {o : Options} {block b1 : BlockBuilder}
    {hd : BlockHandle} (h : WriteBlock env r o block = some (r1, b1, hd))
    (h1 : (r.file.Append (WriteBlock_payload env r o block)).1.ok = true)
    (h2 : ((r.file.Append (WriteBlock_payload env r o block)).2.Append
      (WriteBlock_trailer env (WriteBlock_payload env r o block)
        (WriteBlock_type env r o block))).1.ok = true) :
    r1.status = Status.OK ∧
      r1.file = ((r.file.Append (WriteBlock_payload env r o block)).2.Append
        (WriteBlock_trailer env (WriteBlock_payload env r o block)
          (WriteBlock_type env r o block))).2 ∧
      r1.offset =
        (r.offset + ((WriteBlock_payload env r o block).length + kBlockTrailerSize)) % 2 ^ 64 := by
  unfold WriteBlock at h
  by_cases hok : ok r = true
  · simp only [hok, if_true, Option.some.injEq, Prod.mk.injEq] at h
    obtain ⟨h3, -, -⟩ := h
    simp only [WriteBlock_payload, WriteBlock_type] at h1 h2
    rw [if_pos h1, if_pos h2] at h3
    rw [← h3]
    exact ⟨(Status_ok_iff _).1 h2, rfl, rfl⟩
  · simp [hok] at h

theorem WriteBlock_payload_fails {env : Env} {r r1 : Rep} {o : Options} {block b1 : BlockBuilder}
    {hd : BlockHandle} (h : WriteBlock env r o block = some (r1, b1, hd))
    (h1 : (r.file.Append (WriteBlock_payload env r o block)).1.ok = false) :
    r1.status = (r.file.Append (WriteBlock_payload env r o block)).1 ∧
      r1.file = (r.file.Append (WriteBlock_payload env r o block)).2 ∧
      r1.offset = r.offset := by
  unfold WriteBlock at h
  by_cases hok : ok r = true
  · simp only [hok, if_true, Option.some.injEq, Prod.mk.injEq] at h
    obtain ⟨h3, -, -⟩ := h
    unfold WriteBlock_payload at h1
    rw [if_neg (by simp [h1])] at h3
    rw [← h3]
    exact ⟨rfl, rfl, rfl⟩
  · simp [hok] at h

theorem WriteBlock_trailer_fails {env : Env} {r r1 : Rep} {o : Options} {block b1 : BlockBuilder}
    {hd : BlockHandle} (h : WriteBlock env r o block = some (r1, b1, hd))
    (h1 : (r.file.Append (WriteBlock_payload env r o block)).1.ok = true)
    (h2 : ((r.file.Append (WriteBlock_payload env r o block)).2.Append
      (WriteBlock_trailer env (WriteBlock_payload env r o block)
        (WriteBlock_type env r o block))).1.ok = false) :
    r1.status = ((r.file.Append (WriteBlock_payload env r o block)).2.Append
        (WriteBlock_trailer env (WriteBlock_payload env r o block)
          (WriteBlock_type env r o block))).1 ∧
      r1.file = ((r.file.Append (WriteBlock_payload env r o block)).2.Append
        (WriteBlock_trailer env (WriteBlock_payload env r o block)
          (WriteBlock_type env r o block))).2 ∧
      r1.offset = r.offset := by
  unfold WriteBlock at h
  by_cases hok : ok r = true
  · simp only [hok, if_true, Option.some.injEq, Prod.mk.injEq] at h
    obtain ⟨h3, -, -⟩ := h
    simp only [WriteBlock_payload, WriteBlock_type] at h1 h2
    rw [if_pos h1, if_neg (by simp [h2])] at h3
    rw [← h3]
    exact ⟨rfl, rfl, rfl⟩
  · simp [hok] at h

theorem WriteBlock_trailer_length (env : Env) (block_contents : Bytes) (type : CompressionType) :
    (WriteBlock_trailer env block_contents type).length = kBlockTrailerSize := by
  simp [WriteBlock_trailer, EncodeFixed32, kBlockTrailerSize]

theorem WriteBlock_OffsetInv {env : Env} {r r1 : Rep} {o : Options} {block b1 : BlockBuilder}
    {hd : BlockHandle} (h : WriteBlock env r o block = some (r1, b1, hd)) (hinv : OffsetInv r) :
    OffsetInv r1 := by
  have hokr := (WriteBlock_frame h).1
  intro hlen
  by_cases h1 : (r.file.Append (WriteBlock_payload env r o block)).1.ok = true
  · by_cases h2 : ((r.file.Append (WriteBlock_payload env r o block)).2.Append
        (WriteBlock_trailer env (WriteBlock_payload env r o block)
          (WriteBlock_type env r o block))).1.ok = true
    · obtain ⟨-, hf, hoff⟩ := WriteBlock_both_ok h h1 h2
      have hc : r1.file.contents = r.file.contents ++ WriteBlock_payload env r o block ++
          WriteBlock_trailer env (WriteBlock_payload env r o block)
            (WriteBlock_type env r o block) := by
        rw [hf, File_Append_ok_contents _ _ h2, File_Append_ok_contents _ _ h1]
      rw [hc] at hlen ⊢
      simp only [List.length_append, WriteBlock_trailer_length] at hlen ⊢
      have hr := hinv (by omega)
      have heq := hr.2 hokr
      rw [hoff, Nat.mod_eq_of_lt (by omega)]
      exact ⟨by omega, fun _ => by omega⟩
    · have h2f : ((r.file.Append (WriteBlock_payload env r o block)).2.Append
        (WriteBlock_trailer env (WriteBlock_payload env r o block)
          (WriteBlock_type env r o block))).1.ok = false := by simpa using h2
      obtain ⟨hst, hf, hoff⟩ := WriteBlock_trailer_fails h h1 h2f
      have hc : r1.file.contents = r.file.contents ++ WriteBlock_payload env r o block := by
        rw [hf, File_Append_fail_contents _ _ h2f, File_Append_ok_contents _ _ h1]
      rw [hc] at hlen ⊢
      simp only [List.length_append] at hlen ⊢
      have hr := hinv (by omega)
      refine ⟨by omega, fun hok1 => ?_⟩
      simp only [ok, hst, h2f] at hok1
      exact absurd hok1 (by simp)
  · have h1f : (r.file.Append (WriteBlock_payload env r o block)).1.ok = false := by
      simpa using h1
    obtain ⟨hst, hf, hoff⟩ := WriteBlock_payload_fails h h1f
    have hc : r1.file.contents = r.file.contents := by
      rw [hf, File_Append_fail_contents _ _ h1f]
    rw [hc] at hlen ⊢
    have hr := hinv hlen
    refine ⟨by omega, fun hok1 => ?_⟩
    simp only [ok, hst, h1f] at hok1
    exact absurd hok1 (by simp)

theorem WriteBlock_contents_length_le {env : Env} {r r1 : Rep} {o : Options}
    {block b1 : BlockBuilder} {hd : BlockHandle}
    (h : WriteBlock env r o block = some (r1, b1, hd)) :
    r.file.contents.length ≤ r1.file.contents.length := by
  by_cases h1 : (r.file.Append (WriteBlock_payload env r o block)).1.ok = true
  · by_cases h2 : ((r.file.Append (WriteBlock_payload env r o block)).2.Append
        (WriteBlock_trailer env (WriteBlock_payload env r o block)
          (WriteBlock_type env r o block))).1.ok = true
    · rw [(WriteBlock_both_ok h h1 h2).2.1]
      exact le_trans (File_Append_contents_length_le _ _) (File_Append_contents_length_le _ _)
    · rw [(WriteBlock_trailer_fails h h1 (by simpa using h2)).2.1]
      exact le_trans (File_Append_contents_length_le _ _) (File_Append_contents_length_le _ _)
  · rw [(WriteBlock_payload_fails h (by simpa using h1)).2.1]
    exact File_Append_contents_length_le _ _

/-! ## `Flush` -/

theorem Flush_cases {env : Env} {r r1 : Rep} (h : Flush env r = some r1) :
    r.closed = false ∧
      ((ok r = false ∧ r1 = r) ∨
       (ok r = true ∧ r.data_block.empty = true ∧ r1 = r) ∨
       (ok r = true ∧ r.data_block.empty = false ∧ r.pending_index_entry = false ∧
         ∃ rw b hd, WriteBlock env r r.options r.data_block = some (rw, b, hd) ∧
           ((ok rw = false ∧ r1 = { rw with data_block := b, pending_handle := hd }) ∨
            (ok rw = true ∧
              r1 = { rw with data_block := b, pending_handle := hd, pending_index_entry := true,
                             status := rw.file.Flush.1, file := rw.file.Flush.2 })))) := by
  unfold Flush at h
  by_cases hc : r.closed = true
  · simp [hc] at h
  · have hc0 : r.closed = false := by simpa using hc
    refine ⟨hc0, ?_⟩
    rw [if_neg hc] at h
    by_cases hok : ok r = true
    · rw [if_neg (by simp [hok])] at h
      by_cases he : r.data_block.empty = true
      · rw [if_pos he] at h
        exact Or.inr (Or.inl ⟨hok, he, (Option.some.inj h).symm⟩)
      · rw [if_neg he] at h
        by_cases hp : r.pending_index_entry = true
        · simp [hp] at h
        · rw [if_neg hp] at h
          refine Or.inr (Or.inr ⟨hok, by simpa using he, by simpa using hp, ?_⟩)
          cases hw : WriteBlock env r r.options r.data_block with
          | none => rw [hw] at h; simp at h
          | some res =>
            obtain ⟨rw, b, hd⟩ := res
            rw [hw] at h
            refine ⟨rw, b, hd, rfl, ?_⟩
            simp only at h
            by_cases hok2 : ok rw = true
            · have : ok { rw with data_block := b, pending_handle := hd } = true := hok2
              rw [if_pos this] at h
              exact Or.inr ⟨hok2, (Option.some.inj h).symm⟩
            · have : ¬ ok { rw with data_block := b, pending_handle := hd } = true := hok2
              rw [if_neg this] at h
              exact Or.inl ⟨by simpa using hok2, (Option.some.inj h).symm⟩
    · rw [if_pos (by simp [hok])] at h
      exact Or.inl ⟨by simpa using hok, (Option.some.inj h).symm⟩

theorem Flush_OffsetInv {env : Env} {r r1 : Rep} (h : Flush env r = some r1)
    (hinv : OffsetInv r) : OffsetInv r1 := by
  obtain ⟨-, h1 | h1 | h1⟩ := Flush_cases h
  · rw [h1.2]; exact hinv
  · rw [h1.2.2]; exact hinv
  · obtain ⟨-, -, -, rw, b, hd, hw, h2 | h2⟩ := h1
    · have := WriteBlock_OffsetInv hw hinv
      rw [h2.2]
      exact this
    · have hw1 := WriteBlock_OffsetInv hw hinv
      rw [h2.2]
      intro hlen
      simp only [File_Flush_contents] at hlen ⊢
      have := hw1 hlen
      refine ⟨this.1, fun _ => this.2 h2.1⟩

theorem Flush_PendingInv {env : Env} {r r1 : Rep} (h : Flush env r = some r1)
    (hinv : PendingInv r) : PendingInv r1 := by
  obtain ⟨-, h1 | h1 | h1⟩ := Flush_cases h
  · rw [h1.2]; exact hinv
  · rw [h1.2.2]; exact hinv
  · obtain ⟨-, -, -, rw, b, hd, hw, h2 | h2⟩ := h1
    · rw [h2.2]
      intro _
      simp only [(WriteBlock_frame hw).2.1]
    · rw [h2.2]
      intro _
      simp only [(WriteBlock_frame hw).2.1]

theorem Flush_contents_length_le {env : Env} {r r1 : Rep} (h : Flush env r = some r1) :
    r.file.contents.length ≤ r1.file.contents.length := by
  obtain ⟨-, h1 | h1 | h1⟩ := Flush_cases h
  · rw [h1.2]
  · rw [h1.2.2]
  · obtain ⟨-, -, -, rw, b, hd, hw, h2 | h2⟩ := h1
    · have := WriteBlock_contents_length_le hw
      rw [h2.2]; exact this
    · have := WriteBlock_contents_length_le hw
      rw [h2.2]
      simp only [File_Flush_contents]
      exact this

/-! ## `Add` and the stages of `Finish` -/

theorem Add_entry_some {env : Env} {r r1 : Rep} {key value : Bytes}
    (h : Add_entry env r key value = some r1) :
    (r.num_entries > 0 → r.options.comparator.Compare key r.last_key > 0) ∧
      (r.pending_index_entry = true → r.data_block.empty = true) ∧
      r1 = { r with
        last_key := key
        num_entries := r.num_entries + 1
        data_block := r.data_block.Add key value
        index_block :=
          if r.pending_index_entry = true then
            r.index_block.Add (r.options.comparator.FindShortestSeparator r.last_key key)
              (env.BlockHandle_EncodeTo r.pending_handle)
          else r.index_block
        pending_index_entry := false } := by
  unfold Add_entry at h
  split at h
  · simp at h
  · rename_i hord
    split at h
    · simp at h
    · rename_i hpe
      refine ⟨fun hn => ?_, fun hp => ?_, ?_⟩
      · by_contra hcmp
        exact hord ⟨hn, hcmp⟩
      · by_contra he
        exact hpe ⟨hp, by simpa using he⟩
      · have h2 := (Option.some.inj h).symm
        rw [h2]
        by_cases hp : r.pending_index_entry = true
        · simp [hp]
        · have hp0 : r.pending_index_entry = false := by simpa using hp
          simp only [hp, if_false]
          cases r
          simp only at hp0
          simp [hp0]

theorem Add_entry_OffsetInv {env : Env} {r r1 : Rep} {key value : Bytes}
    (h : Add_entry env r key value = some r1) (hinv : OffsetInv r) : OffsetInv r1 := by
  rw [(Add_entry_some h).2.2]
  exact hinv

theorem Add_entry_PendingInv {env : Env} {r r1 : Rep} {key value : Bytes}
    (h : Add_entry env r key value = some r1) : PendingInv r1 := by
  rw [(Add_entry_some h).2.2]
  intro hp
  simp at hp

theorem Finish_close_some {r r1 : Rep} (h : Finish_close r = some r1) :
    r.closed = false ∧ r1 = { r with closed := true } := by
  unfold Finish_close at h
  by_cases hc : r.closed = true
  · simp [hc] at h
  · rw [if_neg hc] at h
    exact ⟨by simpa using hc, (Option.some.inj h).symm⟩

theorem Abandon_some {r r1 : Rep} (h : Abandon r = some r1) :
    r.closed = false ∧ r1 = { r with closed := true } := by
  unfold Abandon at h
  by_cases hc : r.closed = true
  · simp [hc] at h
  · rw [if_neg hc] at h
    exact ⟨by simpa using hc, (Option.some.inj h).symm⟩

theorem Finish_metaindex_cases {env : Env} {r r1 : Rep} {hd : BlockHandle}
    (h : Finish_metaindex env r = some (r1, hd)) :
    (ok r = false ∧ r1 = r ∧ hd = BlockHandle.unset) ∨
      (ok r = true ∧ ∃ b, WriteBlock env r r.options { entries := [] } = some (r1, b, hd)) := by
  unfold Finish_metaindex at h
  by_cases hok : ok r = true
  · rw [if_pos hok] at h
    cases hw : WriteBlock env r r.options { entries := [] } with
    | none => rw [hw] at h; simp at h
    | some res =>
      obtain ⟨rw, b, hd1⟩ := res
      rw [hw] at h
      simp only [Option.some.injEq, Prod.mk.injEq] at h
      exact Or.inr ⟨hok, b, by rw [h.1, h.2]⟩
  · rw [if_neg hok] at h
    simp only [Option.some.injEq, Prod.mk.injEq] at h
    exact Or.inl ⟨by simpa using hok, h.1.symm, h.2.symm⟩

theorem Finish_index_cases {env : Env} {r r1 : Rep} {hd : BlockHandle}
    (h : Finish_index env r = some (r1, hd)) :
    (ok r = false ∧ r1 = r ∧ hd = BlockHandle.unset) ∨
      (ok r = true ∧ ∃ rw b,
        WriteBlock env (Finish_pending env r) (Finish_pending env r).index_block_options
          (Finish_pending env r).index_block = some (rw, b, hd) ∧
        r1 = { rw with index_block := b }) := by
  unfold Finish_index at h
  by_cases hok : ok r = true
  · rw [if_pos hok] at h
    simp only at h
    cases hw : WriteBlock env (Finish_pending env r) (Finish_pending env r).index_block_options
        (Finish_pending env r).index_block with
    | none => rw [hw] at h; simp at h
    | some res =>
      obtain ⟨rw, b, hd1⟩ := res
      rw [hw] at h
      simp only [Option.some.injEq, Prod.mk.injEq] at h
      exact Or.inr ⟨hok, rw, b, by rw [h.2], h.1.symm⟩
  · rw [if_neg hok] at h
    simp only [Option.some.injEq, Prod.mk.injEq] at h
    exact Or.inl ⟨by simpa using hok, h.1.symm, h.2.symm⟩

theorem Finish_pending_frame (env : Env) (r : Rep) :
    (Finish_pending env r).file = r.file ∧ (Finish_pending env r).offset = r.offset ∧
      (Finish_pending env r).status = r.status ∧ (Finish_pending env r).closed = r.closed ∧
      (Finish_pending env r).data_block = r.data_block ∧
      (Finish_pending env r).options = r.options ∧
      (Finish_pending env r).index_block_options = r.index_block_options ∧
      (Finish_pending env r).num_entries = r.num_entries ∧
      (Finish_pending env r).pending_index_entry = false := by
  unfold Finish_pending
  by_cases hp : r.pending_index_entry = true
  · simp [hp]
  · simp [hp]

theorem Finish_pending_OffsetInv (env : Env) (r : Rep) (hinv : OffsetInv r) :
    OffsetInv (Finish_pending env r) := by
  obtain ⟨h1, h2, h3, -⟩ := Finish_pending_frame env r
  unfold OffsetInv ok at *
  rw [h1, h2, h3]
  exact hinv

theorem Finish_footer_OffsetInv (env : Env) (r : Rep) (h1 h2 : BlockHandle)
    (hinv : OffsetInv r) : OffsetInv (Finish_footer env r h1 h2) := by
  unfold Finish_footer
  by_cases hok : ok r = true
  · rw [if_pos hok]
    simp only
    by_cases ha : (r.file.Append (env.Footer_EncodeTo
        { metaindex_handle := h1, index_handle := h2 })).1.ok = true
    · rw [if_pos ha]
      intro hlen
      simp only [File_Append_ok_contents _ _ ha, List.length_append] at hlen ⊢
      have hr := hinv (by omega)
      have := hr.2 hok
      rw [Nat.mod_eq_of_lt (by omega)]
      exact ⟨by omega, fun _ => by omega⟩
    · rw [if_neg ha]
      have haf : (r.file.Append (env.Footer_EncodeTo
        { metaindex_handle := h1, index_handle := h2 })).1.ok = false := by simpa using ha
      intro hlen
      simp only [File_Append_fail_contents _ _ haf] at hlen ⊢
      refine ⟨(hinv hlen).1, fun hok1 => ?_⟩
      simp only [ok, haf] at hok1
      exact absurd hok1 (by simp)
  · rw [if_neg hok]
    exact hinv

/-! ## Invariants of the reachable states -/

theorem Reach_OffsetInv {env : Env} {r : Rep} (h : Reach env r) : OffsetInv r := by
  induction h with
  | create opt script =>
    intro _
    simp [Rep.create, WritableFile.create]
  | changeOptions o _ ih =>
    unfold ChangeOptions
    split
    · exact ih
    · exact ih
  | add_entry key value _ _ _ hadd ih => exact Add_entry_OffsetInv hadd ih
  | flush _ hf ih => exact Flush_OffsetInv hf ih
  | finish_close _ hc ih =>
    rw [(Finish_close_some hc).2]
    exact ih
  | finish_metaindex _ _ hm ih =>
    rcases Finish_metaindex_cases hm with h1 | h1
    · rw [h1.2.1]; exact ih
    · obtain ⟨-, b, hw⟩ := h1
      exact WriteBlock_OffsetInv hw ih
  | finish_pending _ _ _ ih => exact Finish_pending_OffsetInv env _ ih
  | finish_index _ _ hi ih =>
    rcases Finish_index_cases hi with h1 | h1
    · rw [h1.2.1]; exact ih
    · obtain ⟨-, rw, b, hw, hr1⟩ := h1
      have := WriteBlock_OffsetInv hw (Finish_pending_OffsetInv env _ ih)
      rw [hr1]
      exact this
  | finish_footer h1 h2 _ _ ih => exact Finish_footer_OffsetInv env _ h1 h2 ih
  | abandon _ ha ih =>
    rw [(Abandon_some ha).2]
    exact ih

theorem WriteBlock_fields {env : Env} {r r1 : Rep} {o : Options} {block b1 : BlockBuilder}
    {hd : BlockHandle} (h : WriteBlock env r o block = some (r1, b1, hd)) :
    r1.options = r.options ∧ r1.index_block_options = r.index_block_options ∧
      r1.data_block = r.data_block ∧ r1.index_block = r.index_block ∧
      r1.last_key = r.last_key ∧ r1.num_entries = r.num_entries ∧ r1.closed = r.closed ∧
      r1.pending_index_entry = r.pending_index_entry ∧ r1.pending_handle = r.pending_handle ∧
      r1.compressed_output = [] := by
  have hf := (WriteBlock_frame h).2.2.2
  refine ⟨?_, ?_, ?_, ?_, ?_, ?_, ?_, ?_, ?_, ?_⟩ <;> (rw [hf])

theorem Reach_PendingInv {env : Env} {r : Rep} (h : Reach env r) : PendingInv r := by
  induction h with
  | create opt script =>
    intro _
    rfl
  | changeOptions o _ ih =>
    unfold ChangeOptions
    split
    · exact ih
    · exact ih
  | add_entry key value _ _ _ hadd _ => exact Add_entry_PendingInv hadd
  | flush _ hf ih => exact Flush_PendingInv hf ih
  | finish_close _ hc ih =>
    rw [(Finish_close_some hc).2]
    exact ih
  | finish_metaindex _ _ hm ih =>
    rcases Finish_metaindex_cases hm with h1 | h1
    · rw [h1.2.1]; exact ih
    · obtain ⟨-, b, hw⟩ := h1
      have hf := WriteBlock_fields hw
      unfold PendingInv at *
      rw [hf.2.2.1, hf.2.2.2.2.2.2.2.1]
      exact ih
  | finish_pending _ _ _ _ =>
    intro hp
    rw [(Finish_pending_frame env _).2.2.2.2.2.2.2.2] at hp
    exact absurd hp (by simp)
  | finish_index _ _ hi ih =>
    rcases Finish_index_cases hi with h1 | h1
    · rw [h1.2.1]; exact ih
    · obtain ⟨-, rw, b, hw, hr1⟩ := h1
      have hf := WriteBlock_fields hw
      intro hp
      rw [hr1] at hp
      simp only at hp
      rw [hf.2.2.2.2.2.2.2.1, (Finish_pending_frame env _).2.2.2.2.2.2.2.2] at hp
      exact absurd hp (by simp)
  | finish_footer h1 h2 _ _ ih =>
    unfold Finish_footer
    split
    · simp only
      split
      · exact ih
      · exact ih
    · exact ih
  | abandon _ ha ih =>
    rw [(Abandon_some ha).2]
    exact ih

theorem Finish_footer_closed (env : Env) (r : Rep) (h1 h2 : BlockHandle) :
    (Finish_footer env r h1 h2).closed = r.closed := by
  unfold Finish_footer
  split
  · simp only
    split <;> rfl
  · rfl

theorem Flush_closed {env : Env} {r r1 : Rep} (h : Flush env r = some r1) :
    r.closed = false ∧ r1.closed = false := by
  obtain ⟨hc, h1 | h1 | h1⟩ := Flush_cases h
  · rw [h1.2]; exact ⟨hc, hc⟩
  · rw [h1.2.2]; exact ⟨hc, hc⟩
  · obtain ⟨-, -, -, rw, b, hd, hw, h2 | h2⟩ := h1
    · have := (WriteBlock_fields hw).2.2.2.2.2.2.1
      rw [h2.2]
      exact ⟨hc, by simp only; rw [this]; exact hc⟩
    · have := (WriteBlock_fields hw).2.2.2.2.2.2.1
      rw [h2.2]
      exact ⟨hc, by simp only; rw [this]; exact hc⟩

theorem Finish_stages {env : Env} {r r4 : Rep} {st : Status}
    (h : Finish env r = some (st, r4)) :
    ∃ r0 r1 r2 r3 hm hi, Flush env r = some r0 ∧ Finish_close r0 = some r1 ∧
      Finish_metaindex env r1 = some (r2, hm) ∧ Finish_index env r2 = some (r3, hi) ∧
      r4 = Finish_footer env r3 hm hi ∧ st = r4.status := by
  unfold Finish at h
  cases h0 : Flush env r with
  | none => rw [h0] at h; simp at h
  | some r0 =>
    rw [h0] at h
    simp only at h
    cases h1 : Finish_close r0 with
    | none => rw [h1] at h; simp at h
    | some r1 =>
      rw [h1] at h
      simp only at h
      cases h2 : Finish_metaindex env r1 with
      | none => rw [h2] at h; simp at h
      | some res2 =>
        obtain ⟨r2, hm⟩ := res2
        rw [h2] at h
        simp only at h
        cases h3 : Finish_index env r2 with
        | none => rw [h3] at h; simp at h
        | some res3 =>
          obtain ⟨r3, hi⟩ := res3
          rw [h3] at h
          simp only [Option.some.injEq, Prod.mk.injEq] at h
          exact ⟨r0, r1, r2, r3, hm, hi, rfl, h1, h2, h3, h.2.symm, by rw [← h.1, h.2]⟩

theorem Finish_metaindex_closed {env : Env} {r r1 : Rep} {hd : BlockHandle}
    (h : Finish_metaindex env r = some (r1, hd)) : r1.closed = r.closed := by
  rcases Finish_metaindex_cases h with h1 | h1
  · rw [h1.2.1]
  · obtain ⟨-, b, hw⟩ := h1
    exact (WriteBlock_fields hw).2.2.2.2.2.2.1

theorem Finish_index_closed {env : Env} {r r1 : Rep} {hd : BlockHandle}
    (h : Finish_index env r = some (r1, hd)) : r1.closed = r.closed := by
  rcases Finish_index_cases h with h1 | h1
  · rw [h1.2.1]
  · obtain ⟨-, rw, b, hw, hr1⟩ := h1
    rw [hr1]
    simp only
    rw [(WriteBlock_fields hw).2.2.2.2.2.2.1, (Finish_pending_frame env r).2.2.2.1]

theorem Add_cases {env : Env} {r r1 : Rep} {key value : Bytes}
    (h : Add env r key value = some r1) :
    r.closed = false ∧
      ((ok r = false ∧ r1 = r) ∨
       (ok r = true ∧ ∃ r2, Add_entry env r key value = some r2 ∧
         ((r2.data_block.CurrentSizeEstimate env r2.options ≥ r2.options.block_size ∧
             Flush env r2 = some r1) ∨
          (r2.data_block.CurrentSizeEstimate env r2.options < r2.options.block_size ∧
             r1 = r2)))) := by
  unfold Add at h
  by_cases hc : r.closed = true
  · simp [hc] at h
  · refine ⟨by simpa using hc, ?_⟩
    rw [if_neg hc] at h
    by_cases hok : ok r = true
    · rw [if_neg (by simp [hok])] at h
      refine Or.inr ⟨hok, ?_⟩
      cases ha : Add_entry env r key value with
      | none => rw [ha] at h; simp at h
      | some r2 =>
        rw [ha] at h
        simp only at h
        refine ⟨r2, rfl, ?_⟩
        by_cases hs : r2.data_block.CurrentSizeEstimate env r2.options ≥ r2.options.block_size
        · rw [if_pos hs] at h
          exact Or.inl ⟨hs, h⟩
        · rw [if_neg hs] at h
          exact Or.inr ⟨by omega, (Option.some.inj h).symm⟩
    · rw [if_pos (by simp [hok])] at h
      exact Or.inl ⟨by simpa using hok, (Option.some.inj h).symm⟩

theorem step_Reach {env : Env} {r r1 : Rep} {op : Op} (hr : Reach env r)
    (h : step env r op = some r1) : Reach env r1 := by
  cases op with
  | add key value =>
    obtain ⟨hc, h1 | h1⟩ := Add_cases h
    · rw [h1.2]; exact hr
    · obtain ⟨hok, r2, ha, h2 | h2⟩ := h1
      · exact Reach.flush (Reach.add_entry key value hr hc hok ha) h2.2
      · rw [h2.2]; exact Reach.add_entry key value hr hc hok ha
  | flush => exact Reach.flush hr h
  | changeOptions o =>
    simp only [step, Option.some.injEq] at h
    rw [← h]
    exact Reach.changeOptions o hr
  | finish =>
    simp only [step, Option.map_eq_some', Prod.exists, exists_eq_right] at h
    obtain ⟨st, h⟩ := h
    obtain ⟨r0, r1', r2, r3, hm, hi, h0, h1, h2, h3, h4, -⟩ := Finish_stages h
    have hc1 : r1'.closed = true := by rw [(Finish_close_some h1).2]
    have hc2 : r2.closed = true := by rw [Finish_metaindex_closed h2, hc1]
    have hc3 : r3.closed = true := by rw [Finish_index_closed h3, hc2]
    rw [h4]
    exact Reach.finish_footer hm hi
      (Reach.finish_index (Reach.finish_metaindex (Reach.finish_close (Reach.flush hr h0) h1)
        hc1 h2) hc2 h3) hc3
  | abandon => exact Reach.abandon hr h

theorem run_Reach {env : Env} {ops : List Op} {r r1 : Rep} (hr : Reach env r)
    (h : run env r ops = some r1) : Reach env r1 := by
  induction ops generalizing r with
  | nil =>
    simp only [run, Option.some.injEq] at h
    rw [← h]; exact hr
  | cons op ops ih =>
    simp only [run] at h
    cases hs : step env r op with
    | none => rw [hs] at h; simp at h
    | some r2 =>
      rw [hs] at h
      exact ih (step_Reach hr hs) h

/-! ## The growth of the file -/

theorem Grows_refl (r : Rep) : Grows r r := ⟨le_refl _, fun _ => le_refl _⟩

theorem Grows_trans {r r1 r2 : Rep} (h1 : Grows r r1) (h2 : Grows r1 r2) : Grows r r2 :=
  ⟨le_trans h1.1 h2.1, fun hlen =>
    le_trans (h1.2 (lt_of_le_of_lt h2.1 hlen)) (h2.2 hlen)⟩

theorem Grows_of_eq {r r1 : Rep} (hf : r1.file = r.file) (ho : r1.offset = r.offset) :
    Grows r r1 := by
  unfold Grows
  rw [hf, ho]
  exact ⟨le_refl _, fun _ => le_refl _⟩

theorem WriteBlock_Grows {env : Env} {r r1 : Rep} {o : Options} {block b1 : BlockBuilder}
    {hd : BlockHandle} (h : WriteBlock env r o block = some (r1, b1, hd)) (hinv : OffsetInv r) :
    Grows r r1 := by
  refine ⟨WriteBlock_contents_length_le h, fun hlen => ?_⟩
  have hokr := (WriteBlock_frame h).1
  by_cases h1 : (r.file.Append (WriteBlock_payload env r o block)).1.ok = true
  · by_cases h2 : ((r.file.Append (WriteBlock_payload env r o block)).2.Append
        (WriteBlock_trailer env (WriteBlock_payload env r o block)
          (WriteBlock_type env r o block))).1.ok = true
    · obtain ⟨-, hf, hoff⟩ := WriteBlock_both_ok h h1 h2
      rw [hf, File_Append_ok_contents _ _ h2, File_Append_ok_contents _ _ h1] at hlen
      simp only [List.length_append, WriteBlock_trailer_length] at hlen
      have heq := (hinv (by omega)).2 hokr
      rw [hoff, Nat.mod_eq_of_lt (by omega)]
      omega
    · rw [(WriteBlock_trailer_fails h h1 (by simpa using h2)).2.2]
  · rw [(WriteBlock_payload_fails h (by simpa using h1)).2.2]

theorem Flush_Grows {env : Env} {r r1 : Rep} (h : Flush env r = some r1) (hinv : OffsetInv r) :
    Grows r r1 := by
  obtain ⟨-, h1 | h1 | h1⟩ := Flush_cases h
  · rw [h1.2]; exact Grows_refl r
  · rw [h1.2.2]; exact Grows_refl r
  · obtain ⟨-, -, -, rw, b, hd, hw, h2 | h2⟩ := h1
    · have hg := WriteBlock_Grows hw hinv
      rw [h2.2]
      exact hg
    · have hg := WriteBlock_Grows hw hinv
      rw [h2.2]
      unfold Grows at hg ⊢
      simp only [File_Flush_contents]
      exact hg

theorem Finish_footer_Grows (env : Env) (r : Rep) (h1 h2 : BlockHandle) (hinv : OffsetInv r) :
    Grows r (Finish_footer env r h1 h2) := by
  unfold Finish_footer
  by_cases hok : ok r = true
  · rw [if_pos hok]
    simp only
    by_cases ha : (r.file.Append (env.Footer_EncodeTo
        { metaindex_handle := h1, index_handle := h2 })).1.ok = true
    · rw [if_pos ha]
      refine ⟨?_, fun hlen => ?_⟩
      · simp only [File_Append_ok_contents _ _ ha, List.length_append]
        omega
      · simp only [File_Append_ok_contents _ _ ha, List.length_append] at hlen ⊢
        have := (hinv (by omega)).2 hok
        rw [Nat.mod_eq_of_lt (by omega)]
        omega
    · rw [if_neg ha]
      refine ⟨?_, fun _ => le_refl _⟩
      simp only [File_Append_fail_contents _ _ (by simpa using ha : (r.file.Append
        (env.Footer_EncodeTo { metaindex_handle := h1, index_handle := h2 })).1.ok = false)]
      exact le_refl _
  · rw [if_neg hok]
    exact Grows_refl r

theorem step_Grows {env : Env} {r r1 : Rep} {op : Op} (hr : Reach env r)
    (h : step env r op = some r1) : Grows r r1 := by
  cases op with
  | add key value =>
    obtain ⟨hc, h1 | h1⟩ := Add_cases h
    · rw [h1.2]; exact Grows_refl r
    · obtain ⟨hok, r2, ha, h2 | h2⟩ := h1
      · have hr2 := Reach.add_entry key value hr hc hok ha
        have hg : Grows r r2 := by
          rw [(Add_entry_some ha).2.2]
          exact Grows_of_eq rfl rfl
        exact Grows_trans hg (Flush_Grows h2.2 (Reach_OffsetInv hr2))
      · rw [h2.2, (Add_entry_some ha).2.2]
        exact Grows_of_eq rfl rfl
  | flush => exact Flush_Grows h (Reach_OffsetInv hr)
  | changeOptions o =>
    simp only [step, Option.some.injEq] at h
    rw [← h]
    unfold ChangeOptions
    split
    · exact Grows_refl r
    · exact Grows_of_eq rfl rfl
  | finish =>
    simp only [step, Option.map_eq_some', Prod.exists, exists_eq_right] at h
    obtain ⟨st, h⟩ := h
    obtain ⟨r0, r1', r2, r3, hm, hi, h0, h1, h2, h3, h4, -⟩ := Finish_stages h
    have hc1 : r1'.closed = true := by rw [(Finish_close_some h1).2]
    have hc2 : r2.closed = true := by rw [Finish_metaindex_closed h2, hc1]
    have hR0 := Reach.flush hr h0
    have hR1 := Reach.finish_close hR0 h1
    have hR2 := Reach.finish_metaindex hR1 hc1 h2
    have hR3 := Reach.finish_index hR2 hc2 h3
    have g0 : Grows r r0 := Flush_Grows h0 (Reach_OffsetInv hr)
    have g1 : Grows r0 r1' := by
      rw [(Finish_close_some h1).2]
      exact Grows_of_eq rfl rfl
    have g2 : Grows r1' r2 := by
      rcases Finish_metaindex_cases h2 with c | c
      · rw [c.2.1]; exact Grows_refl _
      · obtain ⟨-, b, hw⟩ := c
        exact WriteBlock_Grows hw (Reach_OffsetInv hR1)
    have g3 : Grows r2 r3 := by
      rcases Finish_index_cases h3 with c | c
      · rw [c.2.1]; exact Grows_refl _
      · obtain ⟨-, rw, b, hw, hr3⟩ := c
        have hp : Grows r2 (Finish_pending env r2) :=
          Grows_of_eq (Finish_pending_frame env r2).1 (Finish_pending_frame env r2).2.1
        have hg := WriteBlock_Grows hw (Finish_pending_OffsetInv env r2 (Reach_OffsetInv hR2))
        have hg3 : Grows rw r3 := by
          rw [hr3]
          exact Grows_of_eq rfl rfl
        exact Grows_trans hp (Grows_trans hg hg3)
    rw [h4]
    exact Grows_trans g0 (Grows_trans g1 (Grows_trans g2 (Grows_trans g3
      (Finish_footer_Grows env r3 hm hi (Reach_OffsetInv hR3)))))
  | abandon =>
    rw [(Abandon_some h).2]
    exact Grows_of_eq rfl rfl

theorem run_Grows {env : Env} {ops : List Op} {r r1 : Rep} (hr : Reach env r)
    (h : run env r ops = some r1) : Grows r r1 := by
  induction ops generalizing r with
  | nil =>
    simp only [run, Option.some.injEq] at h
    rw [← h]; exact Grows_refl r
  | cons op ops ih =>
    simp only [run] at h
    cases hs : step env r op with
    | none => rw [hs] at h; simp at h
    | some r2 =>
      rw [hs] at h
      exact Grows_trans (step_Grows hr hs) (ih (step_Reach hr hs) h)

/-! ## Block writes -/

/-- C1: a block write started in a reachable state whose status is ok, and whose
payload and trailer appends both succeed, returns the handle made of the running
offset before the write and the length of the stored payload; that offset is the
length of the file before the write (a file shorter than 2^64 bytes), so the file
bytes in the range of the handle are exactly the stored payload. -/
theorem WriteBlock_handle_locates_payload (env : Env) (r : Rep) (o : Options)
    (block : BlockBuilder) (hreach : Reach env r) (hok : ok r = true)
    (hlen : r.file.contents.length < 2 ^ 64)
    (h1 : (r.file.Append (WriteBlock_payload env r o block)).1.ok = true)
    (h2 : ((r.file.Append (WriteBlock_payload env r o block)).2.Append
      (WriteBlock_trailer env (WriteBlock_payload env r o block)
        (WriteBlock_type env r o block))).1.ok = true) :
    ∃ r1 hd, WriteBlock env r o block = some (r1, block.Reset, hd) ∧
      hd.offset = r.offset ∧ r.offset = r.file.contents.length ∧
      hd.size = (WriteBlock_payload env r o block).length ∧
      (r1.file.contents.drop hd.offset).take hd.size = WriteBlock_payload env r o block := by
  obtain ⟨r1, hw⟩ := WriteBlock_isSome env r o block hok
  have hoff : r.offset = r.file.contents.length := (Reach_OffsetInv hreach hlen).2 hok
  have hc : r1.file.contents = r.file.contents ++ (WriteBlock_payload env r o block ++
      WriteBlock_trailer env (WriteBlock_payload env r o block)
        (WriteBlock_type env r o block)) := by
    rw [(WriteBlock_both_ok hw h1 h2).2.1, File_Append_ok_contents _ _ h2,
      File_Append_ok_contents _ _ h1, List.append_assoc]
  refine ⟨r1, _, hw, rfl, hoff, rfl, ?_⟩
  simp only [hc, hoff, List.drop_left, List.take_left]

/-- C1, at a concrete input: the first block written to a new file by the sample builder. -/
theorem WriteBlock_handle_locates_payload_witness :
    ∃ r1 hd, WriteBlock sampleEnv (sampleRep []) sampleOptions sampleDataBlock =
        some (r1, sampleDataBlock.Reset, hd) ∧
      hd.offset = (sampleRep []).offset ∧
      (sampleRep []).offset = (sampleRep []).file.contents.length ∧
      hd.size = (WriteBlock_payload sampleEnv (sampleRep []) sampleOptions sampleDataBlock).length ∧
      (r1.file.contents.drop hd.offset).take hd.size =
        WriteBlock_payload sampleEnv (sampleRep []) sampleOptions sampleDataBlock :=
  WriteBlock_handle_locates_payload sampleEnv (sampleRep []) sampleOptions sampleDataBlock
    (Reach.create sampleOptions []) rfl (by decide) rfl rfl

/-- C2: a block write whose appends succeed appends exactly the chosen payload
and then five trailer bytes: the tag of the effective compression type (0 for
none, 1 for snappy) and the four bytes, least significant first, of the masked
checksum of the payload followed by the tag, the checksum of a longer string
being what `crc32c::Extend` computes from the checksum of a shorter one. -/
theorem WriteBlock_appends_payload_and_trailer (env : Env) (r : Rep) (o : Options)
    (block : BlockBuilder) (hok : ok r = true)
    (hcrc : ∀ a b, env.crc32c_Extend (env.crc32c_Value a) b = env.crc32c_Value (a ++ b))
    (h1 : (r.file.Append (WriteBlock_payload env r o block)).1.ok = true)
    (h2 : ((r.file.Append (WriteBlock_payload env r o block)).2.Append
      (WriteBlock_trailer env (WriteBlock_payload env r o block)
        (WriteBlock_type env r o block))).1.ok = true) :
    ∃ r1 hd tag crc, WriteBlock env r o block = some (r1, block.Reset, hd) ∧
      (WriteBlock_type env r o block = CompressionType.kNoCompression ∧ tag = 0 ∨
        WriteBlock_type env r o block = CompressionType.kSnappyCompression ∧ tag = 1) ∧
      crc = env.crc32c_Mask (env.crc32c_Value (WriteBlock_payload env r o block ++ [tag])) ∧
      r1.file.contents = r.file.contents ++ WriteBlock_payload env r o block ++
        [tag, crc % 256, crc / 256 % 256, crc / 256 ^ 2 % 256, crc / 256 ^ 3 % 256] := by
  obtain ⟨r1, hw⟩ := WriteBlock_isSome env r o block hok
  refine ⟨r1, _, (WriteBlock_type env r o block).toNat, _, hw, ?_, rfl, ?_⟩
  · cases WriteBlock_type env r o block
    · exact Or.inl ⟨rfl, rfl⟩
    · exact Or.inr ⟨rfl, rfl⟩
  · rw [(WriteBlock_both_ok hw h1 h2).2.1, File_Append_ok_contents _ _ h2,
      File_Append_ok_contents _ _ h1]
    simp [WriteBlock_trailer, EncodeFixed32, hcrc]

/-- C2, at a concrete input: the first block written to a new file by the sample builder. -/
theorem WriteBlock_appends_payload_and_trailer_witness :
    ∃ r1 hd tag crc, WriteBlock sampleEnv (sampleRep []) sampleOptions sampleDataBlock =
        some (r1, sampleDataBlock.Reset, hd) ∧
      (WriteBlock_type sampleEnv (sampleRep []) sampleOptions sampleDataBlock =
          CompressionType.kNoCompression ∧ tag = 0 ∨
        WriteBlock_type sampleEnv (sampleRep []) sampleOptions sampleDataBlock =
          CompressionType.kSnappyCompression ∧ tag = 1) ∧
      crc = sampleEnv.crc32c_Mask (sampleEnv.crc32c_Value
        (WriteBlock_payload sampleEnv (sampleRep []) sampleOptions sampleDataBlock ++ [tag])) ∧
      r1.file.contents = (sampleRep []).file.contents ++
        WriteBlock_payload sampleEnv (sampleRep []) sampleOptions sampleDataBlock ++
        [tag, crc % 256, crc / 256 % 256, crc / 256 ^ 2 % 256, crc / 256 ^ 3 % 256] :=
  WriteBlock_appends_payload_and_trailer sampleEnv (sampleRep []) sampleOptions sampleDataBlock
    rfl (fun a b => by simp [sampleEnv, List.sum_append, Nat.add_mod]) rfl rfl

theorem WriteBlock_contents_choice (env : Env) (compression : CompressionType)
    (scratch raw : Bytes) :
    ((WriteBlock_contents env compression scratch raw).2.1 = CompressionType.kSnappyCompression ↔
        compression = CompressionType.kSnappyCompression ∧
          ∃ c, env.Snappy_Compress raw = some c ∧ c.length < raw.length - raw.length / 8) ∧
      ((WriteBlock_contents env compression scratch raw).2.1 =
          CompressionType.kSnappyCompression →
        env.Snappy_Compress raw = some (WriteBlock_contents env compression scratch raw).1) ∧
      ((WriteBlock_contents env compression scratch raw).2.1 = CompressionType.kNoCompression →
        (WriteBlock_contents env compression scratch raw).1 = raw) := by
  unfold WriteBlock_contents
  cases compression with
  | kNoCompression => simp
  | kSnappyCompression =>
    cases hs : env.Snappy_Compress raw with
    | none => simp
    | some c =>
      by_cases hlt : c.length < raw.length - raw.length / 8
      · simp [hlt]
      · simp [hlt]

/-- C7: in a block write the compressed form is stored, with tag snappy (1), if
and only if the configured compression is snappy, the compressor succeeds and
the compressed size is below raw size minus raw size / 8 (integer division); in
every other case the raw bytes are stored with tag none (0). What is stored is
what the write appends to the file, followed by the trailer that starts with the tag. -/
theorem WriteBlock_payload_choice (env : Env) (r : Rep) (o : Options) (block : BlockBuilder)
    (hok : ok r = true) :
    (WriteBlock_type env r o block = CompressionType.kSnappyCompression ↔
        r.options.compression = CompressionType.kSnappyCompression ∧
          ∃ c, env.Snappy_Compress (block.Finish env o) = some c ∧
            c.length < (block.Finish env o).length - (block.Finish env o).length / 8) ∧
      (WriteBlock_type env r o block = CompressionType.kSnappyCompression →
        (WriteBlock_type env r o block).toNat = 1 ∧
          env.Snappy_Compress (block.Finish env o) = some (WriteBlock_payload env r o block)) ∧
      (WriteBlock_type env r o block ≠ CompressionType.kSnappyCompression →
        WriteBlock_type env r o block = CompressionType.kNoCompression ∧
          (WriteBlock_type env r o block).toNat = 0 ∧
          WriteBlock_payload env r o block = block.Finish env o) ∧
      ∃ r1, WriteBlock env r o block = some (r1, block.Reset,
          { offset := r.offset, size := (WriteBlock_payload env r o block).length }) ∧
        ((r.file.Append (WriteBlock_payload env r o block)).1.ok = true →
          ((r.file.Append (WriteBlock_payload env r o block)).2.Append
            (WriteBlock_trailer env (WriteBlock_payload env r o block)
              (WriteBlock_type env r o block))).1.ok = true →
          ∃ crc, r1.file.contents = r.file.contents ++ WriteBlock_payload env r o block ++
            (WriteBlock_type env r o block).toNat :: crc) := by
  have hch := WriteBlock_contents_choice env r.options.compression r.compressed_output
    (block.Finish env o)
  refine ⟨hch.1, fun ht => ⟨by rw [ht]; rfl, hch.2.1 ht⟩, fun ht => ?_, ?_⟩
  · have hno : WriteBlock_type env r o block = CompressionType.kNoCompression := by
      cases hty : WriteBlock_type env r o block with
      | kNoCompression => rfl
      | kSnappyCompression => exact absurd hty ht
    exact ⟨hno, by rw [hno]; rfl, hch.2.2 hno⟩
  · obtain ⟨r1, hw⟩ := WriteBlock_isSome env r o block hok
    refine ⟨r1, hw, fun h1 h2 => ⟨EncodeFixed32 (env.crc32c_Mask (env.crc32c_Extend
      (env.crc32c_Value (WriteBlock_payload env r o block))
      [(WriteBlock_type env r o block).toNat])), ?_⟩⟩
    rw [(WriteBlock_both_ok hw h1 h2).2.1, File_Append_ok_contents _ _ h2,
      File_Append_ok_contents _ _ h1]
    rfl

/-- C7, at a concrete input: the sample builder does not compress, and stores the raw block. -/
theorem WriteBlock_payload_choice_witness :
    WriteBlock_type sampleEnv (sampleRep []) sampleOptions sampleDataBlock =
        CompressionType.kNoCompression ∧
      WriteBlock_payload sampleEnv (sampleRep []) sampleOptions sampleDataBlock =
        sampleDataBlock.Finish sampleEnv sampleOptions :=
  ⟨((WriteBlock_payload_choice sampleEnv (sampleRep []) sampleOptions sampleDataBlock
      rfl).2.2.1 (by decide)).1,
   ((WriteBlock_payload_choice sampleEnv (sampleRep []) sampleOptions sampleDataBlock
      rfl).2.2.1 (by decide)).2.2⟩

/-- C6: whenever the compressor reports unsupported, and whenever its output has
at least 7/8 of the length of the raw block (8 * c ≥ 7 * r), the block write
records tag none (0) and stores the raw serialization: the test
c < r - r / 8 never accepts such an output. -/
theorem WriteBlock_compression_fallback (env : Env) (r : Rep) (o : Options)
    (block : BlockBuilder) (hok : ok r = true)
    (hc : env.Snappy_Compress (block.Finish env o) = none ∨
      ∃ c, env.Snappy_Compress (block.Finish env o) = some c ∧
        8 * c.length ≥ 7 * (block.Finish env o).length) :
    WriteBlock_type env r o block = CompressionType.kNoCompression ∧
      (WriteBlock_type env r o block).toNat = 0 ∧
      WriteBlock_payload env r o block = block.Finish env o ∧
      (∀ c, env.Snappy_Compress (block.Finish env o) = some c →
        ¬ c.length < (block.Finish env o).length - (block.Finish env o).length / 8) ∧
      ∃ r1, WriteBlock env r o block = some (r1, block.Reset,
          { offset := r.offset, size := (block.Finish env o).length }) ∧
        ((r.file.Append (block.Finish env o)).1.ok = true →
          ((r.file.Append (block.Finish env o)).2.Append
            (WriteBlock_trailer env (block.Finish env o)
              CompressionType.kNoCompression)).1.ok = true →
          r1.file.contents = r.file.contents ++ block.Finish env o ++
            WriteBlock_trailer env (block.Finish env o) CompressionType.kNoCompression) := by
  have hch := WriteBlock_contents_choice env r.options.compression r.compressed_output
    (block.Finish env o)
  have hrej : ∀ c, env.Snappy_Compress (block.Finish env o) = some c →
      ¬ c.length < (block.Finish env o).length - (block.Finish env o).length / 8 := by
    intro c hs
    rcases hc with hc | ⟨c1, hc1, hge⟩
    · rw [hc] at hs
      exact absurd hs (by simp)
    · rw [hc1] at hs
      have := Option.some.inj hs
      subst this
      omega
  have hno : WriteBlock_type env r o block = CompressionType.kNoCompression := by
    cases hty : WriteBlock_type env r o block with
    | kNoCompression => rfl
    | kSnappyCompression =>
      obtain ⟨-, c, hs, hlt⟩ := hch.1.1 hty
      exact absurd hlt (hrej c hs)
  have hp : WriteBlock_payload env r o block = block.Finish env o := hch.2.2 hno
  refine ⟨hno, by rw [hno]; rfl, hp, hrej, ?_⟩
  obtain ⟨r1, hw⟩ := WriteBlock_isSome env r o block hok
  have hw2 := hw
  rw [hp] at hw2
  refine ⟨r1, hw2, fun h1 h2 => ?_⟩
  have h1p : (r.file.Append (WriteBlock_payload env r o block)).1.ok = true := by
    rw [hp]; exact h1
  have h2p : ((r.file.Append (WriteBlock_payload env r o block)).2.Append
      (WriteBlock_trailer env (WriteBlock_payload env r o block)
        (WriteBlock_type env r o block))).1.ok = true := by
    rw [hp, hno]; exact h2
  rw [(WriteBlock_both_ok hw h1p h2p).2.1, File_Append_ok_contents _ _ h2p,
    File_Append_ok_contents _ _ h1p, hp, hno]

/-- C6, at a concrete input: snappy configured, and the sample compressor turns the
13 bytes of the sample block into 14. -/
theorem WriteBlock_compression_fallback_witness :
    WriteBlock_type sampleEnv
        { sampleRep [] with
          options := { sampleOptions with compression := CompressionType.kSnappyCompression } }
        sampleOptions sampleDataBlock = CompressionType.kNoCompression ∧
      WriteBlock_payload sampleEnv
        { sampleRep [] with
          options := { sampleOptions with compression := CompressionType.kSnappyCompression } }
        sampleOptions sampleDataBlock = sampleDataBlock.Finish sampleEnv sampleOptions :=
  ⟨(WriteBlock_compression_fallback sampleEnv
      { sampleRep [] with
        options := { sampleOptions with compression := CompressionType.kSnappyCompression } }
      sampleOptions sampleDataBlock rfl
      (Or.inr ⟨sampleCompress (sampleDataBlock.Finish sampleEnv sampleOptions), rfl,
        by decide⟩)).1,
   (WriteBlock_compression_fallback sampleEnv
      { sampleRep [] with
        options := { sampleOptions with compression := CompressionType.kSnappyCompression } }
      sampleOptions sampleDataBlock rfl
      (Or.inr ⟨sampleCompress (sampleDataBlock.Finish sampleEnv sampleOptions), rfl,
        by decide⟩)).2.2.1⟩

/-! ## The size of the file -/

/-- C8: from a reachable state, `FileSize()` does not decrease across any
sequence of calls (of `Add` and `Flush` in particular); a block write whose
payload and trailer appends both succeed increases it by exactly the length of
the stored payload plus 5; a block write one of whose appends fails leaves it
unchanged and leaves the status set to that failure. The file is taken to stay
shorter than 2^64 bytes, the width of `offset`. -/
theorem FileSize_monotone (env : Env) (r : Rep) (hreach : Reach env r) :
    (∀ ops r1, run env r ops = some r1 → r1.file.contents.length < 2 ^ 64 →
      FileSize r ≤ FileSize r1) ∧
    (∀ o block, ok r = true →
      ∃ r1, WriteBlock env r o block = some (r1, block.Reset,
          { offset := r.offset, size := (WriteBlock_payload env r o block).length }) ∧
        ((r.file.Append (WriteBlock_payload env r o block)).1.ok = true →
          ((r.file.Append (WriteBlock_payload env r o block)).2.Append
            (WriteBlock_trailer env (WriteBlock_payload env r o block)
              (WriteBlock_type env r o block))).1.ok = true →
          r.file.contents.length + ((WriteBlock_payload env r o block).length + 5) < 2 ^ 64 →
          FileSize r1 = FileSize r + ((WriteBlock_payload env r o block).length + 5)) ∧
        ((r.file.Append (WriteBlock_payload env r o block)).1.ok = false →
          FileSize r1 = FileSize r ∧ ok r1 = false ∧
            r1.status = (r.file.Append (WriteBlock_payload env r o block)).1) ∧
        ((r.file.Append (WriteBlock_payload env r o block)).1.ok = true →
          ((r.file.Append (WriteBlock_payload env r o block)).2.Append
            (WriteBlock_trailer env (WriteBlock_payload env r o block)
              (WriteBlock_type env r o block))).1.ok = false →
          FileSize r1 = FileSize r ∧ ok r1 = false ∧
            r1.status = ((r.file.Append (WriteBlock_payload env r o block)).2.Append
              (WriteBlock_trailer env (WriteBlock_payload env r o block)
                (WriteBlock_type env r o block))).1)) := by
  refine ⟨fun ops r1 hrun hlen => (run_Grows hreach hrun).2 hlen, fun o block hok => ?_⟩
  obtain ⟨r1, hw⟩ := WriteBlock_isSome env r o block hok
  refine ⟨r1, hw, fun h1 h2 hlen => ?_, fun h1 => ?_, fun h1 h2 => ?_⟩
  · have heq := (Reach_OffsetInv hreach (by omega)).2 hok
    unfold FileSize
    rw [(WriteBlock_both_ok hw h1 h2).2.2, Nat.mod_eq_of_lt (by unfold kBlockTrailerSize; omega)]
    rfl
  · obtain ⟨hst, -, hoff⟩ := WriteBlock_payload_fails hw h1
    exact ⟨hoff, by unfold ok; rw [hst]; exact h1, hst⟩
  · obtain ⟨hst, -, hoff⟩ := WriteBlock_trailer_fails hw h1 h2
    exact ⟨hoff, by unfold ok; rw [hst]; exact h2, hst⟩

/-- C8, at a concrete input: the sample builder after an add and a flush, which
write a block of 13 bytes and its trailer. -/
theorem FileSize_monotone_witness :
    FileSize (sampleRep []) ≤ FileSize (sampleRun [] [Op.add [97] [49], Op.flush]) ∧
      FileSize (sampleRun [] [Op.add [97] [49], Op.flush]) = 18 :=
  ⟨(FileSize_monotone sampleEnv (sampleRep []) (Reach.create sampleOptions [])).1
      [Op.add [97] [49], Op.flush] (sampleRun [] [Op.add [97] [49], Op.flush]) rfl (by decide),
    rfl⟩

/-- C9, as stated, fails: after an add and a flush whose payload append succeeds
and whose trailer append fails, the file holds the 13 bytes of the payload while
`FileSize()` is 0. -/
theorem FileSize_after_failed_trailer :
    (run sampleEnv (sampleRep [Status.OK, Status.IOError "disk full"])
        [Op.add [97] [49], Op.flush]).map
      (fun r => (FileSize r, r.file.contents, r.status)) =
    some (0, [0, 1, 1, 97, 49, 0, 0, 0, 0, 1, 0, 0, 0], Status.IOError "disk full") := by
  rfl

/-- C9, amended: in every reachable state whose status is ok, `FileSize()` is the
number of bytes appended to the output file so far; in every reachable state,
whatever the status, it is at most that number (a file shorter than 2^64 bytes). -/
theorem FileSize_le_appended (env : Env) (r : Rep) (hreach : Reach env r)
    (hlen : r.file.contents.length < 2 ^ 64) :
    FileSize r ≤ r.file.contents.length ∧
      (ok r = true → FileSize r = r.file.contents.length) :=
  Reach_OffsetInv hreach hlen

/-- C9 amended, at a concrete input: the sample builder after an add, a flush and a finish. -/
theorem FileSize_le_appended_witness :
    FileSize (sampleRun [] [Op.add [97] [49], Op.flush, Op.finish]) ≤
        (sampleRun [] [Op.add [97] [49], Op.flush, Op.finish]).file.contents.length ∧
      (ok (sampleRun [] [Op.add [97] [49], Op.flush, Op.finish]) = true →
        FileSize (sampleRun [] [Op.add [97] [49], Op.flush, Op.finish]) =
          (sampleRun [] [Op.add [97] [49], Op.flush, Op.finish]).file.contents.length) :=
  FileSize_le_appended sampleEnv (sampleRun [] [Op.add [97] [49], Op.flush, Op.finish])
    (run_Reach (Reach.create sampleOptions [])
      (show run sampleEnv (sampleRep []) [Op.add [97] [49], Op.flush, Op.finish] = some _
        from rfl))
    (by decide)

/-! ## The sticky status -/

theorem SameTable_refl (r : Rep) : SameTable r r := ⟨rfl, rfl, rfl, rfl, rfl, rfl, rfl⟩

theorem Flush_failed (env : Env) (r : Rep) (hc : r.closed = false) (hfail : ok r = false) :
    Flush env r = some r := by
  simp [Flush, hc, hfail]

theorem Add_failed (env : Env) (r : Rep) (key value : Bytes) (hc : r.closed = false)
    (hfail : ok r = false) : Add env r key value = some r := by
  simp [Add, hc, hfail]

theorem Finish_failed (env : Env) (r : Rep) (hc : r.closed = false) (hfail : ok r = false) :
    Finish env r = some (r.status, { r with closed := true }) := by
  have hfail1 : ok { r with closed := true } = false := hfail
  simp [Finish, Flush_failed env r hc hfail, Finish_close, hc, Finish_metaindex, Finish_index,
    Finish_footer, hfail1]

theorem step_failed {env : Env} {r r1 : Rep} {op : Op} (hfail : ok r = false)
    (h : step env r op = some r1) : SameTable r r1 := by
  cases op with
  | add key value =>
    obtain ⟨hc, -⟩ := Add_cases h
    simp only [step, Add_failed env r key value hc hfail, Option.some.injEq] at h
    rw [← h]; exact SameTable_refl r
  | flush =>
    obtain ⟨hc, -⟩ := Flush_cases h
    simp only [step, Flush_failed env r hc hfail, Option.some.injEq] at h
    rw [← h]; exact SameTable_refl r
  | changeOptions o =>
    simp only [step, Option.some.injEq] at h
    rw [← h]
    unfold ChangeOptions
    split
    · exact SameTable_refl r
    · exact ⟨rfl, rfl, rfl, rfl, rfl, rfl, rfl⟩
  | finish =>
    simp only [step, Option.map_eq_some', Prod.exists, exists_eq_right] at h
    obtain ⟨st, h⟩ := h
    obtain ⟨r0, -, -, -, -, -, h0, -⟩ := Finish_stages h
    have hc := (Flush_closed h0).1
    rw [Finish_failed env r hc hfail] at h
    simp only [Option.some.injEq, Prod.mk.injEq] at h
    rw [← h.2]
    exact ⟨rfl, rfl, rfl, rfl, rfl, rfl, rfl⟩
  | abandon =>
    rw [(Abandon_some h).2]
    exact ⟨rfl, rfl, rfl, rfl, rfl, rfl, rfl⟩

theorem run_failed {env : Env} {ops : List Op} {r r1 : Rep} (hfail : ok r = false)
    (h : run env r ops = some r1) : SameTable r r1 := by
  induction ops generalizing r with
  | nil =>
    simp only [run, Option.some.injEq] at h
    rw [← h]; exact SameTable_refl r
  | cons op ops ih =>
    simp only [run] at h
    cases hs : step env r op with
    | none => rw [hs] at h; simp at h
    | some r2 =>
      rw [hs] at h
      have h1 := step_failed hfail hs
      have hfail2 : ok r2 = false := by
        unfold ok at *
        rw [h1.1]; exact hfail
      have h2 := ih hfail2 h
      unfold SameTable at *
      obtain ⟨a1, a2, a3, a4, a5, a6, a7⟩ := h1
      obtain ⟨b1, b2, b3, b4, b5, b6, b7⟩ := h2
      exact ⟨b1.trans a1, b2.trans a2, b3.trans a3, b4.trans a4, b5.trans a5, b6.trans a6,
        b7.trans a7⟩

/-- C10: once the status is a failure it stays that failure across every later
sequence of calls, and these calls append no byte, issue no file flush (the file
is the same), and leave offset, entry count, last key, data block and index
block as they are; on a builder that is still open `Add` and `Flush` return
without any change and `Finish` returns that same failure, only closing the builder. -/
theorem status_sticky (env : Env) (r : Rep) (hfail : ok r = false) :
    (∀ ops r1, run env r ops = some r1 →
      r1.status = r.status ∧ r1.file = r.file ∧ r1.offset = r.offset ∧
        r1.num_entries = r.num_entries ∧ r1.last_key = r.last_key ∧
        r1.data_block = r.data_block ∧ r1.index_block = r.index_block) ∧
    (r.closed = false →
      (∀ key value, Add env r key value = some r) ∧ Flush env r = some r ∧
        Finish env r = some (r.status, { r with closed := true })) :=
  ⟨fun _ _ hrun => run_failed hfail hrun,
    fun hc => ⟨fun key value => Add_failed env r key value hc hfail, Flush_failed env r hc hfail,
      Finish_failed env r hc hfail⟩⟩

/-- C10, at a concrete input: the sample builder whose first flush failed on the
trailer, then an add, a flush and a finish. -/
theorem status_sticky_witness :
    (sampleRun [Status.OK, Status.IOError "disk full"]
        [Op.add [97] [49], Op.flush, Op.add [98] [50], Op.flush, Op.finish]).status =
      Status.IOError "disk full" ∧
    (sampleRun [Status.OK, Status.IOError "disk full"]
        [Op.add [97] [49], Op.flush, Op.add [98] [50], Op.flush, Op.finish]).file =
      (sampleRun [Status.OK, Status.IOError "disk full"] [Op.add [97] [49], Op.flush]).file :=
  ⟨((status_sticky sampleEnv
      (sampleRun [Status.OK, Status.IOError "disk full"] [Op.add [97] [49], Op.flush])
      rfl).1 [Op.add [98] [50], Op.flush, Op.finish] _ rfl).1,
   ((status_sticky sampleEnv
      (sampleRun [Status.OK, Status.IOError "disk full"] [Op.add [97] [49], Op.flush])
      rfl).1 [Op.add [98] [50], Op.flush, Op.finish] _ rfl).2.1⟩

/-! ## Calls on a file that never fails -/

theorem WriteBlock_contents_scratch (env : Env) (compression : CompressionType)
    (scratch raw : Bytes) :
    (WriteBlock_contents env compression scratch raw).1 =
        (WriteBlock_contents env compression [] raw).1 ∧
      (WriteBlock_contents env compression scratch raw).2.1 =
        (WriteBlock_contents env compression [] raw).2.1 := by
  unfold WriteBlock_contents
  cases compression with
  | kNoCompression => exact ⟨rfl, rfl⟩
  | kSnappyCompression =>
    cases env.Snappy_Compress raw with
    | none => exact ⟨rfl, rfl⟩
    | some c =>
      by_cases hlt : c.length < raw.length - raw.length / 8
      · simp [hlt]
      · simp [hlt]

theorem WriteBlock_payload_eq (env : Env) (r : Rep) (o : Options) (block : BlockBuilder) :
    WriteBlock_payload env r o block =
      WriteBlock_stored env r.options.compression (block.Finish env o) :=
  (WriteBlock_contents_scratch env _ _ _).1

theorem WriteBlock_bytes_eq (env : Env) (r : Rep) (o : Options) (block : BlockBuilder) :
    WriteBlock_payload env r o block ++
        WriteBlock_trailer env (WriteBlock_payload env r o block) (WriteBlock_type env r o block) =
      WriteBlock_bytes env r.options.compression (block.Finish env o) := by
  unfold WriteBlock_bytes
  rw [← WriteBlock_payload_eq env r o block]
  unfold WriteBlock_type
  rw [(WriteBlock_contents_scratch env _ r.compressed_output _).2]

theorem WriteBlock_bytes_length (env : Env) (compression : CompressionType) (raw : Bytes) :
    (WriteBlock_bytes env compression raw).length =
      (WriteBlock_stored env compression raw).length + 5 := by
  unfold WriteBlock_bytes
  rw [List.length_append, WriteBlock_trailer_length]
  rfl

theorem WriteBlock_neverFails (env : Env) (r : Rep) (o : Options) (block : BlockBuilder)
    (hok : ok r = true) (hnf : r.file.NeverFails) :
    ∃ r1 : Rep,
      WriteBlock env r o block =
        some (r1, { entries := [] },
          { offset := r.offset
            size := (WriteBlock_stored env r.options.compression (block.Finish env o)).length }) ∧
      r1.file.NeverFails ∧
      r1.file.contents = r.file.contents ++
        WriteBlock_bytes env r.options.compression (block.Finish env o) ∧
      r1.file.flush_calls = r.file.flush_calls ∧
      r1 = { r with
             file := r1.file
             status := Status.OK
             offset := (r.offset +
               ((WriteBlock_stored env r.options.compression (block.Finish env o)).length +
                 kBlockTrailerSize)) % 2 ^ 64
             compressed_output := [] } := by
  obtain ⟨r1, hw⟩ := WriteBlock_isSome env r o block hok
  obtain ⟨ha1, hn1, hc1⟩ := File_Append_neverFails r.file (WriteBlock_payload env r o block) hnf
  obtain ⟨ha2, hn2, hc2⟩ := File_Append_neverFails _ (WriteBlock_trailer env
    (WriteBlock_payload env r o block) (WriteBlock_type env r o block)) hn1
  have h1 : (r.file.Append (WriteBlock_payload env r o block)).1.ok = true := by
    rw [ha1]; rfl
  have h2 : ((r.file.Append (WriteBlock_payload env r o block)).2.Append
      (WriteBlock_trailer env (WriteBlock_payload env r o block)
        (WriteBlock_type env r o block))).1.ok = true := by
    rw [ha2]; rfl
  obtain ⟨hst, hf, hoff⟩ := WriteBlock_both_ok hw h1 h2
  have hfr := (WriteBlock_frame hw).2.2.2
  rw [hst, hoff, WriteBlock_payload_eq] at hfr
  rw [WriteBlock_payload_eq] at hw
  refine ⟨r1, hw, by rw [hf]; exact hn2, ?_, ?_, hfr⟩
  · rw [hf, hc2, hc1, List.append_assoc, WriteBlock_bytes_eq]
  · rw [hf, File_Append_flush_calls, File_Append_flush_calls]

theorem Flush_empty (env : Env) (r : Rep) (hc : r.closed = false)
    (he : r.data_block.entries = []) : Flush env r = some r := by
  unfold Flush
  by_cases hok : ok r = true
  · simp [hc, hok, BlockBuilder.empty, he]
  · simp [hc, hok]

theorem Flush_rep_neverFails (env : Env) (r : Rep) (hc : r.closed = false) (hok : ok r = true)
    (hnf : r.file.NeverFails) (hp : r.pending_index_entry = false)
    (he : r.data_block.entries ≠ []) :
    ∃ r1 : Rep, Flush env r = some r1 ∧ r1.file.NeverFails ∧
      r1.file.contents = r.file.contents ++
        WriteBlock_bytes env r.options.compression (r.data_block.Finish env r.options) ∧
      r1.file.flush_calls = r.file.flush_calls + 1 ∧
      r1 = { r with
             file := r1.file
             status := Status.OK
             offset := (r.offset +
               ((WriteBlock_stored env r.options.compression
                 (r.data_block.Finish env r.options)).length + kBlockTrailerSize)) % 2 ^ 64
             compressed_output := []
             data_block := { entries := [] }
             pending_handle :=
               { offset := r.offset
                 size := (WriteBlock_stored env r.options.compression
                   (r.data_block.Finish env r.options)).length }
             pending_index_entry := true } := by
  obtain ⟨rw, hw, hn1, hc1, hfc1, hrw⟩ :=
    WriteBlock_neverFails env r r.options r.data_block hok hnf
  obtain ⟨hfl, hn2, hc2⟩ := File_Flush_neverFails rw.file hn1
  have hfc : rw.file.Flush.2.flush_calls = rw.file.flush_calls + 1 := by
    unfold WritableFile.Flush
    split
    · rfl
    · split <;> rfl
  have hemp : r.data_block.empty = false := by
    unfold BlockBuilder.empty
    cases hde : r.data_block.entries with
    | nil => exact absurd hde he
    | cons a l => rfl
  have hokw : ok rw = true := by rw [hrw]; rfl
  have hF : Flush env r = some
      { rw with
        data_block := { entries := [] }
        pending_handle :=
          { offset := r.offset
            size := (WriteBlock_stored env r.options.compression
              (r.data_block.Finish env r.options)).length }
        pending_index_entry := true
        status := rw.file.Flush.1
        file := rw.file.Flush.2 } := by
    unfold Flush
    rw [if_neg (by simp [hc]), if_neg (by simp [hok]), if_neg (by simp [hemp]),
      if_neg (by simp [hp]), hw]
    simp only
    split
    · rfl
    · rename_i hno
      exact absurd hokw hno
  refine ⟨_, hF, hn2, ?_, ?_, ?_⟩
  · simp only [hc2, hc1]
  · simp only [hfc, hfc1]
  · simp only [hfl]
    rw [hrw]

theorem Finish_eq {env : Env} {r r0 r1 r2 r3 : Rep} {hm hi : BlockHandle}
    (h0 : Flush env r = some r0) (h1 : Finish_close r0 = some r1)
    (h2 : Finish_metaindex env r1 = some (r2, hm)) (h3 : Finish_index env r2 = some (r3, hi)) :
    Finish env r =
      some ((Finish_footer env r3 hm hi).status, Finish_footer env r3 hm hi) := by
  simp [Finish, h0, h1, h2, h3]

theorem Finish_metaindex_neverFails (env : Env) (r : Rep) (hok : ok r = true)
    (hnf : r.file.NeverFails) :
    ∃ r1 : Rep,
      Finish_metaindex env r =
        some (r1,
          { offset := r.offset
            size := (WriteBlock_stored env r.options.compression
              (env.BlockBuilder_Finish r.options [])).length }) ∧
      r1.file.NeverFails ∧
      r1.file.contents = r.file.contents ++
        WriteBlock_bytes env r.options.compression (env.BlockBuilder_Finish r.options []) ∧
      r1.file.flush_calls = r.file.flush_calls ∧
      r1 = { r with
             file := r1.file
             status := Status.OK
             offset := (r.offset +
               ((WriteBlock_stored env r.options.compression
                 (env.BlockBuilder_Finish r.options [])).length + kBlockTrailerSize)) % 2 ^ 64
             compressed_output := [] } := by
  obtain ⟨r1, hw, hn1, hc1, hfc1, hr1⟩ :=
    WriteBlock_neverFails env r r.options { entries := [] } hok hnf
  refine ⟨r1, ?_, hn1, hc1, hfc1, hr1⟩
  unfold Finish_metaindex
  rw [if_pos hok, hw]
  rfl

theorem Finish_index_neverFails (env : Env) (r : Rep) (hok : ok r = true)
    (hnf : r.file.NeverFails) :
    ∃ r1 : Rep,
      Finish_index env r =
        some (r1,
          { offset := r.offset
            size := (WriteBlock_stored env r.options.compression
              (env.BlockBuilder_Finish r.index_block_options
                (Finish_pending env r).index_block.entries)).length }) ∧
      r1.file.NeverFails ∧
      r1.file.contents = r.file.contents ++
        WriteBlock_bytes env r.options.compression
          (env.BlockBuilder_Finish r.index_block_options
            (Finish_pending env r).index_block.entries) ∧
      r1.file.flush_calls = r.file.flush_calls ∧
      r1 = { Finish_pending env r with
             file := r1.file
             status := Status.OK
             offset := (r.offset +
               ((WriteBlock_stored env r.options.compression
                 (env.BlockBuilder_Finish r.index_block_options
                   (Finish_pending env r).index_block.entries)).length +
                 kBlockTrailerSize)) % 2 ^ 64
             compressed_output := []
             index_block := { entries := [] } } := by
  obtain ⟨hf1, hf2, hf3, -, -, hf6, hf7, -⟩ := Finish_pending_frame env r
  have hok1 : ok (Finish_pending env r) = true := by
    unfold ok; rw [hf3]; exact hok
  have hnf1 : (Finish_pending env r).file.NeverFails := by rw [hf1]; exact hnf
  obtain ⟨rw, hw, hn1, hc1, hfc1, hrw⟩ := WriteBlock_neverFails env (Finish_pending env r)
    (Finish_pending env r).index_block_options (Finish_pending env r).index_block hok1 hnf1
  rw [hf1, hf6, hf7] at hc1
  rw [hf1] at hfc1
  refine ⟨{ rw with index_block := { entries := [] } }, ?_, hn1, hc1, hfc1, ?_⟩
  · unfold Finish_index
    rw [if_pos hok]
    simp only
    rw [hw]
    simp only [hf2, hf6, hf7, BlockBuilder.Finish]
  · simp only [Rep.mk.injEq]
    refine ⟨?_, ?_, ?_, ?_, ?_, ?_, ?_, ?_, ?_, ?_, ?_, ?_, ?_⟩ <;> (try trivial) <;>
      (rw [hrw]; try simp only [hf2, hf6, hf7, BlockBuilder.Finish])

theorem Finish_footer_neverFails (env : Env) (r : Rep) (hm hi : BlockHandle)
    (hok : ok r = true) (hnf : r.file.NeverFails) :
    (Finish_footer env r hm hi).file.NeverFails ∧
      (Finish_footer env r hm hi).file.contents = r.file.contents ++
        env.Footer_EncodeTo { metaindex_handle := hm, index_handle := hi } ∧
      (Finish_footer env r hm hi).file.flush_calls = r.file.flush_calls ∧
      Finish_footer env r hm hi =
        { r with
          file := (Finish_footer env r hm hi).file
          status := Status.OK
          offset := (r.offset +
            (env.Footer_EncodeTo { metaindex_handle := hm, index_handle := hi }).length) %
              2 ^ 64 } := by
  obtain ⟨ha, hn, hc⟩ := File_Append_neverFails r.file
    (env.Footer_EncodeTo { metaindex_handle := hm, index_handle := hi }) hnf
  have hF : Finish_footer env r hm hi =
      { r with
        file := (r.file.Append
          (env.Footer_EncodeTo { metaindex_handle := hm, index_handle := hi })).2
        status := Status.OK
        offset := (r.offset +
          (env.Footer_EncodeTo { metaindex_handle := hm, index_handle := hi }).length) %
            2 ^ 64 } := by
    unfold Finish_footer
    rw [if_pos hok]
    simp only
    rw [if_pos (by rw [ha]; rfl), ha]
  rw [hF]
  exact ⟨hn, hc, File_Append_flush_calls _ _, rfl⟩

theorem Finish_pending_index_block (env : Env) (r : Rep) :
    (Finish_pending env r).index_block.entries =
      r.index_block.entries ++
        (if r.pending_index_entry = true then
          [(r.options.comparator.FindShortSuccessor r.last_key,
            env.BlockHandle_EncodeTo r.pending_handle)]
        else []) := by
  unfold Finish_pending
  by_cases hp : r.pending_index_entry = true
  · simp [hp, BlockBuilder.Add]
  · simp [hp]

theorem Finish_of_flushed (env : Env) (r r0 : Rep) (h0 : Flush env r = some r0)
    (hok : ok r0 = true) (hnf : r0.file.NeverFails) :
    ∃ r4 hm hi, Finish env r = some (Status.OK, r4) ∧ r4.closed = true ∧
      r4.status = Status.OK ∧ r4.file.NeverFails ∧
      r4.file.flush_calls = r0.file.flush_calls ∧
      r4.num_entries = r0.num_entries ∧
      hm = { offset := r0.offset
             size := (WriteBlock_stored env r0.options.compression
               (env.BlockBuilder_Finish r0.options [])).length } ∧
      hi = { offset := (r0.offset + ((WriteBlock_stored env r0.options.compression
               (env.BlockBuilder_Finish r0.options [])).length + kBlockTrailerSize)) % 2 ^ 64
             size := (WriteBlock_stored env r0.options.compression
               (env.BlockBuilder_Finish r0.index_block_options
                 (Finish_pending env r0).index_block.entries)).length } ∧
      r4.file.contents = r0.file.contents ++
        WriteBlock_bytes env r0.options.compression (env.BlockBuilder_Finish r0.options []) ++
        WriteBlock_bytes env r0.options.compression
          (env.BlockBuilder_Finish r0.index_block_options
            (Finish_pending env r0).index_block.entries) ++
        env.Footer_EncodeTo { metaindex_handle := hm, index_handle := hi } ∧
      r4.offset = ((hi.offset + (hi.size + kBlockTrailerSize)) % 2 ^ 64 +
        (env.Footer_EncodeTo { metaindex_handle := hm, index_handle := hi }).length) %
          2 ^ 64 := by
  have hc0 := (Flush_closed h0).2
  have h1 : Finish_close r0 = some { r0 with closed := true } := by
    simp [Finish_close, hc0]
  obtain ⟨r2, h2, hn2, hc2, hfc2, hr2⟩ :=
    Finish_metaindex_neverFails env { r0 with closed := true } hok hnf
  have hok2 : ok r2 = true := by rw [hr2]; rfl
  obtain ⟨r3, h3, hn3, hc3, hfc3, hr3⟩ := Finish_index_neverFails env r2 hok2 hn2
  have hok3 : ok r3 = true := by rw [hr3]; rfl
  have e2o : r2.options = r0.options := by rw [hr2]
  have e2i : r2.index_block_options = r0.index_block_options := by rw [hr2]
  have e2off : r2.offset = (r0.offset + ((WriteBlock_stored env r0.options.compression
      (env.BlockBuilder_Finish r0.options [])).length + kBlockTrailerSize)) % 2 ^ 64 := by
    rw [hr2]
  have e2p : (Finish_pending env r2).index_block.entries =
      (Finish_pending env r0).index_block.entries := by
    rw [Finish_pending_index_block, Finish_pending_index_block, hr2]
  have e2n : r2.num_entries = r0.num_entries := by rw [hr2]
  have e3c : r3.closed = true := by
    rw [hr3]
    simp only
    rw [(Finish_pending_frame env r2).2.2.2.1, hr2]
  have e3n : r3.num_entries = r0.num_entries := by
    rw [hr3]
    simp only
    rw [(Finish_pending_frame env r2).2.2.2.2.2.2.2.1, e2n]
  have e3off : r3.offset = (r2.offset + ((WriteBlock_stored env r2.options.compression
      (env.BlockBuilder_Finish r2.index_block_options
        (Finish_pending env r2).index_block.entries)).length + kBlockTrailerSize)) % 2 ^ 64 := by
    rw [hr3]
  simp only [e2o, e2i, e2p, e2off] at h3 hc3 e3off
  simp only at h2 hc2
  obtain ⟨hm, hhm⟩ : ∃ x : BlockHandle, x =
      { offset := r0.offset
        size := (WriteBlock_stored env r0.options.compression
          (env.BlockBuilder_Finish r0.options [])).length } := ⟨_, rfl⟩
  obtain ⟨hi, hhi⟩ : ∃ x : BlockHandle, x =
      { offset := (r0.offset + ((WriteBlock_stored env r0.options.compression
          (env.BlockBuilder_Finish r0.options [])).length + kBlockTrailerSize)) % 2 ^ 64
        size := (WriteBlock_stored env r0.options.compression
          (env.BlockBuilder_Finish r0.index_block_options
            (Finish_pending env r0).index_block.entries)).length } := ⟨_, rfl⟩
  rw [← hhm] at h2
  rw [← hhi] at h3
  have hFin := Finish_eq h0 h1 h2 h3
  obtain ⟨hn4, hc4, hfc4, hr4⟩ := Finish_footer_neverFails env r3 hm hi hok3 hn3
  refine ⟨Finish_footer env r3 hm hi, hm, hi, ?_, ?_, ?_, hn4, ?_, ?_, hhm, hhi, ?_, ?_⟩
  · rw [hFin, hr4]
  · rw [hr4]; exact e3c
  · rw [hr4]
  · rw [hfc4, hfc3, hfc2]
  · rw [hr4]; exact e3n
  · rw [hc4, hc3, hc2]
  · rw [hr4]
    simp only
    rw [e3off, hhi]

theorem Finish_neverFails (env : Env) (r : Rep) (hc : r.closed = false) (hok : ok r = true)
    (hnf : r.file.NeverFails) (hpi : PendingInv r) :
    ∃ r4, Finish env r = some (Status.OK, r4) ∧ r4.closed = true ∧ r4.status = Status.OK ∧
      r4.file.NeverFails ∧ r4.num_entries = r.num_entries := by
  by_cases he : r.data_block.entries = []
  · obtain ⟨r4, -, -, hF, hcl, hst, hn4, -, hne, -⟩ :=
      Finish_of_flushed env r r (Flush_empty env r hc he) hok hnf
    exact ⟨r4, hF, hcl, hst, hn4, hne⟩
  · have hp : r.pending_index_entry = false := by
      by_contra hp
      exact he (hpi (by simpa using hp))
    obtain ⟨r0, h0, hn0, -, -, hr0⟩ := Flush_rep_neverFails env r hc hok hnf hp he
    obtain ⟨r4, -, -, hF, hcl, hst, hn4, -, hne, -⟩ :=
      Finish_of_flushed env r r0 h0 (by rw [hr0]; rfl) hn0
    exact ⟨r4, hF, hcl, hst, hn4, by rw [hne, hr0]⟩

/-! ## What `Finish` writes -/

/-- C3: from a reachable open state with ok status, on a file none of whose
appends and flushes fails, `Finish` returns ok and closes the builder; it appends
the residual data block with its trailer (only when the data block is not
empty), the empty meta-index block with its trailer, the index block with its
trailer, and the footer that encodes the handles of the meta-index and index
blocks, each handle being the position and the payload size at which its block
lies in the file; `FileSize()` is then the length of the file. The index block
holds the entries it held before and the entry of the last data block. (The
handles are 64-bit: the final file is taken shorter than 2^64 bytes.) -/
theorem Finish_layout (env : Env) (r : Rep) (hreach : Reach env r)
    (hopen : r.closed = false) (hok : ok r = true) (hnf : r.file.NeverFails) :
    ∃ r4, Finish env r = some (Status.OK, r4) ∧ r4.closed = true ∧ ok r4 = true ∧
      (r4.file.contents.length < 2 ^ 64 →
        ∀ (data : Bytes) (index_entries : List (Bytes × Bytes))
          (data_handle metaindex_handle index_handle : BlockHandle),
          data = (if r.data_block.entries = [] then []
            else WriteBlock_bytes env r.options.compression
              (env.BlockBuilder_Finish r.options r.data_block.entries)) →
          data_handle =
            { offset := r.file.contents.length
              size := (WriteBlock_stored env r.options.compression
                (env.BlockBuilder_Finish r.options r.data_block.entries)).length } →
          index_entries = r.index_block.entries ++
            (if r.data_block.entries = [] then
              (if r.pending_index_entry = true then
                [(r.options.comparator.FindShortSuccessor r.last_key,
                  env.BlockHandle_EncodeTo r.pending_handle)]
              else [])
            else
              [(r.options.comparator.FindShortSuccessor r.last_key,
                env.BlockHandle_EncodeTo data_handle)]) →
          metaindex_handle =
            { offset := (r.file.contents ++ data).length
              size := (WriteBlock_stored env r.options.compression
                (env.BlockBuilder_Finish r.options [])).length } →
          index_handle =
            { offset := (r.file.contents ++ data ++
                WriteBlock_bytes env r.options.compression
                  (env.BlockBuilder_Finish r.options [])).length
              size := (WriteBlock_stored env r.options.compression
                (env.BlockBuilder_Finish r.index_block_options index_entries)).length } →
          r4.file.contents = r.file.contents ++ data ++
              WriteBlock_bytes env r.options.compression
                (env.BlockBuilder_Finish r.options []) ++
              WriteBlock_bytes env r.options.compression
                (env.BlockBuilder_Finish r.index_block_options index_entries) ++
              env.Footer_EncodeTo
                { metaindex_handle := metaindex_handle, index_handle := index_handle } ∧
            FileSize r4 = r4.file.contents.length) := by
  have hoinv := Reach_OffsetInv hreach
  have hpinv := Reach_PendingInv hreach
  by_cases he : r.data_block.entries = []
  · obtain ⟨r4, hm, hi, hF, hcl, hst, -, -, -, hhm, hhi, hcont, hoff⟩ :=
      Finish_of_flushed env r r (Flush_empty env r hopen he) hok hnf
    refine ⟨r4, hF, hcl, by unfold ok; rw [hst]; rfl, ?_⟩
    intro hlen data index_entries data_handle metaindex_handle index_handle hd hdh hie hmh hih
    rw [if_pos he] at hd hie
    subst hd
    rw [Finish_pending_index_block, ← hie] at hcont hhi
    have hlr : r.file.contents.length < 2 ^ 64 := by
      have := congrArg List.length hcont
      simp only [List.length_append] at this
      omega
    have hro : r.offset = r.file.contents.length := (hoinv hlr).2 hok
    have hlen' := hlen
    rw [hcont] at hlen'
    simp only [List.length_append, WriteBlock_bytes_length] at hlen'
    have e1 : hm = metaindex_handle := by
      rw [hhm, hmh, hro]
      simp
    have e2 : hi = index_handle := by
      rw [hhi, hih, hro]
      simp only [List.append_nil, List.length_append, WriteBlock_bytes_length, kBlockTrailerSize]
      rw [Nat.mod_eq_of_lt (by omega)]
    rw [e1, e2] at hcont hoff hlen'
    refine ⟨by rw [hcont, List.append_nil], ?_⟩
    unfold FileSize
    rw [hoff, hcont, hih]
    rw [hih] at hlen'
    simp only [List.append_nil, List.length_append, WriteBlock_bytes_length,
      kBlockTrailerSize] at hlen' ⊢
    rw [Nat.mod_eq_of_lt (by omega), Nat.mod_eq_of_lt (by omega)]
  · have hp : r.pending_index_entry = false := by
      by_contra hp
      exact he (hpinv (by simpa using hp))
    obtain ⟨r0, h0, hn0, hc0, -, hr0⟩ := Flush_rep_neverFails env r hopen hok hnf hp he
    have hok0 : ok r0 = true := by rw [hr0]; rfl
    obtain ⟨r4, hm, hi, hF, hcl, hst, -, -, -, hhm, hhi, hcont, hoff⟩ :=
      Finish_of_flushed env r r0 h0 hok0 hn0
    refine ⟨r4, hF, hcl, by unfold ok; rw [hst]; rfl, ?_⟩
    intro hlen data index_entries data_handle metaindex_handle index_handle hd hdh hie hmh hih
    rw [if_neg he] at hd hie
    have hdF : r.data_block.Finish env r.options =
        env.BlockBuilder_Finish r.options r.data_block.entries := rfl
    have e0o : r0.options = r.options := by rw [hr0]
    have e0i : r0.index_block_options = r.index_block_options := by rw [hr0]
    have e0off : r0.offset = (r.offset + ((WriteBlock_stored env r.options.compression
        (env.BlockBuilder_Finish r.options r.data_block.entries)).length +
          kBlockTrailerSize)) % 2 ^ 64 := by
      rw [hr0]
      rfl
    rw [hdF, ← hd] at hc0
    have hlr : r.file.contents.length < 2 ^ 64 := by
      have := congrArg List.length hcont
      rw [hc0] at this
      simp only [List.length_append] at this
      omega
    have hro : r.offset = r.file.contents.length := (hoinv hlr).2 hok
    have e0p : (Finish_pending env r0).index_block.entries = index_entries := by
      rw [Finish_pending_index_block, hie, hdh, hr0]
      simp only [if_true, hro]
      rfl
    rw [e0p, e0o, e0i, hc0] at hcont
    rw [e0p, e0o, e0i] at hhi
    rw [e0o] at hhm
    have hlen' := hlen
    rw [hcont] at hlen'
    simp only [List.length_append, WriteBlock_bytes_length] at hlen'
    have hdl : data.length = (WriteBlock_stored env r.options.compression
        (env.BlockBuilder_Finish r.options r.data_block.entries)).length + 5 := by
      rw [hd, WriteBlock_bytes_length]
    have e0off' : r0.offset = r.file.contents.length + data.length := by
      rw [e0off, hro, hdl, Nat.mod_eq_of_lt (by unfold kBlockTrailerSize; omega)]
      rfl
    have e1 : hm = metaindex_handle := by
      rw [hhm, hmh, e0off']
      simp
    have e2 : hi = index_handle := by
      rw [hhi, hih, e0off']
      simp only [List.length_append, WriteBlock_bytes_length, kBlockTrailerSize]
      rw [Nat.mod_eq_of_lt (by omega)]
    rw [e1, e2] at hcont hoff hlen'
    refine ⟨hcont, ?_⟩
    unfold FileSize
    rw [hoff, hcont, hih]
    rw [hih] at hlen'
    simp only [List.length_append, WriteBlock_bytes_length, kBlockTrailerSize] at hlen' ⊢
    rw [Nat.mod_eq_of_lt (by omega), Nat.mod_eq_of_lt (by omega)]

/-- C3, at a concrete input: the sample builder holding one entry in its data block. -/
theorem Finish_layout_witness :
    ∃ r4, Finish sampleEnv (sampleRun [] [Op.add [97] [49]]) = some (Status.OK, r4) ∧
      r4.closed = true ∧ ok r4 = true :=
  (Finish_layout sampleEnv (sampleRun [] [Op.add [97] [49]])
    (run_Reach (Reach.create sampleOptions [])
      (show run sampleEnv (sampleRep []) [Op.add [97] [49]] = some _ from rfl))
    rfl rfl (fun s hs => absurd hs (List.not_mem_nil s))).imp
    (fun _ h => ⟨h.1, h.2.1, h.2.2.1⟩)

/-! ## The index entries and the data blocks -/

theorem Flush_written_of_ok {env : Env} {r r1 : Rep} (h : Flush env r = some r1)
    (hok1 : ok r1 = true) :
    ok r = true ∧ r.closed = false ∧
      ((r1 = r ∧ Flush_written env r = [] ∧ r.data_block.empty = true) ∨
       (r.pending_index_entry = false ∧ r.data_block.empty = false ∧
        ∃ rw b hd, WriteBlock env r r.options r.data_block = some (rw, b, hd) ∧ ok rw = true ∧
          Flush_written env r = [{ entries := r.data_block.entries, handle := hd }] ∧
          r1 = { rw with data_block := b, pending_handle := hd, pending_index_entry := true,
                         status := rw.file.Flush.1, file := rw.file.Flush.2 })) := by
  obtain ⟨hc, h1 | h1 | h1⟩ := Flush_cases h
  · rw [h1.2] at hok1
    rw [h1.1] at hok1
    exact absurd hok1 (by simp)
  · refine ⟨h1.1, hc, Or.inl ⟨h1.2.2, ?_, h1.2.1⟩⟩
    simp [Flush_written, h1.2.1]
  · obtain ⟨hok, he, hp, rw, b, hd, hw, h2 | h2⟩ := h1
    · rw [h2.2] at hok1
      have : ok rw = true := hok1
      rw [h2.1] at this
      exact absurd this (by simp)
    · refine ⟨hok, hc, Or.inr ⟨hp, he, rw, b, hd, hw, h2.1, ?_, h2.2⟩⟩
      simp [Flush_written, hc, hok, he, hp, hw, h2.1]

theorem Flush_HandlesInv {env : Env} {r r1 : Rep} {B : List WrittenBlock}
    (h : Flush env r = some r1) (hok1 : ok r1 = true) (hinv : HandlesInv env r B) :
    HandlesInv env r1 (B ++ Flush_written env r) := by
  obtain ⟨-, -, h1 | h1⟩ := Flush_written_of_ok h hok1
  · rw [h1.1, h1.2.1, List.append_nil]
    exact hinv
  · obtain ⟨hp, -, rw, b, hd, hw, -, hfw, hr1⟩ := h1
    have hf := WriteBlock_fields hw
    unfold HandlesInv at *
    rw [hfw, hr1]
    simp only [List.map_append, List.map_cons, List.map_nil, if_true]
    rw [hinv, hf.2.2.2.1]
    simp [hp]

theorem Add_entry_HandlesInv {env : Env} {r r2 : Rep} {key value : Bytes}
    {B : List WrittenBlock} (h : Add_entry env r key value = some r2)
    (hinv : HandlesInv env r B) : HandlesInv env r2 B := by
  unfold HandlesInv at *
  rw [hinv, (Add_entry_some h).2.2]
  by_cases hp : r.pending_index_entry = true
  · simp [hp, BlockBuilder.Add]
  · simp [hp]

theorem step_HandlesInv {env : Env} {r r1 : Rep} {op : Op} {B : List WrittenBlock}
    (h : step env r op = some r1) (hok1 : ok r1 = true) (hc1 : r1.closed = false)
    (hinv : HandlesInv env r B) :
    ok r = true ∧ r.closed = false ∧ HandlesInv env r1 (B ++ step_written env r op) := by
  cases op with
  | add key value =>
    obtain ⟨hc, h1 | h1⟩ := Add_cases h
    · rw [h1.2, h1.1] at hok1
      exact absurd hok1 (by simp)
    · obtain ⟨hok, r2, ha, h2 | h2⟩ := h1
      · refine ⟨hok, hc, ?_⟩
        have : step_written env r (Op.add key value) = Flush_written env r2 := by
          simp [step_written, Add_written, hc, hok, ha, h2.1]
        rw [this]
        exact Flush_HandlesInv h2.2 hok1 (Add_entry_HandlesInv ha hinv)
      · refine ⟨hok, hc, ?_⟩
        have : step_written env r (Op.add key value) = [] := by
          simp [step_written, Add_written, hc, hok, ha, h2.1]
        rw [this, List.append_nil, h2.2]
        exact Add_entry_HandlesInv ha hinv
  | flush =>
    obtain ⟨hok, hc, -⟩ := Flush_written_of_ok h hok1
    exact ⟨hok, hc, Flush_HandlesInv h hok1 hinv⟩
  | changeOptions o =>
    simp only [step, Option.some.injEq] at h
    rw [← h] at hok1 hc1 ⊢
    unfold ChangeOptions at *
    by_cases ha : o.comparator.addr ≠ r.options.comparator.addr
    · rw [if_pos ha] at hok1 hc1 ⊢
      exact ⟨hok1, hc1, by simpa [step_written] using hinv⟩
    · rw [if_neg ha] at hok1 hc1 ⊢
      exact ⟨hok1, hc1, by simpa [step_written, HandlesInv] using hinv⟩
  | finish =>
    simp only [step, Option.map_eq_some', Prod.exists, exists_eq_right] at h
    obtain ⟨st, h⟩ := h
    obtain ⟨r0, r1', r2, r3, hm, hi, h0, h1, h2, h3, h4, -⟩ := Finish_stages h
    have hc1' : r1'.closed = true := by rw [(Finish_close_some h1).2]
    have hc2 : r2.closed = true := by rw [Finish_metaindex_closed h2, hc1']
    have hc3 : r3.closed = true := by rw [Finish_index_closed h3, hc2]
    rw [h4, Finish_footer_closed, hc3] at hc1
    exact absurd hc1 (by simp)
  | abandon =>
    rw [(Abandon_some h).2] at hc1
    exact absurd hc1 (by simp)

theorem step_closed {env : Env} {r r1 : Rep} {op : Op} (h : step env r op = some r1)
    (hc : r.closed = true) : r1.closed = true := by
  cases op with
  | add key value =>
    have := (Add_cases h).1
    rw [hc] at this
    exact absurd this (by simp)
  | flush =>
    have := (Flush_cases h).1
    rw [hc] at this
    exact absurd this (by simp)
  | changeOptions o =>
    simp only [step, Option.some.injEq] at h
    rw [← h]
    unfold ChangeOptions
    split
    · exact hc
    · exact hc
  | finish =>
    simp only [step, Option.map_eq_some', Prod.exists, exists_eq_right] at h
    obtain ⟨st, h⟩ := h
    obtain ⟨r0, -, -, -, -, -, h0, -⟩ := Finish_stages h
    have := (Flush_cases h0).1
    rw [hc] at this
    exact absurd this (by simp)
  | abandon =>
    have := (Abandon_some h).1
    rw [hc] at this
    exact absurd this (by simp)

theorem run_closed {env : Env} {ops : List Op} {r r1 : Rep} (h : run env r ops = some r1)
    (hc : r.closed = true) : r1.closed = true := by
  induction ops generalizing r with
  | nil =>
    simp only [run, Option.some.injEq] at h
    rw [← h]; exact hc
  | cons op ops ih =>
    simp only [run] at h
    cases hs : step env r op with
    | none => rw [hs] at h; simp at h
    | some r2 =>
      rw [hs] at h
      exact ih h (step_closed hs hc)

theorem run_ok_open {env : Env} {ops : List Op} {r r1 : Rep} (h : run env r ops = some r1)
    (hok1 : ok r1 = true) (hc1 : r1.closed = false) : ok r = true ∧ r.closed = false := by
  constructor
  · by_contra hok
    have := (run_failed (by simpa using hok) h).1
    unfold ok at hok hok1
    rw [this] at hok1
    exact hok hok1
  · by_contra hc
    have := run_closed h (by simpa using hc)
    rw [this] at hc1
    exact absurd hc1 (by simp)

theorem run_HandlesInv {env : Env} {ops : List Op} {r r1 : Rep} {B : List WrittenBlock}
    (h : run env r ops = some r1) (hok1 : ok r1 = true) (hc1 : r1.closed = false)
    (hinv : HandlesInv env r B) : HandlesInv env r1 (B ++ run_written env r ops) := by
  induction ops generalizing r B with
  | nil =>
    simp only [run, Option.some.injEq] at h
    rw [← h]
    simpa [run_written] using hinv
  | cons op ops ih =>
    simp only [run] at h
    cases hs : step env r op with
    | none => rw [hs] at h; simp at h
    | some r2 =>
      rw [hs] at h
      obtain ⟨hok2, hc2⟩ := run_ok_open h hok1 hc1
      obtain ⟨-, -, hinv2⟩ := step_HandlesInv hs hok2 hc2 hinv
      have hinv1 := ih h hinv2
      simp only [run_written, hs]
      rw [← List.append_assoc]
      exact hinv1

theorem run_written_append (env : Env) (ops ops2 : List Op) (r r1 : Rep)
    (h : run env r ops = some r1) :
    run_written env r (ops ++ ops2) = run_written env r ops ++ run_written env r1 ops2 := by
  induction ops generalizing r with
  | nil =>
    simp only [run, Option.some.injEq] at h
    rw [h]
    simp [run_written]
  | cons op ops ih =>
    simp only [run] at h
    cases hs : step env r op with
    | none => rw [hs] at h; simp at h
    | some r2 =>
      rw [hs] at h
      simp only at h
      have e := ih r2 h
      simp only [List.cons_append, run_written, hs, List.append_assoc]
      exact congrArg _ e

theorem Finish_index_block_some {env : Env} {r : Rep} {ib : BlockBuilder}
    (h : Finish_index_block env r = some ib) :
    ∃ r0, Flush env r = some r0 ∧ ok r0 = true ∧ (∃ st r4, Finish env r = some (st, r4)) ∧
      ib.entries = r0.index_block.entries ++
        (if r0.pending_index_entry = true then
          [(r0.options.comparator.FindShortSuccessor r0.last_key,
            env.BlockHandle_EncodeTo r0.pending_handle)]
        else []) := by
  unfold Finish_index_block at h
  cases h0 : Flush env r with
  | none => rw [h0] at h; simp at h
  | some r0 =>
    rw [h0] at h
    simp only at h
    cases h1 : Finish_close r0 with
    | none => rw [h1] at h; simp at h
    | some r1 =>
      rw [h1] at h
      simp only at h
      cases h2 : Finish_metaindex env r1 with
      | none => rw [h2] at h; simp at h
      | some res =>
        obtain ⟨r2, hm⟩ := res
        rw [h2] at h
        simp only at h
        by_cases hok2 : ok r2 = true
        · rw [if_pos hok2] at h
          have hib := (Option.some.inj h).symm
          have hr1 := (Finish_close_some h1).2
          rcases Finish_metaindex_cases h2 with c | c
          · rw [c.2.1] at hok2
            rw [c.1] at hok2
            exact absurd hok2 (by simp)
          · obtain ⟨hok1, b, hw⟩ := c
            have hf := WriteBlock_fields hw
            have hokp : ok (Finish_pending env r2) = true := by
              unfold ok
              rw [(Finish_pending_frame env r2).2.2.1]
              exact hok2
            obtain ⟨r3, hw3⟩ := WriteBlock_isSome env (Finish_pending env r2)
              (Finish_pending env r2).index_block_options (Finish_pending env r2).index_block hokp
            have h3 : Finish_index env r2 = some ({ r3 with index_block := { entries := [] } },
                { offset := (Finish_pending env r2).offset
                  size := (WriteBlock_payload env (Finish_pending env r2)
                    (Finish_pending env r2).index_block_options
                    (Finish_pending env r2).index_block).length }) := by
              unfold Finish_index
              rw [if_pos hok2]
              simp only [hw3]
            refine ⟨r0, rfl, by rw [hr1] at hok1; exact hok1, ⟨_, _, Finish_eq h0 h1 h2 h3⟩, ?_⟩
            rw [hib, Finish_pending_index_block, hf.1, hf.2.2.2.1, hf.2.2.2.2.1,
              hf.2.2.2.2.2.2.2.1, hf.2.2.2.2.2.2.2.2.1, hr1]
        · rw [if_neg hok2] at h
          simp at h

theorem Finish_index_block_neverFails (env : Env) (r : Rep) (hc : r.closed = false)
    (hok : ok r = true) (hnf : r.file.NeverFails) (hpi : PendingInv r) :
    ∃ ib, Finish_index_block env r = some ib := by
  have hfl : ∃ r0, Flush env r = some r0 ∧ ok r0 = true ∧ r0.file.NeverFails := by
    by_cases he : r.data_block.entries = []
    · exact ⟨r, Flush_empty env r hc he, hok, hnf⟩
    · have hp : r.pending_index_entry = false := by
        by_contra hp
        exact he (hpi (by simpa using hp))
      obtain ⟨r0, h0, hn0, -, -, hr0⟩ := Flush_rep_neverFails env r hc hok hnf hp he
      exact ⟨r0, h0, by rw [hr0]; rfl, hn0⟩
  obtain ⟨r0, h0, hok0, hnf0⟩ := hfl
  have hc0 := (Flush_closed h0).2
  have h1 : Finish_close r0 = some { r0 with closed := true } := by
    simp [Finish_close, hc0]
  obtain ⟨r2, h2, -, -, -, hr2⟩ :=
    Finish_metaindex_neverFails env { r0 with closed := true } hok0 hnf0
  have hok2 : ok r2 = true := by rw [hr2]; rfl
  refine ⟨(Finish_pending env r2).index_block, ?_⟩
  unfold Finish_index_block
  rw [h0]
  simp only [h1, h2]
  rw [if_pos hok2]

theorem Add_entry_isSome_fields {env : Env} {r r2 : Rep} {key value : Bytes}
    (h : Add_entry env r key value = some r2) :
    r2.closed = r.closed ∧ r2.status = r.status ∧ r2.file = r.file ∧
      r2.pending_index_entry = false ∧ r2.options = r.options ∧
      r2.data_block.entries = r.data_block.entries ++ [(key, value)] := by
  rw [(Add_entry_some h).2.2]
  exact ⟨rfl, rfl, rfl, rfl, rfl, rfl⟩

theorem step_neverFails {env : Env} {r r1 : Rep} {op : Op} (h : step env r op = some r1)
    (hop : op.isAddOrFlush = true) (hok : ok r = true) (hnf : r.file.NeverFails)
    (hpi : PendingInv r) :
    ok r1 = true ∧ r1.closed = false ∧ r1.file.NeverFails := by
  have flushCase : ∀ {x x1 : Rep}, Flush env x = some x1 → ok x = true → x.file.NeverFails →
      PendingInv x → ok x1 = true ∧ x1.closed = false ∧ x1.file.NeverFails := by
    intro x x1 hf hokx hnfx hpix
    have hcx := (Flush_closed hf).1
    by_cases he : x.data_block.entries = []
    · rw [Flush_empty env x hcx he] at hf
      rw [← Option.some.inj hf]
      exact ⟨hokx, hcx, hnfx⟩
    · have hp : x.pending_index_entry = false := by
        by_contra hp
        exact he (hpix (by simpa using hp))
      obtain ⟨r0, h0, hn0, -, -, hr0⟩ := Flush_rep_neverFails env x hcx hokx hnfx hp he
      rw [h0] at hf
      rw [← Option.some.inj hf]
      exact ⟨by rw [hr0]; rfl, by rw [hr0]; exact hcx, hn0⟩
  cases op with
  | add key value =>
    obtain ⟨hc, h1 | h1⟩ := Add_cases h
    · rw [h1.2]; exact ⟨hok, hc, hnf⟩
    · obtain ⟨-, r2, ha, h2 | h2⟩ := h1
      · obtain ⟨e1, e2, e3, -⟩ := Add_entry_isSome_fields ha
        exact flushCase h2.2 (by unfold ok; rw [e2]; exact hok) (by rw [e3]; exact hnf)
          (Add_entry_PendingInv ha)
      · obtain ⟨e1, e2, e3, -⟩ := Add_entry_isSome_fields ha
        rw [h2.2]
        exact ⟨by unfold ok; rw [e2]; exact hok, by rw [e1]; exact hc, by rw [e3]; exact hnf⟩
  | flush => exact flushCase h hok hnf hpi
  | changeOptions o => simp [Op.isAddOrFlush] at hop
  | finish => simp [Op.isAddOrFlush] at hop
  | abandon => simp [Op.isAddOrFlush] at hop

theorem run_neverFails {env : Env} {ops : List Op} {r r1 : Rep} (h : run env r ops = some r1)
    (hops : ∀ op ∈ ops, op.isAddOrFlush = true) (hreach : Reach env r) (hc : r.closed = false)
    (hok : ok r = true) (hnf : r.file.NeverFails) :
    ok r1 = true ∧ r1.closed = false ∧ r1.file.NeverFails := by
  induction ops generalizing r with
  | nil =>
    simp only [run, Option.some.injEq] at h
    rw [← h]; exact ⟨hok, hc, hnf⟩
  | cons op ops ih =>
    simp only [run] at h
    cases hs : step env r op with
    | none => rw [hs] at h; simp at h
    | some r2 =>
      rw [hs] at h
      obtain ⟨hok2, hc2, hnf2⟩ := step_neverFails hs (hops op (List.mem_cons_self _ _)) hok hnf
        (Reach_PendingInv hreach)
      exact ih h (fun o ho => hops o (List.mem_cons_of_mem _ ho)) (step_Reach hreach hs) hc2
        hok2 hnf2

theorem run_no_keys {env : Env} {ops : List Op} {r r1 : Rep} (h : run env r ops = some r1)
    (hops : ∀ op ∈ ops, op.isAddOrFlush = true) (hk : keysOf ops = [])
    (he : r.data_block.entries = []) : r1 = r := by
  induction ops generalizing r with
  | nil =>
    simp only [run, Option.some.injEq] at h
    exact h.symm
  | cons op ops ih =>
    simp only [run] at h
    cases hs : step env r op with
    | none => rw [hs] at h; simp at h
    | some r2 =>
      rw [hs] at h
      cases op with
      | add key value => simp [keysOf] at hk
      | flush =>
        have hc := (Flush_cases hs).1
        have hs2 : Flush env r = some r2 := hs
        rw [Flush_empty env r hc he] at hs2
        have e : r2 = r := (Option.some.inj hs2).symm
        subst e
        exact ih h (fun o ho => hops o (List.mem_cons_of_mem _ ho)) (by simpa [keysOf] using hk) he
      | changeOptions o => simp [Op.isAddOrFlush] at hops
      | finish => simp [Op.isAddOrFlush] at hops
      | abandon => simp [Op.isAddOrFlush] at hops

theorem HandlesInv_create (env : Env) (opt : Options) (f : WritableFile) :
    HandlesInv env (Rep.create opt f) [] := by
  simp [HandlesInv, Rep.create]

/-- C5: along every sequence of public calls from a new builder, while the
builder is open with ok status the number of index entries, plus one when an
index entry is pending, is the number of data blocks written so far; and the
index block that `Finish` then writes holds exactly one entry for each data
block written, in the order of writing, whose value is the encoding of the
handle returned when the block was written. On a file that never fails `Finish`
does write the index block after any sequence of adds and flushes, and with no
add the index block has no entry. -/
theorem index_entries_match_blocks (env : Env) (opt : Options) (script : List Status)
    (ops : List Op) (r : Rep)
    (hrun : run env (Rep.create opt (WritableFile.create script)) ops = some r) :
    (ok r = true → r.closed = false →
      r.index_block.entries.length + (if r.pending_index_entry = true then 1 else 0) =
        (run_written env (Rep.create opt (WritableFile.create script)) ops).length) ∧
    (∀ ib, Finish_index_block env r = some ib →
      ib.entries.map Prod.snd =
        (run_written env (Rep.create opt (WritableFile.create script)) (ops ++ [Op.finish])).map
          (fun b => env.BlockHandle_EncodeTo b.handle)) ∧
    ((∀ s ∈ script, s.ok = true) → (∀ op ∈ ops, op.isAddOrFlush = true) →
      ∃ ib, Finish_index_block env r = some ib ∧ (keysOf ops = [] → ib.entries = [])) := by
  have hinv0 := HandlesInv_create env opt (WritableFile.create script)
  refine ⟨fun hok hc => ?_, fun ib hib => ?_, fun hscript hops => ?_⟩
  · have hinv := run_HandlesInv hrun hok hc hinv0
    rw [List.nil_append] at hinv
    have := congrArg List.length hinv
    simp only [List.length_map, List.length_append] at this
    rw [this]
    by_cases hp : r.pending_index_entry = true
    · simp [hp]
    · simp [hp]
  · obtain ⟨r0, h0, hok0, ⟨st, r4, hF⟩, hent⟩ := Finish_index_block_some hib
    obtain ⟨hok, hc, -⟩ := Flush_written_of_ok h0 hok0
    have hinv := run_HandlesInv hrun hok hc hinv0
    rw [List.nil_append] at hinv
    have hinv1 := Flush_HandlesInv h0 hok0 hinv
    have hw : run_written env r [Op.finish] = Flush_written env r := by
      simp [run_written, step, hF, step_written]
    rw [run_written_append env ops [Op.finish] _ r hrun, hw, hent]
    unfold HandlesInv at hinv1
    rw [hinv1]
    by_cases hp : r0.pending_index_entry = true
    · simp [hp]
    · simp [hp]
  · have hreach0 : Reach env (Rep.create opt (WritableFile.create script)) := Reach.create opt script
    obtain ⟨hok, hc, hnf⟩ := run_neverFails hrun hops hreach0 rfl rfl hscript
    obtain ⟨ib, hib⟩ := Finish_index_block_neverFails env r hc hok hnf
      (Reach_PendingInv (run_Reach hreach0 hrun))
    refine ⟨ib, hib, fun hk => ?_⟩
    have hr : r = Rep.create opt (WritableFile.create script) := run_no_keys hrun hops hk rfl
    obtain ⟨r0, h0, -, -, hent⟩ := Finish_index_block_some hib
    rw [hr, Flush_empty env _ rfl rfl] at h0
    rw [hent, ← Option.some.inj h0]
    rfl

/-! ## The index keys and the data blocks -/

theorem Lawful_lt_of_lt_of_le {c : Comparator} (hc : c.Lawful) {a b d : Bytes}
    (h1 : c.lt a b) (h2 : c.le b d) : c.lt a d := by
  unfold Comparator.lt Comparator.le at *
  rcases lt_or_eq_of_le h2 with h | h
  · exact hc.lt_trans a b d h1 h
  · rw [← hc.eq_of_compare b d h]
    exact h1

theorem KeysInv_create (opt : Options) (f : WritableFile) :
    KeysInv opt.comparator (Rep.create opt f) [] where
  cmp := rfl
  count := rfl
  nonempty := fun b hb => absurd hb (List.not_mem_nil b)
  cur_last := fun kl h => by simp [Rep.create, lastKey] at h
  pend_last := fun h => by simp [Rep.create] at h
  upper := fun i b e h => by simp at h
  lower := fun i e b h => by simp [Rep.create] at h
  lower_cur := fun _ e kf h => by simp [Rep.create] at h
  sorted := by simp [Rep.create]
  below_last := fun e h => by simp [Rep.create] at h
  entered := fun h => by simp [Rep.create] at h
  nonneg := by simp [Rep.create]

theorem lastKey_concat (es : List (Bytes × Bytes)) (key value : Bytes) :
    lastKey (es ++ [(key, value)]) = some key := by
  simp [lastKey]

theorem firstKey_concat (es : List (Bytes × Bytes)) (key value : Bytes) :
    firstKey (es ++ [(key, value)]) = if es = [] then some key else firstKey es := by
  cases es with
  | nil => simp [firstKey]
  | cons a l => simp [firstKey]

theorem lastKey_isSome {es : List (Bytes × Bytes)} (h : es ≠ []) : ∃ kl, lastKey es = some kl := by
  unfold lastKey
  cases hl : es.getLast? with
  | none => exact absurd (List.getLast?_eq_none_iff.1 hl) h
  | some e => exact ⟨e.1, rfl⟩

theorem Add_entry_KeysInv {env : Env} {c : Comparator} (hc : c.Lawful) {r r2 : Rep}
    {key value : Bytes} {B : List WrittenBlock} (h : Add_entry env r key value = some r2)
    (hinv : KeysInv c r B) : KeysInv c r2 B := by
  obtain ⟨hord, hpe, hr2⟩ := Add_entry_some h
  have hcmp := hinv.cmp
  have hlt : r.num_entries > 0 → c.lt r.last_key key := by
    intro hn
    have := hord hn
    rw [hcmp] at this
    exact (hc.swap key r.last_key).1 this
  by_cases hp : r.pending_index_entry = true
  · have hn : r.num_entries > 0 := hinv.entered (Or.inl hp)
    have hlk := hlt hn
    obtain ⟨hs1, hs2⟩ := hc.separator r.last_key key hlk
    have hcur : r.data_block.entries = [] := by
      have := hpe hp
      simpa [BlockBuilder.empty] using this
    have hcount := hinv.count
    rw [if_pos hp] at hcount
    have hidx : r2.index_block.entries = r.index_block.entries ++
        [(c.FindShortestSeparator r.last_key key,
          env.BlockHandle_EncodeTo r.pending_handle)] := by
      rw [hr2]
      simp [hp, BlockBuilder.Add, hcmp]
    have hdb : r2.data_block.entries = [(key, value)] := by
      rw [hr2]
      simp [BlockBuilder.Add, hcur]
    have hlk2 : r2.last_key = key := by rw [hr2]
    have hp2 : r2.pending_index_entry = false := by rw [hr2]
    have hne2 : r2.num_entries = r.num_entries + 1 := by rw [hr2]
    refine
      { cmp := by rw [hr2]; exact hcmp
        count := by rw [hidx, hp2]; simp; omega
        nonempty := hinv.nonempty
        cur_last := fun kl hkl => by
          rw [hdb] at hkl
          simp [lastKey] at hkl
          rw [hlk2, hkl]
        pend_last := fun hp2' => by rw [hp2] at hp2'; exact absurd hp2' (by simp)
        upper := fun i b e hb he kl hkl => ?_
        lower := fun i e b he hb kf hkf => ?_
        lower_cur := fun _ e kf he hkf => ?_
        sorted := ?_
        below_last := fun e he => ?_
        entered := fun _ => by rw [hne2]; have := hinv.nonneg; omega
        nonneg := by rw [hne2]; have := hinv.nonneg; omega }
    · rw [hidx] at he
      by_cases hi : i < r.index_block.entries.length
      · rw [List.getElem?_append_left hi] at he
        exact hinv.upper i b e hb he kl hkl
      · have hi2 : i = r.index_block.entries.length := by
          have := (List.getElem?_eq_some.1 hb).1
          omega
        subst hi2
        rw [List.getElem?_concat_length] at he
        have he' := (Option.some.inj he).symm
        have hbl : B.getLast? = some b := by
          rw [List.getLast?_eq_getElem?, ← hcount]
          simpa using hb
        have := hinv.pend_last hp b hbl
        rw [hkl] at this
        rw [he', Option.some.inj this]
        exact hs1
    · rw [hidx] at he
      have hi : i < r.index_block.entries.length := by
        have := (List.getElem?_eq_some.1 hb).1
        omega
      rw [List.getElem?_append_left hi] at he
      exact hinv.lower i e b he hb kf hkf
    · rw [hidx, List.getLast?_concat] at he
      rw [hdb] at hkf
      simp [firstKey] at hkf
      rw [← Option.some.inj he, ← hkf]
      exact hs2
    · rw [hidx, List.map_append, List.pairwise_append]
      refine ⟨hinv.sorted, by simp, fun a ha b hb => ?_⟩
      simp only [List.map_cons, List.map_nil, List.mem_singleton] at hb
      obtain ⟨e, he, hea⟩ := List.mem_map.1 ha
      rw [hb, ← hea]
      exact Lawful_lt_of_lt_of_le hc (hinv.below_last e he) hs1
    · rw [hidx] at he
      rw [hlk2]
      rcases List.mem_append.1 he with he | he
      · exact hc.lt_trans _ _ _ (hinv.below_last e he) hlk
      · simp only [List.mem_singleton] at he
        rw [he]
        exact hs2
  · have hp0 : r.pending_index_entry = false := by simpa using hp
    have hidx : r2.index_block.entries = r.index_block.entries := by
      rw [hr2]
      simp [hp]
    have hdb : r2.data_block.entries = r.data_block.entries ++ [(key, value)] := by
      rw [hr2]
      rfl
    have hlk2 : r2.last_key = key := by rw [hr2]
    have hp2 : r2.pending_index_entry = false := by rw [hr2]
    have hne2 : r2.num_entries = r.num_entries + 1 := by rw [hr2]
    have hcount := hinv.count
    refine
      { cmp := by rw [hr2]; exact hcmp
        count := by rw [hidx, hp2]; rw [hp0] at hcount; exact hcount
        nonempty := hinv.nonempty
        cur_last := fun kl hkl => by
          rw [hdb, lastKey_concat] at hkl
          rw [hlk2, Option.some.inj hkl]
        pend_last := fun hp2' => by rw [hp2] at hp2'; exact absurd hp2' (by simp)
        upper := fun i b e hb he kl hkl => by
          rw [hidx] at he
          exact hinv.upper i b e hb he kl hkl
        lower := fun i e b he hb kf hkf => by
          rw [hidx] at he
          exact hinv.lower i e b he hb kf hkf
        lower_cur := fun _ e kf he hkf => ?_
        sorted := by rw [hidx]; exact hinv.sorted
        below_last := fun e he => ?_
        entered := fun _ => by rw [hne2]; have := hinv.nonneg; omega
        nonneg := by rw [hne2]; have := hinv.nonneg; omega }
    · rw [hidx] at he
      rw [hdb, firstKey_concat] at hkf
      have hmem : e ∈ r.index_block.entries := List.mem_of_mem_getLast? he
      have hne : r.index_block.entries ≠ [] := List.ne_nil_of_mem hmem
      by_cases hcur : r.data_block.entries = []
      · rw [if_pos hcur] at hkf
        rw [← Option.some.inj hkf]
        exact hc.lt_trans _ _ _ (hinv.below_last e hmem)
          (hlt (hinv.entered (Or.inr (Or.inl hne))))
      · rw [if_neg hcur] at hkf
        exact hinv.lower_cur hp0 e kf he hkf
    · rw [hidx] at he
      rw [hlk2]
      exact hc.lt_trans _ _ _ (hinv.below_last e he)
        (hlt (hinv.entered (Or.inr (Or.inl (List.ne_nil_of_mem he)))))

theorem Flush_KeysInv {env : Env} {c : Comparator} {r r1 : Rep} {B : List WrittenBlock}
    (h : Flush env r = some r1) (hok1 : ok r1 = true) (hinv : KeysInv c r B) :
    KeysInv c r1 (B ++ Flush_written env r) := by
  obtain ⟨-, -, h1 | h1⟩ := Flush_written_of_ok h hok1
  · rw [h1.1, h1.2.1, List.append_nil]
    exact hinv
  · obtain ⟨hp, he, rw, b, hd, hw, -, hfw, hr1⟩ := h1
    have hf := WriteBlock_fields hw
    have hb := (WriteBlock_frame hw).2.1
    have hcur : r.data_block.entries ≠ [] := by
      intro hnil
      simp [BlockBuilder.empty, hnil] at he
    have hidx : r1.index_block = r.index_block := by rw [hr1]; exact hf.2.2.2.1
    have hdb : r1.data_block.entries = [] := by rw [hr1, hb]
    have hlk : r1.last_key = r.last_key := by rw [hr1]; exact hf.2.2.2.2.1
    have hne : r1.num_entries = r.num_entries := by rw [hr1]; exact hf.2.2.2.2.2.1
    have hp1 : r1.pending_index_entry = true := by rw [hr1]
    have hopt : r1.options = r.options := by rw [hr1]; exact hf.1
    have hcount := hinv.count
    rw [hp] at hcount
    simp only [Bool.false_eq_true, if_false, Nat.add_zero] at hcount
    rw [hfw]
    refine
      { cmp := by rw [hopt]; exact hinv.cmp
        count := by rw [hidx, hp1]; simp; omega
        nonempty := fun b1 hb1 => ?_
        cur_last := fun kl hkl => by rw [hdb] at hkl; simp [lastKey] at hkl
        pend_last := fun _ b1 hb1 => ?_
        upper := fun i b1 e hb1 he kl hkl => ?_
        lower := fun i e b1 he hb1 kf hkf => ?_
        lower_cur := fun hp1' => by rw [hp1] at hp1'; exact absurd hp1' (by simp)
        sorted := by rw [hidx]; exact hinv.sorted
        below_last := fun e he => by
          rw [hidx] at he
          rw [hlk]
          exact hinv.below_last e he
        entered := fun _ => by
          rw [hne]
          exact hinv.entered (Or.inr (Or.inr hcur))
        nonneg := by rw [hne]; exact hinv.nonneg }
    · rcases List.mem_append.1 hb1 with hb1 | hb1
      · exact hinv.nonempty b1 hb1
      · simp only [List.mem_singleton] at hb1
        rw [hb1]
        exact hcur
    · rw [List.getLast?_concat] at hb1
      rw [← Option.some.inj hb1, hlk]
      obtain ⟨kl, hkl⟩ := lastKey_isSome hcur
      simp only
      rw [hkl, hinv.cur_last kl hkl]
    · rw [hidx] at he
      have hi : i < B.length := by
        have := (List.getElem?_eq_some.1 he).1
        omega
      rw [List.getElem?_append_left hi] at hb1
      exact hinv.upper i b1 e hb1 he kl hkl
    · rw [hidx] at he
      by_cases hi : i + 1 < B.length
      · rw [List.getElem?_append_left hi] at hb1
        exact hinv.lower i e b1 he hb1 kf hkf
      · have hil := (List.getElem?_eq_some.1 he).1
        have hi2 : i + 1 = B.length := by omega
        rw [hi2, List.getElem?_concat_length] at hb1
        have hlast : r.index_block.entries.getLast? = some e := by
          rw [List.getLast?_eq_getElem?]
          have : r.index_block.entries.length - 1 = i := by omega
          rw [this]
          exact he
        rw [← Option.some.inj hb1] at hkf
        exact hinv.lower_cur hp e kf hlast hkf

theorem Flush_EntriesInv {env : Env} {r r1 : Rep} {B : List WrittenBlock}
    {E : List (Bytes × Bytes)} (h : Flush env r = some r1) (hok1 : ok r1 = true)
    (hinv : EntriesInv r B E) :
    EntriesInv r1 (B ++ Flush_written env r) E ∧ r1.data_block.entries = [] := by
  obtain ⟨-, -, h1 | h1⟩ := Flush_written_of_ok h hok1
  · rw [h1.1, h1.2.1, List.append_nil]
    refine ⟨hinv, ?_⟩
    have := h1.2.2
    simpa [BlockBuilder.empty] using this
  · obtain ⟨-, -, rw, b, hd, hw, -, hfw, hr1⟩ := h1
    have hb := (WriteBlock_frame hw).2.1
    have hdb : r1.data_block.entries = [] := by rw [hr1, hb]
    refine ⟨?_, hdb⟩
    unfold EntriesInv at *
    rw [hfw, hdb, ← hinv]
    simp

theorem Add_entry_EntriesInv {env : Env} {r r2 : Rep} {key value : Bytes}
    {B : List WrittenBlock} {E : List (Bytes × Bytes)}
    (h : Add_entry env r key value = some r2) (hinv : EntriesInv r B E) :
    EntriesInv r2 B (E ++ [(key, value)]) := by
  unfold EntriesInv at *
  rw [(Add_entry_isSome_fields h).2.2.2.2.2, ← hinv, List.append_assoc]

theorem step_KeysInv {env : Env} {c : Comparator} (hc : c.Lawful) {r r1 : Rep} {op : Op}
    {B : List WrittenBlock} {E : List (Bytes × Bytes)} (h : step env r op = some r1)
    (hop : op.isAddOrFlush = true) (hok1 : ok r1 = true)
    (hinv : KeysInv c r B) (hE : EntriesInv r B E) :
    KeysInv c r1 (B ++ step_written env r op) ∧
      EntriesInv r1 (B ++ step_written env r op) (E ++ entriesOf [op]) := by
  cases op with
  | add key value =>
    obtain ⟨hcl, h1 | h1⟩ := Add_cases h
    · rw [h1.2, h1.1] at hok1
      exact absurd hok1 (by simp)
    · obtain ⟨hok, r2, ha, h2 | h2⟩ := h1
      · have : step_written env r (Op.add key value) = Flush_written env r2 := by
          simp [step_written, Add_written, hcl, hok, ha, h2.1]
        rw [this]
        exact ⟨Flush_KeysInv h2.2 hok1 (Add_entry_KeysInv hc ha hinv),
          (Flush_EntriesInv h2.2 hok1 (Add_entry_EntriesInv ha hE)).1⟩
      · have : step_written env r (Op.add key value) = [] := by
          simp [step_written, Add_written, hcl, hok, ha, h2.1]
        rw [this, List.append_nil, h2.2]
        exact ⟨Add_entry_KeysInv hc ha hinv, Add_entry_EntriesInv ha hE⟩
  | flush =>
    refine ⟨Flush_KeysInv h hok1 hinv, ?_⟩
    have := (Flush_EntriesInv h hok1 hE).1
    simpa [entriesOf, step_written] using this
  | changeOptions o => simp [Op.isAddOrFlush] at hop
  | finish => simp [Op.isAddOrFlush] at hop
  | abandon => simp [Op.isAddOrFlush] at hop

theorem entriesOf_cons (op : Op) (ops : List Op) :
    entriesOf (op :: ops) = entriesOf [op] ++ entriesOf ops := by
  cases op <;> simp [entriesOf]

theorem run_KeysInv {env : Env} {c : Comparator} (hc : c.Lawful) {ops : List Op} {r r1 : Rep}
    {B : List WrittenBlock} {E : List (Bytes × Bytes)} (h : run env r ops = some r1)
    (hops : ∀ op ∈ ops, op.isAddOrFlush = true) (hok1 : ok r1 = true) (hc1 : r1.closed = false)
    (hinv : KeysInv c r B) (hE : EntriesInv r B E) :
    KeysInv c r1 (B ++ run_written env r ops) ∧
      EntriesInv r1 (B ++ run_written env r ops) (E ++ entriesOf ops) := by
  induction ops generalizing r B E with
  | nil =>
    simp only [run, Option.some.injEq] at h
    rw [← h]
    simpa [run_written, entriesOf] using ⟨hinv, hE⟩
  | cons op ops ih =>
    simp only [run] at h
    cases hs : step env r op with
    | none => rw [hs] at h; simp at h
    | some r2 =>
      rw [hs] at h
      simp only at h
      obtain ⟨hok2, -⟩ := run_ok_open h hok1 hc1
      obtain ⟨hinv2, hE2⟩ := step_KeysInv hc hs (hops op (List.mem_cons_self _ _)) hok2 hinv hE
      have := ih h (fun o ho => hops o (List.mem_cons_of_mem _ ho)) hinv2 hE2
      simp only [run_written, hs]
      rw [← List.append_assoc, entriesOf_cons, ← List.append_assoc]
      exact this

theorem Finish_pending_keys {c : Comparator} (hc : c.Lawful) {r0 : Rep}
    {B : List WrittenBlock} {enc : Bytes} (hinv : KeysInv c r0 B)
    (K : List Bytes)
    (hK : K = (r0.index_block.entries ++
      (if r0.pending_index_entry = true then [(c.FindShortSuccessor r0.last_key, enc)]
        else [])).map Prod.fst) :
    K.length = B.length ∧ K.Pairwise c.lt ∧
      (∀ (i : Nat) (b : WrittenBlock) (k : Bytes), B[i]? = some b → K[i]? = some k →
        ∀ kl, lastKey b.entries = some kl → c.le kl k) ∧
      (∀ (i : Nat) (k : Bytes) (b : WrittenBlock), K[i]? = some k → B[i + 1]? = some b →
        ∀ kf, firstKey b.entries = some kf → c.lt k kf) := by
  have hcount := hinv.count
  by_cases hp : r0.pending_index_entry = true
  · rw [if_pos hp] at hK hcount
    rw [List.map_append] at hK
    simp only [List.map_cons, List.map_nil] at hK
    have hlen : (r0.index_block.entries.map Prod.fst).length = r0.index_block.entries.length :=
      List.length_map _ _
    refine ⟨by rw [hK]; simp; omega, ?_, fun i b k hb hk kl hkl => ?_,
      fun i k b hk hb kf hkf => ?_⟩
    · rw [hK, List.pairwise_append]
      refine ⟨hinv.sorted, by simp, fun a ha b hb => ?_⟩
      simp only [List.mem_singleton] at hb
      obtain ⟨e, he, hea⟩ := List.mem_map.1 ha
      rw [hb, ← hea]
      exact Lawful_lt_of_lt_of_le hc (hinv.below_last e he) (hc.successor r0.last_key)
    · rw [hK] at hk
      by_cases hi : i < r0.index_block.entries.length
      · rw [List.getElem?_append_left (by rw [hlen]; exact hi), List.getElem?_map] at hk
        obtain ⟨e, he, hek⟩ := Option.map_eq_some'.1 hk
        rw [← hek]
        exact hinv.upper i b e hb he kl hkl
      · have hi2 : i = (r0.index_block.entries.map Prod.fst).length := by
          have := (List.getElem?_eq_some.1 hb).1
          omega
        rw [hi2, List.getElem?_concat_length] at hk
        have hbl : B.getLast? = some b := by
          rw [List.getLast?_eq_getElem?, ← hcount]
          have : r0.index_block.entries.length + 1 - 1 = i := by omega
          rw [this]
          exact hb
        have := hinv.pend_last hp b hbl
        rw [hkl] at this
        rw [← Option.some.inj hk, Option.some.inj this]
        exact hc.successor r0.last_key
    · rw [hK] at hk
      have hi : i < r0.index_block.entries.length := by
        have := (List.getElem?_eq_some.1 hb).1
        omega
      rw [List.getElem?_append_left (by rw [hlen]; exact hi), List.getElem?_map] at hk
      obtain ⟨e, he, hek⟩ := Option.map_eq_some'.1 hk
      rw [← hek]
      exact hinv.lower i e b he hb kf hkf
  · rw [if_neg hp] at hK hcount
    rw [List.append_nil] at hK
    refine ⟨by rw [hK]; simp; omega, by rw [hK]; exact hinv.sorted,
      fun i b k hb hk kl hkl => ?_, fun i k b hk hb kf hkf => ?_⟩
    · rw [hK, List.getElem?_map] at hk
      obtain ⟨e, he, hek⟩ := Option.map_eq_some'.1 hk
      rw [← hek]
      exact hinv.upper i b e hb he kl hkl
    · rw [hK, List.getElem?_map] at hk
      obtain ⟨e, he, hek⟩ := Option.map_eq_some'.1 hk
      rw [← hek]
      exact hinv.lower i e b he hb kf hkf

theorem Add_isSome (env : Env) (r : Rep) (key value : Bytes) (hc : r.closed = false)
    (hok : ok r = true) (hnf : r.file.NeverFails) (hpi : PendingInv r)
    (hord : r.num_entries > 0 → r.options.comparator.Compare key r.last_key > 0) :
    ∃ r1, Add env r key value = some r1 ∧ r1.last_key = key ∧ r1.options = r.options := by
  have ha : ∃ r2, Add_entry env r key value = some r2 := by
    unfold Add_entry
    rw [if_neg (fun h => h.2 (hord h.1)), if_neg (fun h => by
      have := hpi h.1
      simp [BlockBuilder.empty, this] at h)]
    exact ⟨_, rfl⟩
  obtain ⟨r2, ha⟩ := ha
  have hr2 := (Add_entry_some ha).2.2
  have hlk : r2.last_key = key := by rw [hr2]
  have hopt : r2.options = r.options := by rw [hr2]
  unfold Add
  rw [if_neg (by simp [hc]), if_neg (by simp [hok]), ha]
  simp only
  by_cases hs : r2.data_block.CurrentSizeEstimate env r2.options ≥ r2.options.block_size
  · rw [if_pos hs]
    obtain ⟨e1, e2, e3, e4, -, e6⟩ := Add_entry_isSome_fields ha
    obtain ⟨r1, h1, -, -, -, hr1⟩ := Flush_rep_neverFails env r2 (by rw [e1]; exact hc)
      (by unfold ok; rw [e2]; exact hok) (by rw [e3]; exact hnf) e4
      (by rw [e6]; simp)
    refine ⟨r1, h1, ?_, ?_⟩
    · rw [hr1]; exact hlk
    · rw [hr1]; exact hopt
  · rw [if_neg hs]
    exact ⟨r2, rfl, hlk, hopt⟩

theorem Flush_isSome_neverFails (env : Env) (r : Rep) (hc : r.closed = false)
    (hok : ok r = true) (hnf : r.file.NeverFails) (hpi : PendingInv r) :
    ∃ r1, Flush env r = some r1 ∧ r1.last_key = r.last_key ∧ r1.options = r.options ∧
      r1.num_entries = r.num_entries := by
  by_cases he : r.data_block.entries = []
  · exact ⟨r, Flush_empty env r hc he, rfl, rfl, rfl⟩
  · have hp : r.pending_index_entry = false := by
      by_contra hp
      exact he (hpi (by simpa using hp))
    obtain ⟨r1, h1, -, -, -, hr1⟩ := Flush_rep_neverFails env r hc hok hnf hp he
    exact ⟨r1, h1, by rw [hr1], by rw [hr1], by rw [hr1]⟩

theorem run_sorted_isSome {env : Env} {c : Comparator} (hlaw : c.Lawful) (ops : List Op)
    (r : Rep) (hops : ∀ op ∈ ops, op.isAddOrFlush = true) (hreach : Reach env r)
    (hc : r.closed = false) (hok : ok r = true) (hnf : r.file.NeverFails)
    (hcmp : r.options.comparator = c) (hkeys : (keysOf ops).Pairwise c.lt)
    (hfirst : r.num_entries > 0 → ∀ k ∈ keysOf ops, c.lt r.last_key k) :
    ∃ r1, run env r ops = some r1 := by
  induction ops generalizing r with
  | nil => exact ⟨r, rfl⟩
  | cons op ops ih =>
    have hops2 : ∀ o ∈ ops, o.isAddOrFlush = true := fun o ho => hops o (List.mem_cons_of_mem _ ho)
    cases op with
    | add key value =>
      simp only [keysOf, List.pairwise_cons] at hkeys
      obtain ⟨r1, h1, hlk, hopt⟩ := Add_isSome env r key value hc hok hnf
        (Reach_PendingInv hreach) (fun hn => by
          rw [hcmp]
          exact (hlaw.swap key r.last_key).2 (hfirst hn key (by simp [keysOf])))
      have hs : step env r (Op.add key value) = some r1 := h1
      obtain ⟨hok1, hc1, hnf1⟩ := step_neverFails hs rfl hok hnf (Reach_PendingInv hreach)
      obtain ⟨r2, h2⟩ := ih r1 hops2 (step_Reach hreach hs) hc1 hok1 hnf1
        (by rw [hopt]; exact hcmp) hkeys.2 (fun _ k hk => by rw [hlk]; exact hkeys.1 k hk)
      exact ⟨r2, by simp only [run, hs]; exact h2⟩
    | flush =>
      obtain ⟨r1, h1, hlk, hopt, hne⟩ := Flush_isSome_neverFails env r hc hok hnf
        (Reach_PendingInv hreach)
      have hs : step env r Op.flush = some r1 := h1
      obtain ⟨hok1, hc1, hnf1⟩ := step_neverFails hs rfl hok hnf (Reach_PendingInv hreach)
      obtain ⟨r2, h2⟩ := ih r1 hops2 (step_Reach hreach hs) hc1 hok1 hnf1
        (by rw [hopt]; exact hcmp) (by simpa [keysOf] using hkeys)
        (fun hn k hk => by
          rw [hlk]
          rw [hne] at hn
          exact hfirst hn k (by simpa [keysOf] using hk))
      exact ⟨r2, by simp only [run, hs]; exact h2⟩
    | changeOptions o => simp [Op.isAddOrFlush] at hops
    | finish => simp [Op.isAddOrFlush] at hops
    | abandon => simp [Op.isAddOrFlush] at hops

/-- C4: when keys that increase strictly in the order of the comparator are
added to a new builder on a file that never fails, with flushes anywhere in
between and whatever the block size, and the comparator keeps its contract
(a strict total order, a separator in [start, limit), a successor at or after
its key), every call returns, `Finish` returns ok, and the index block it
writes has keys that increase strictly, one for each data block written; the
key with number i is at or after the last key of data block i and before the
first key of data block i + 1, and the last index key is at or after the last
key of the last data block. The data blocks written hold, in order, exactly the
entries added. -/
theorem index_keys_separate_blocks (env : Env) (opt : Options) (script : List Status)
    (ops : List Op) (hscript : ∀ s ∈ script, s.ok = true)
    (hops : ∀ op ∈ ops, op.isAddOrFlush = true) (hlaw : opt.comparator.Lawful)
    (hkeys : (keysOf ops).Pairwise opt.comparator.lt) :
    ∃ (r : Rep) (ib : BlockBuilder) (B : List WrittenBlock) (K : List Bytes),
      run env (Rep.create opt (WritableFile.create script)) ops = some r ∧
      (∃ r4, Finish env r = some (Status.OK, r4)) ∧
      Finish_index_block env r = some ib ∧
      B = run_written env (Rep.create opt (WritableFile.create script)) (ops ++ [Op.finish]) ∧
      K = ib.entries.map Prod.fst ∧
      (B.map fun b => b.entries).flatten = entriesOf ops ∧
      (∀ b ∈ B, b.entries ≠ []) ∧
      K.length = B.length ∧
      K.Pairwise opt.comparator.lt ∧
      (∀ (i : Nat) (b : WrittenBlock) (k : Bytes), B[i]? = some b → K[i]? = some k →
        ∀ kl, lastKey b.entries = some kl → opt.comparator.le kl k) ∧
      (∀ (i : Nat) (k : Bytes) (b : WrittenBlock), K[i]? = some k → B[i + 1]? = some b →
        ∀ kf, firstKey b.entries = some kf → opt.comparator.lt k kf) := by
  have hreach0 : Reach env (Rep.create opt (WritableFile.create script)) :=
    Reach.create opt script
  obtain ⟨r, hrun⟩ := run_sorted_isSome hlaw ops _ hops hreach0 rfl rfl hscript rfl hkeys
    (fun hn => by simp [Rep.create] at hn)
  obtain ⟨hok, hc, hnf⟩ := run_neverFails hrun hops hreach0 rfl rfl hscript
  obtain ⟨hinv, hE⟩ := run_KeysInv hlaw hrun hops hok hc
    (KeysInv_create opt (WritableFile.create script))
    (show EntriesInv (Rep.create opt (WritableFile.create script)) [] [] from rfl)
  rw [List.nil_append] at hinv hE
  obtain ⟨ib, hib⟩ := Finish_index_block_neverFails env r hc hok hnf
    (Reach_PendingInv (run_Reach hreach0 hrun))
  obtain ⟨r0, h0, hok0, ⟨st, r4, hF⟩, hent⟩ := Finish_index_block_some hib
  have hinv0 := Flush_KeysInv h0 hok0 hinv
  obtain ⟨hE0, hcur0⟩ := Flush_EntriesInv h0 hok0 hE
  have hw : run_written env r [Op.finish] = Flush_written env r := by
    simp [run_written, step, hF, step_written]
  have hB : run_written env (Rep.create opt (WritableFile.create script)) (ops ++ [Op.finish]) =
      run_written env (Rep.create opt (WritableFile.create script)) ops ++ Flush_written env r := by
    rw [run_written_append env ops [Op.finish] _ r hrun, hw]
  have hK : ib.entries.map Prod.fst = (r0.index_block.entries ++
      (if r0.pending_index_entry = true then
        [(opt.comparator.FindShortSuccessor r0.last_key,
          env.BlockHandle_EncodeTo r0.pending_handle)]
      else [])).map Prod.fst := by
    rw [hent, hinv0.cmp]
  obtain ⟨k1, k2, k3, k4⟩ := Finish_pending_keys hlaw hinv0 _ hK
  obtain ⟨r4', hF4, -⟩ := Finish_neverFails env r hc hok hnf
    (Reach_PendingInv (run_Reach hreach0 hrun))
  refine ⟨r, ib, _, _, hrun, ⟨r4', hF4⟩, hib, rfl, rfl, ?_, ?_, ?_, ?_, ?_, ?_⟩
  · rw [hB]
    unfold EntriesInv at hE0
    rw [hcur0, List.append_nil, List.nil_append] at hE0
    exact hE0
  · rw [hB]; exact hinv0.nonempty
  · rw [hB]; exact k1
  · exact k2
  · rw [hB]; exact k3
  · rw [hB]; exact k4

/-! ## The sample comparator keeps the contract -/

theorem bytewiseCompare_self (a : Bytes) : bytewiseCompare a a = 0 := by
  induction a with
  | nil => rfl
  | cons x xs ih => simp [bytewiseCompare, ih]

theorem bytewiseCompare_swap (a b : Bytes) :
    bytewiseCompare a b > 0 ↔ bytewiseCompare b a < 0 := by
  induction a generalizing b with
  | nil => cases b <;> simp [bytewiseCompare]
  | cons x xs ih =>
    cases b with
    | nil => simp [bytewiseCompare]
    | cons y ys =>
      simp only [bytewiseCompare]
      by_cases h1 : x < y
      · have h2 : ¬ y < x := by omega
        simp [h1, h2]
      · by_cases h2 : y < x
        · simp [h1, h2]
        · simp only [h1, h2, if_false]
          exact ih ys

theorem bytewiseCompare_eq (a b : Bytes) (h : bytewiseCompare a b = 0) : a = b := by
  induction a generalizing b with
  | nil =>
    cases b with
    | nil => rfl
    | cons y ys => simp [bytewiseCompare] at h
  | cons x xs ih =>
    cases b with
    | nil => simp [bytewiseCompare] at h
    | cons y ys =>
      simp only [bytewiseCompare] at h
      by_cases h1 : x < y
      · simp [h1] at h
      · by_cases h2 : y < x
        · simp [h1, h2] at h
        · simp only [h1, h2, if_false] at h
          have : x = y := by omega
          rw [this, ih ys h]

theorem bytewiseCompare_trans (a b d : Bytes) (h1 : bytewiseCompare a b < 0)
    (h2 : bytewiseCompare b d < 0) : bytewiseCompare a d < 0 := by
  induction a generalizing b d with
  | nil =>
    cases d with
    | nil =>
      cases b with
      | nil => simp [bytewiseCompare] at h1
      | cons y ys => simp [bytewiseCompare] at h2
    | cons z zs => simp [bytewiseCompare]
  | cons x xs ih =>
    cases b with
    | nil => simp [bytewiseCompare] at h1
    | cons y ys =>
      cases d with
      | nil => simp [bytewiseCompare] at h2
      | cons z zs =>
        simp only [bytewiseCompare] at h1 h2 ⊢
        by_cases hxy : x < y
        · by_cases hyz : y < z
          · have : x < z := by omega
            simp [this]
          · by_cases hzy : z < y
            · simp [hyz, hzy] at h2
            · have : x < z := by omega
              simp [this]
        · by_cases hyx : y < x
          · simp [hxy, hyx] at h1
          · simp only [hxy, hyx, if_false] at h1
            by_cases hyz : y < z
            · have : x < z := by omega
              simp [this]
            · by_cases hzy : z < y
              · simp [hyz, hzy] at h2
              · simp only [hyz, hzy, if_false] at h2
                have e1 : ¬ x < z := by omega
                have e2 : ¬ z < x := by omega
                simp only [e1, e2, if_false]
                exact ih ys zs h1 h2

theorem sampleComparator_lawful : sampleComparator.Lawful where
  swap := bytewiseCompare_swap
  eq_of_compare := bytewiseCompare_eq
  lt_trans := bytewiseCompare_trans
  separator := fun start _ h => ⟨le_of_eq (bytewiseCompare_self start), h⟩
  successor := fun key => le_of_eq (bytewiseCompare_self key)

/-- C4, at a concrete input: the keys "a", "b", "c" with a flush after each of the first two. -/
theorem index_keys_separate_blocks_witness :
    ∃ (r : Rep) (ib : BlockBuilder) (B : List WrittenBlock) (K : List Bytes),
      run sampleEnv (Rep.create sampleOptions (WritableFile.create []))
        [Op.add [97] [49], Op.flush, Op.add [98] [50], Op.flush, Op.add [99] [51]] = some r ∧
      (∃ r4, Finish sampleEnv r = some (Status.OK, r4)) ∧
      Finish_index_block sampleEnv r = some ib ∧
      B = run_written sampleEnv (Rep.create sampleOptions (WritableFile.create []))
        ([Op.add [97] [49], Op.flush, Op.add [98] [50], Op.flush, Op.add [99] [51]] ++
          [Op.finish]) ∧
      K = ib.entries.map Prod.fst ∧
      (B.map fun b => b.entries).flatten =
        entriesOf [Op.add [97] [49], Op.flush, Op.add [98] [50], Op.flush, Op.add [99] [51]] ∧
      (∀ b ∈ B, b.entries ≠ []) ∧
      K.length = B.length ∧
      K.Pairwise sampleOptions.comparator.lt ∧
      (∀ (i : Nat) (b : WrittenBlock) (k : Bytes), B[i]? = some b → K[i]? = some k →
        ∀ kl, lastKey b.entries = some kl → sampleOptions.comparator.le kl k) ∧
      (∀ (i : Nat) (k : Bytes) (b : WrittenBlock), K[i]? = some k → B[i + 1]? = some b →
        ∀ kf, firstKey b.entries = some kf → sampleOptions.comparator.lt k kf) :=
  index_keys_separate_blocks sampleEnv sampleOptions []
    [Op.add [97] [49], Op.flush, Op.add [98] [50], Op.flush, Op.add [99] [51]]
    (fun s hs => absurd hs (List.not_mem_nil s)) (by decide) sampleComparator_lawful
    (by simp [keysOf, Comparator.lt, sampleOptions, sampleComparator, bytewiseCompare])

/-- C5, at a concrete input: three adds with two flushes in between on the sample builder. -/
theorem index_entries_match_blocks_witness :
    (sampleRun [] [Op.add [97] [49], Op.flush, Op.add [98] [50], Op.flush,
        Op.add [99] [51]]).index_block.entries.length +
      (if (sampleRun [] [Op.add [97] [49], Op.flush, Op.add [98] [50], Op.flush,
        Op.add [99] [51]]).pending_index_entry = true then 1 else 0) =
      (run_written sampleEnv (Rep.create sampleOptions (WritableFile.create []))
        [Op.add [97] [49], Op.flush, Op.add [98] [50], Op.flush, Op.add [99] [51]]).length :=
  (index_entries_match_blocks sampleEnv sampleOptions []
    [Op.add [97] [49], Op.flush, Op.add [98] [50], Op.flush, Op.add [99] [51]]
    (sampleRun [] [Op.add [97] [49], Op.flush, Op.add [98] [50], Op.flush, Op.add [99] [51]])
    rfl).1 rfl rfl

/-! ## Calls on a closed builder -/

theorem Add_closed (env : Env) (r : Rep) (key value : Bytes) (hc : r.closed = true) :
    Add env r key value = none := by
  simp [Add, hc]

theorem Flush_closed_none (env : Env) (r : Rep) (hc : r.closed = true) : Flush env r = none := by
  simp [Flush, hc]

theorem Finish_closed_none (env : Env) (r : Rep) (hc : r.closed = true) :
    Finish env r = none := by
  simp [Finish, Flush_closed_none env r hc]

theorem Abandon_closed (r : Rep) (hc : r.closed = true) : Abandon r = none := by
  simp [Abandon, hc]

/-! ## `Flush` that does nothing -/

/-- C16, as stated, fails: on a builder closed by `Abandon` the call of `Flush`
does not return normally, it fails the assertion at line 115. -/
theorem Flush_after_abandon_fails :
    Flush sampleEnv (sampleRun [] [Op.add [97] [49], Op.abandon]) = none := by
  rfl

/-- C16, amended: on an open builder `Flush` returns normally and changes
nothing (no byte appended, no file flush issued, every field as before) whenever
the status is a failure or the current data block is empty; on a closed builder
it fails the assertion that the builder is not closed. -/
theorem Flush_noop (env : Env) (r : Rep) :
    (r.closed = false → (ok r = false ∨ r.data_block.empty = true) → Flush env r = some r) ∧
      (r.closed = true → Flush env r = none) := by
  refine ⟨fun hc h => ?_, fun hc => Flush_closed_none env r hc⟩
  rcases h with h | h
  · exact Flush_failed env r hc h
  · exact Flush_empty env r hc (by simpa [BlockBuilder.empty] using h)

/-- C16 amended, at a concrete input: a new sample builder, whose data block is empty. -/
theorem Flush_noop_witness : Flush sampleEnv (sampleRep []) = some (sampleRep []) :=
  (Flush_noop sampleEnv (sampleRep [])).1 rfl (Or.inr rfl)

/-! ## `ChangeOptions` -/

theorem ChangeOptions_reject (r : Rep) (o : Options)
    (h : o.comparator.addr ≠ r.options.comparator.addr) :
    ChangeOptions r o =
      (Status.InvalidArgument "changing comparator while building table", r) := by
  unfold ChangeOptions
  rw [if_pos h]

theorem ChangeOptions_accept (r : Rep) (o : Options)
    (h : o.comparator.addr = r.options.comparator.addr) :
    ChangeOptions r o =
      (Status.OK,
        { r with options := o, index_block_options := { o with block_restart_interval := 1 } }) := by
  unfold ChangeOptions
  rw [if_neg (by simp [h])]

/-- C12: `ChangeOptions` returns InvalidArgument if and only if the comparator
of the new options is another object than the comparator of the builder, and
then the state of the builder is unchanged; otherwise it returns OK, the options
of the builder become the new options (the index options the new options with
restart interval 1) and nothing else changes, so that a later block write
chooses its payload under the new compression type and a later `Add` compares
the estimated size with the new block size. -/
theorem ChangeOptions_effect (env : Env) (r : Rep) (o : Options) :
    ((∃ msg, (ChangeOptions r o).1 = Status.InvalidArgument msg) ↔
        o.comparator.addr ≠ r.options.comparator.addr) ∧
      (o.comparator.addr ≠ r.options.comparator.addr → (ChangeOptions r o).2 = r) ∧
      (o.comparator.addr = r.options.comparator.addr →
        (ChangeOptions r o).1 = Status.OK ∧
        (ChangeOptions r o).2 =
          { r with options := o, index_block_options := { o with block_restart_interval := 1 } } ∧
        (∀ (bo : Options) (block : BlockBuilder),
          WriteBlock_payload env (ChangeOptions r o).2 bo block =
            WriteBlock_stored env o.compression (block.Finish env bo)) ∧
        (∀ key value r2, Add_entry env (ChangeOptions r o).2 key value = some r2 →
          r.closed = false → ok r = true →
          Add env (ChangeOptions r o).2 key value =
            if r2.data_block.CurrentSizeEstimate env o ≥ o.block_size then Flush env r2
            else some r2)) := by
  by_cases h : o.comparator.addr ≠ r.options.comparator.addr
  · rw [ChangeOptions_reject r o h]
    exact ⟨⟨fun _ => h, fun _ => ⟨_, rfl⟩⟩, fun _ => rfl, fun he => absurd he h⟩
  · have he : o.comparator.addr = r.options.comparator.addr := by simpa using h
    rw [ChangeOptions_accept r o he]
    refine ⟨⟨fun hm => ?_, fun hne => absurd hne h⟩, fun hne => absurd hne h, fun _ => ?_⟩
    · obtain ⟨msg, hm⟩ := hm
      exact absurd hm (by simp)
    · refine ⟨rfl, rfl, fun bo block => WriteBlock_payload_eq env _ bo block,
        fun key value r2 ha hc hok => ?_⟩
      have hopt : r2.options = o := by
        rw [(Add_entry_isSome_fields ha).2.2.2.2.1]
      unfold Add
      rw [if_neg (by simp [hc]), if_neg (by simpa [ok] using hok), ha]
      simp only [hopt]

/-- C12, at a concrete input: the sample builder offered another comparator
object, and offered a block size of 64 under its own comparator. -/
theorem ChangeOptions_effect_witness :
    (ChangeOptions (sampleRep []) { sampleOptions with comparator := otherComparator }).2 =
        sampleRep [] ∧
      (ChangeOptions (sampleRep []) { sampleOptions with block_size := 64 }).1 = Status.OK :=
  ⟨(ChangeOptions_effect sampleEnv (sampleRep [])
      { sampleOptions with comparator := otherComparator }).2.1 (by decide),
    ((ChangeOptions_effect sampleEnv (sampleRep [])
      { sampleOptions with block_size := 64 }).2.2 rfl).1⟩

/-! ## The options of the index block -/

theorem Flush_options {env : Env} {r r1 : Rep} (h : Flush env r = some r1) :
    r1.options = r.options ∧ r1.index_block_options = r.index_block_options := by
  obtain ⟨-, h1 | h1 | h1⟩ := Flush_cases h
  · rw [h1.2]; exact ⟨rfl, rfl⟩
  · rw [h1.2.2]; exact ⟨rfl, rfl⟩
  · obtain ⟨-, -, -, rw, b, hd, hw, h2 | h2⟩ := h1
    · have hf := WriteBlock_fields hw
      rw [h2.2]
      exact ⟨hf.1, hf.2.1⟩
    · have hf := WriteBlock_fields hw
      rw [h2.2]
      exact ⟨hf.1, hf.2.1⟩

theorem Finish_footer_options (env : Env) (r : Rep) (h1 h2 : BlockHandle) :
    (Finish_footer env r h1 h2).options = r.options ∧
      (Finish_footer env r h1 h2).index_block_options = r.index_block_options := by
  unfold Finish_footer
  split
  · simp only
    split <;> exact ⟨rfl, rfl⟩
  · exact ⟨rfl, rfl⟩

theorem Reach_IndexOptionsInv {env : Env} {r : Rep} (h : Reach env r) : IndexOptionsInv r := by
  unfold IndexOptionsInv
  induction h with
  | create opt script => rfl
  | changeOptions o _ ih =>
    unfold ChangeOptions
    split
    · exact ih
    · rfl
  | add_entry key value _ _ _ hadd ih =>
    rw [(Add_entry_some hadd).2.2]
    exact ih
  | flush _ hf ih =>
    rw [(Flush_options hf).1, (Flush_options hf).2]
    exact ih
  | finish_close _ hc ih =>
    rw [(Finish_close_some hc).2]
    exact ih
  | finish_metaindex _ _ hm ih =>
    rcases Finish_metaindex_cases hm with h1 | h1
    · rw [h1.2.1]; exact ih
    · obtain ⟨-, b, hw⟩ := h1
      have hf := WriteBlock_fields hw
      rw [hf.1, hf.2.1]
      exact ih
  | finish_pending _ _ _ ih =>
    rw [(Finish_pending_frame env _).2.2.2.2.2.1, (Finish_pending_frame env _).2.2.2.2.2.2.1]
    exact ih
  | finish_index _ _ hi ih =>
    rcases Finish_index_cases hi with h1 | h1
    · rw [h1.2.1]; exact ih
    · obtain ⟨-, rw, b, hw, hr1⟩ := h1
      have hf := WriteBlock_fields hw
      rw [hr1]
      simp only
      rw [hf.1, hf.2.1, (Finish_pending_frame env _).2.2.2.2.2.1,
        (Finish_pending_frame env _).2.2.2.2.2.2.1]
      exact ih
  | finish_footer h1 h2 _ _ ih =>
    rw [(Finish_footer_options env _ h1 h2).1, (Finish_footer_options env _ h1 h2).2]
    exact ih
  | abandon _ ha ih =>
    rw [(Abandon_some ha).2]
    exact ih

/-- C17: in every reachable state, after construction with any options and
after any calls, accepted and rejected calls of `ChangeOptions` with any restart
interval among them, the options of the index block have restart interval 1 and
agree with the options of the data blocks in every other field. -/
theorem index_block_options_restart_interval (env : Env) (r : Rep) (hreach : Reach env r) :
    r.index_block_options.block_restart_interval = 1 ∧
      r.index_block_options.comparator = r.options.comparator ∧
      r.index_block_options.block_size = r.options.block_size ∧
      r.index_block_options.compression = r.options.compression ∧
      r.index_block_options = { r.options with block_restart_interval := 1 } := by
  have h := Reach_IndexOptionsInv hreach
  unfold IndexOptionsInv at h
  refine ⟨?_, ?_, ?_, ?_, h⟩ <;> rw [h]

/-- C17, at a concrete input: the sample builder after an accepted change to
restart interval 4, an add, and a rejected change to another comparator object. -/
theorem index_block_options_restart_interval_witness :
    (sampleRun []
        [Op.changeOptions { sampleOptions with block_restart_interval := 4 }, Op.add [97] [49],
          Op.changeOptions { sampleOptions with comparator := otherComparator,
                                                block_restart_interval := 7 }]
      ).index_block_options.block_restart_interval = 1 ∧
    (sampleRun []
        [Op.changeOptions { sampleOptions with block_restart_interval := 4 }, Op.add [97] [49],
          Op.changeOptions { sampleOptions with comparator := otherComparator,
                                                block_restart_interval := 7 }]
      ).options.block_restart_interval = 4 :=
  ⟨(index_block_options_restart_interval sampleEnv _
      (run_Reach (Reach.create sampleOptions [])
        (show run sampleEnv (sampleRep [])
          [Op.changeOptions { sampleOptions with block_restart_interval := 4 }, Op.add [97] [49],
            Op.changeOptions { sampleOptions with comparator := otherComparator,
                                                  block_restart_interval := 7 }] = some _
          from rfl))).1,
    rfl⟩

/-! ## The internal assertions -/

theorem Flush_returns (env : Env) (r : Rep) (hc : r.closed = false) (hpi : PendingInv r) :
    ∃ r1, Flush env r = some r1 := by
  by_cases hok : ok r = true
  · by_cases he : r.data_block.entries = []
    · exact ⟨r, Flush_empty env r hc he⟩
    · have hp : r.pending_index_entry = false := by
        by_contra hp
        exact he (hpi (by simpa using hp))
      have hemp : r.data_block.empty = false := by
        unfold BlockBuilder.empty
        cases hde : r.data_block.entries with
        | nil => exact absurd hde he
        | cons a l => rfl
      obtain ⟨rw, hw⟩ := WriteBlock_isSome env r r.options r.data_block hok
      unfold Flush
      rw [if_neg (by simp [hc]), if_neg (by simp [hok]), if_neg (by simp [hemp]),
        if_neg (by simp [hp]), hw]
      simp only
      split
      · exact ⟨_, rfl⟩
      · exact ⟨_, rfl⟩
  · exact ⟨r, Flush_failed env r hc (by simpa using hok)⟩

theorem Add_entry_returns (env : Env) (r : Rep) (key value : Bytes) (hpi : PendingInv r)
    (hord : r.num_entries > 0 → r.options.comparator.Compare key r.last_key > 0) :
    ∃ r2, Add_entry env r key value = some r2 := by
  unfold Add_entry
  rw [if_neg (fun h => h.2 (hord h.1)), if_neg (fun h => by
    have := hpi h.1
    simp [BlockBuilder.empty, this] at h)]
  exact ⟨_, rfl⟩

theorem Add_returns (env : Env) (r : Rep) (key value : Bytes) (hc : r.closed = false)
    (hpi : PendingInv r)
    (hord : ok r = true → r.num_entries > 0 →
      r.options.comparator.Compare key r.last_key > 0) :
    ∃ r1, Add env r key value = some r1 := by
  by_cases hok : ok r = true
  · obtain ⟨r2, ha⟩ := Add_entry_returns env r key value hpi (hord hok)
    unfold Add
    rw [if_neg (by simp [hc]), if_neg (by simp [hok]), ha]
    simp only
    split
    · exact Flush_returns env r2 (by rw [(Add_entry_isSome_fields ha).1]; exact hc)
        (Add_entry_PendingInv ha)
    · exact ⟨r2, rfl⟩
  · exact ⟨r, Add_failed env r key value hc (by simpa using hok)⟩

theorem Finish_returns (env : Env) (r : Rep) (hc : r.closed = false) (hpi : PendingInv r) :
    ∃ st r4, Finish env r = some (st, r4) := by
  obtain ⟨r0, h0⟩ := Flush_returns env r hc hpi
  have hc0 := (Flush_closed h0).2
  have h1 : Finish_close r0 = some { r0 with closed := true } := by
    simp [Finish_close, hc0]
  have h2 : ∃ r2 hm, Finish_metaindex env { r0 with closed := true } = some (r2, hm) := by
    unfold Finish_metaindex
    by_cases hok : ok { r0 with closed := true } = true
    · obtain ⟨rw, hw⟩ := WriteBlock_isSome env { r0 with closed := true }
        ({ r0 with closed := true } : Rep).options { entries := [] } hok
      rw [if_pos hok, hw]
      exact ⟨_, _, rfl⟩
    · rw [if_neg hok]
      exact ⟨_, _, rfl⟩
  obtain ⟨r2, hm, h2⟩ := h2
  have h3 : ∃ r3 hi, Finish_index env r2 = some (r3, hi) := by
    unfold Finish_index
    by_cases hok : ok r2 = true
    · have hokp : ok (Finish_pending env r2) = true := by
        unfold ok
        rw [(Finish_pending_frame env r2).2.2.1]
        exact hok
      obtain ⟨rw, hw⟩ := WriteBlock_isSome env (Finish_pending env r2)
        (Finish_pending env r2).index_block_options (Finish_pending env r2).index_block hokp
      rw [if_pos hok]
      simp only [hw]
      exact ⟨_, _, rfl⟩
    · rw [if_neg hok]
      exact ⟨_, _, rfl⟩
  obtain ⟨r3, hi, h3⟩ := h3
  exact ⟨_, _, Finish_eq h0 h1 h2 h3⟩

/-- C18: in every reachable state, states after a failed append or a failed
file flush among them, an index entry is pending only if the data block is
empty; so on a builder that is not closed `Flush` and `Finish` return, and
`Add` returns for every key that is after the last key when an entry was added
before and the status is ok: neither the check of the empty data block in
`Add`, nor the check of no pending entry in `Flush`, nor the check of the ok
status in `WriteBlock` fails. -/
theorem pending_only_if_data_block_empty (env : Env) (r : Rep) (hreach : Reach env r) :
    (r.pending_index_entry = true → r.data_block.empty = true) ∧
      (r.closed = false →
        (∃ r1, Flush env r = some r1) ∧ (∃ st r4, Finish env r = some (st, r4)) ∧
        (∀ key value,
          (ok r = true → r.num_entries > 0 →
            r.options.comparator.Compare key r.last_key > 0) →
          ∃ r1, Add env r key value = some r1)) := by
  have hpi := Reach_PendingInv hreach
  refine ⟨fun hp => ?_, fun hc => ⟨Flush_returns env r hc hpi, Finish_returns env r hc hpi,
    fun key value hord => Add_returns env r key value hc hpi hord⟩⟩
  simp [BlockBuilder.empty, hpi hp]

/-- C18, at a concrete input: the sample builder after an add and a flush whose
trailer append failed, and the sample builder after an add and a flush that succeeded. -/
theorem pending_only_if_data_block_empty_witness :
    ((sampleRun [Status.OK, Status.IOError "disk full"]
        [Op.add [97] [49], Op.flush]).pending_index_entry = true →
      (sampleRun [Status.OK, Status.IOError "disk full"]
        [Op.add [97] [49], Op.flush]).data_block.empty = true) ∧
    ∃ r1, Add sampleEnv (sampleRun [] [Op.add [97] [49], Op.flush]) [98] [50] = some r1 :=
  ⟨(pending_only_if_data_block_empty sampleEnv _
      (run_Reach (Reach.create sampleOptions [Status.OK, Status.IOError "disk full"])
        (show run sampleEnv (sampleRep [Status.OK, Status.IOError "disk full"])
          [Op.add [97] [49], Op.flush] = some _ from rfl))).1,
    ((pending_only_if_data_block_empty sampleEnv _
      (run_Reach (Reach.create sampleOptions [])
        (show run sampleEnv (sampleRep []) [Op.add [97] [49], Op.flush] = some _
          from rfl))).2 rfl).2.2 [98] [50] (fun _ _ => by decide)⟩

/-! ## The block-size threshold -/

theorem Flush_nonempty {env : Env} {r r1 : Rep} (h : Flush env r = some r1) (hok : ok r = true)
    (he : r.data_block.entries ≠ []) :
    r1.data_block.entries = [] ∧ (ok r1 = true → r1.pending_index_entry = true) ∧
      r1.options = r.options := by
  have hemp : r.data_block.empty = false := by
    unfold BlockBuilder.empty
    cases hde : r.data_block.entries with
    | nil => exact absurd hde he
    | cons a l => rfl
  obtain ⟨-, h1 | h1 | h1⟩ := Flush_cases h
  · rw [h1.1] at hok
    exact absurd hok (by simp)
  · rw [h1.2.1] at hemp
    exact absurd hemp (by simp)
  · obtain ⟨-, -, -, rw, b, hd, hw, h2 | h2⟩ := h1
    · have hb := (WriteBlock_frame hw).2.1
      have hf := WriteBlock_fields hw
      rw [h2.2]
      refine ⟨by rw [hb], fun hok1 => ?_, hf.1⟩
      have : ok rw = true := hok1
      rw [h2.1] at this
      exact absurd this (by simp)
    · have hb := (WriteBlock_frame hw).2.1
      have hf := WriteBlock_fields hw
      rw [h2.2]
      exact ⟨by rw [hb], fun _ => rfl, hf.1⟩

/-- C19: an `Add` in a reachable open state with ok status, for a key that
passes the order check, forwards the pair to the data block and then calls
`Flush` if and only if the estimated size of the data block has reached the
configured block size (after the call the data block is empty exactly in that
case); so when `Add` returns with ok status the data block is either empty, with
an index entry pending, or holds the new entry with an estimated size below the
block size. -/
theorem Add_flush_threshold (env : Env) (r : Rep) (key value : Bytes) (hreach : Reach env r)
    (hc : r.closed = false) (hok : ok r = true)
    (hord : r.num_entries > 0 → r.options.comparator.Compare key r.last_key > 0) :
    ∃ r2 r1, Add_entry env r key value = some r2 ∧
      r2.data_block.entries = r.data_block.entries ++ [(key, value)] ∧
      Add env r key value = some r1 ∧
      (r2.data_block.CurrentSizeEstimate env r.options ≥ r.options.block_size →
        Flush env r2 = some r1) ∧
      (r2.data_block.CurrentSizeEstimate env r.options < r.options.block_size → r1 = r2) ∧
      (r1.data_block.entries = [] ↔
        r2.data_block.CurrentSizeEstimate env r.options ≥ r.options.block_size) ∧
      (ok r1 = true →
        (r1.data_block.entries = [] ∧ r1.pending_index_entry = true) ∨
        (r1.data_block.entries = r.data_block.entries ++ [(key, value)] ∧
          r1.data_block.CurrentSizeEstimate env r1.options < r1.options.block_size)) := by
  have hpi := Reach_PendingInv hreach
  obtain ⟨r2, ha⟩ := Add_entry_returns env r key value hpi hord
  obtain ⟨e1, e2, e3, e4, e5, e6⟩ := Add_entry_isSome_fields ha
  have hok2 : ok r2 = true := by unfold ok; rw [e2]; exact hok
  have hne2 : r2.data_block.entries ≠ [] := by rw [e6]; simp
  have hA : Add env r key value =
      if r2.data_block.CurrentSizeEstimate env r.options ≥ r.options.block_size then Flush env r2
      else some r2 := by
    unfold Add
    rw [if_neg (by simp [hc]), if_neg (by simp [hok]), ha]
    simp only [e5]
  by_cases hs : r2.data_block.CurrentSizeEstimate env r.options ≥ r.options.block_size
  · rw [if_pos hs] at hA
    obtain ⟨r1, h1⟩ := Flush_returns env r2 (by rw [e1]; exact hc) (Add_entry_PendingInv ha)
    obtain ⟨f1, f2, -⟩ := Flush_nonempty h1 hok2 hne2
    refine ⟨r2, r1, ha, e6, by rw [hA, h1], fun _ => h1, fun hlt => absurd hs (by omega),
      ⟨fun _ => hs, fun _ => f1⟩, fun hok1 => Or.inl ⟨f1, f2 hok1⟩⟩
  · rw [if_neg hs] at hA
    refine ⟨r2, r2, ha, e6, hA, fun hge => absurd hge hs, fun _ => rfl,
      ⟨fun hnil => absurd hnil hne2, fun hge => absurd hge hs⟩, fun _ => Or.inr ⟨e6, ?_⟩⟩
    rw [e5]
    omega

/-- C19, at a concrete input: the first add to a new sample builder. -/
theorem Add_flush_threshold_witness :
    ∃ r2 r1, Add_entry sampleEnv (sampleRep []) [97] [49] = some r2 ∧
      r2.data_block.entries = (sampleRep []).data_block.entries ++ [([97], [49])] ∧
      Add sampleEnv (sampleRep []) [97] [49] = some r1 ∧
      (r2.data_block.CurrentSizeEstimate sampleEnv (sampleRep []).options ≥
          (sampleRep []).options.block_size →
        Flush sampleEnv r2 = some r1) ∧
      (r2.data_block.CurrentSizeEstimate sampleEnv (sampleRep []).options <
          (sampleRep []).options.block_size → r1 = r2) ∧
      (r1.data_block.entries = [] ↔
        r2.data_block.CurrentSizeEstimate sampleEnv (sampleRep []).options ≥
          (sampleRep []).options.block_size) ∧
      (ok r1 = true →
        (r1.data_block.entries = [] ∧ r1.pending_index_entry = true) ∨
        (r1.data_block.entries = (sampleRep []).data_block.entries ++ [([97], [49])] ∧
          r1.data_block.CurrentSizeEstimate sampleEnv r1.options < r1.options.block_size)) :=
  Add_flush_threshold sampleEnv (sampleRep []) [97] [49] (Reach.create sampleOptions []) rfl rfl
    (fun h => absurd h (by decide))

/-! ## The keys added so far -/

theorem Flush_keeps {env : Env} {r r1 : Rep} (h : Flush env r = some r1) :
    r1.last_key = r.last_key ∧ r1.num_entries = r.num_entries ∧
      r1.index_block = r.index_block := by
  obtain ⟨-, h1 | h1 | h1⟩ := Flush_cases h
  · rw [h1.2]; exact ⟨rfl, rfl, rfl⟩
  · rw [h1.2.2]; exact ⟨rfl, rfl, rfl⟩
  · obtain ⟨-, -, -, rw, b, hd, hw, h2 | h2⟩ := h1
    · have hf := WriteBlock_fields hw
      rw [h2.2]
      exact ⟨hf.2.2.2.2.1, hf.2.2.2.2.2.1, hf.2.2.2.1⟩
    · have hf := WriteBlock_fields hw
      rw [h2.2]
      exact ⟨hf.2.2.2.2.1, hf.2.2.2.2.2.1, hf.2.2.2.1⟩

theorem keysOf_cons (op : Op) (ops : List Op) :
    keysOf (op :: ops) = keysOf [op] ++ keysOf ops := by
  cases op <;> simp [keysOf]

theorem Add_entry_HistoryInv {env : Env} {r r2 : Rep} {key value : Bytes} {H : List Bytes}
    (h : Add_entry env r key value = some r2) (hinv : HistoryInv r H) :
    HistoryInv r2 (H ++ [key]) := by
  have hr2 := (Add_entry_some h).2.2
  unfold HistoryInv at *
  constructor
  · rw [hr2]
    simp only [List.length_append, List.length_singleton]
    rw [hinv.1]
    push_cast
    rfl
  · intro k hk
    rw [List.getLast?_concat] at hk
    rw [hr2, ← Option.some.inj hk]

theorem step_HistoryInv {env : Env} {r r1 : Rep} {op : Op} {H : List Bytes}
    (h : step env r op = some r1) (hok1 : ok r1 = true) (hc1 : r1.closed = false)
    (hinv : HistoryInv r H) : HistoryInv r1 (H ++ keysOf [op]) := by
  cases op with
  | add key value =>
    obtain ⟨-, h1 | h1⟩ := Add_cases h
    · rw [h1.2, h1.1] at hok1
      exact absurd hok1 (by simp)
    · obtain ⟨-, r2, ha, h2 | h2⟩ := h1
      · have hk := Flush_keeps h2.2
        have h2inv := Add_entry_HistoryInv ha hinv
        unfold HistoryInv at *
        simp only [keysOf]
        rw [hk.1, hk.2.1]
        exact h2inv
      · rw [h2.2]
        exact Add_entry_HistoryInv ha hinv
  | flush =>
    have hk := Flush_keeps (show Flush env r = some r1 from h)
    unfold HistoryInv at *
    simp only [keysOf, List.append_nil]
    rw [hk.1, hk.2.1]
    exact hinv
  | changeOptions o =>
    simp only [step, Option.some.injEq] at h
    rw [← h]
    unfold ChangeOptions
    simp only [keysOf, List.append_nil]
    split
    · exact hinv
    · exact hinv
  | finish =>
    exfalso
    have hcl : r1.closed = true := by
      simp only [step, Option.map_eq_some', Prod.exists, exists_eq_right] at h
      obtain ⟨st, h⟩ := h
      obtain ⟨r0, r1', r2, r3, hm, hi, h0, h1, h2, h3, h4, -⟩ := Finish_stages h
      rw [h4, Finish_footer_closed, Finish_index_closed h3, Finish_metaindex_closed h2,
        (Finish_close_some h1).2]
    rw [hcl] at hc1
    exact absurd hc1 (by simp)
  | abandon =>
    rw [(Abandon_some h).2] at hc1
    exact absurd hc1 (by simp)

theorem run_HistoryInv {env : Env} {ops : List Op} {r r1 : Rep} {H : List Bytes}
    (h : run env r ops = some r1) (hok1 : ok r1 = true) (hc1 : r1.closed = false)
    (hinv : HistoryInv r H) : HistoryInv r1 (H ++ keysOf ops) := by
  induction ops generalizing r H with
  | nil =>
    simp only [run, Option.some.injEq] at h
    rw [← h]
    simpa [keysOf] using hinv
  | cons op ops ih =>
    simp only [run] at h
    cases hs : step env r op with
    | none => rw [hs] at h; simp at h
    | some r2 =>
      rw [hs] at h
      simp only at h
      obtain ⟨hok2, hc2⟩ := run_ok_open h hok1 hc1
      have := ih h (step_HistoryInv hs hok2 hc2 hinv)
      rw [keysOf_cons, ← List.append_assoc]
      exact this

theorem HistoryInv_create (opt : Options) (f : WritableFile) :
    HistoryInv (Rep.create opt f) [] := by
  unfold HistoryInv
  exact ⟨rfl, fun k hk => by simp at hk⟩

/-! ## The number of entries -/

theorem run_increasing_isSome {env : Env} (ops : List Op) (r : Rep)
    (hops : ∀ op ∈ ops, op.isAddOrFlush = true) (hreach : Reach env r)
    (hc : r.closed = false) (hok : ok r = true) (hnf : r.file.NeverFails)
    (hkeys : (keysOf ops).Chain' (fun a b => r.options.comparator.Compare b a > 0))
    (hfirst : r.num_entries > 0 → ∀ k, (keysOf ops).head? = some k →
      r.options.comparator.Compare k r.last_key > 0) :
    ∃ r1, run env r ops = some r1 := by
  induction ops generalizing r with
  | nil => exact ⟨r, rfl⟩
  | cons op ops ih =>
    have hops2 : ∀ o ∈ ops, o.isAddOrFlush = true := fun o ho => hops o (List.mem_cons_of_mem _ ho)
    cases op with
    | add key value =>
      simp only [keysOf, List.chain'_cons'] at hkeys
      obtain ⟨r1, h1, hlk, hopt⟩ := Add_isSome env r key value hc hok hnf
        (Reach_PendingInv hreach) (fun hn => hfirst hn key (by simp [keysOf]))
      have hs : step env r (Op.add key value) = some r1 := h1
      obtain ⟨hok1, hc1, hnf1⟩ := step_neverFails hs rfl hok hnf (Reach_PendingInv hreach)
      obtain ⟨r2, h2⟩ := ih r1 hops2 (step_Reach hreach hs) hc1 hok1 hnf1
        (by rw [hopt]; exact hkeys.2)
        (fun _ k hk => by rw [hlk, hopt]; exact hkeys.1 k (by simpa using hk))
      exact ⟨r2, by simp only [run, hs]; exact h2⟩
    | flush =>
      obtain ⟨r1, h1, hlk, hopt, hne⟩ := Flush_isSome_neverFails env r hc hok hnf
        (Reach_PendingInv hreach)
      have hs : step env r Op.flush = some r1 := h1
      obtain ⟨hok1, hc1, hnf1⟩ := step_neverFails hs rfl hok hnf (Reach_PendingInv hreach)
      obtain ⟨r2, h2⟩ := ih r1 hops2 (step_Reach hreach hs) hc1 hok1 hnf1
        (by rw [hopt]; simpa [keysOf] using hkeys)
        (fun hn k hk => by
          rw [hlk, hopt]
          rw [hne] at hn
          exact hfirst hn k (by simpa [keysOf] using hk))
      exact ⟨r2, by simp only [run, hs]; exact h2⟩
    | changeOptions o => simp [Op.isAddOrFlush] at hops
    | finish => simp [Op.isAddOrFlush] at hops
    | abandon => simp [Op.isAddOrFlush] at hops

theorem run_from_create {env : Env} (opt : Options) (script : List Status) (ops : List Op)
    (hscript : ∀ s ∈ script, s.ok = true) (hops : ∀ op ∈ ops, op.isAddOrFlush = true)
    (hkeys : (keysOf ops).Chain' (fun a b => opt.comparator.Compare b a > 0)) :
    ∃ r, run env (Rep.create opt (WritableFile.create script)) ops = some r ∧
      ok r = true ∧ r.closed = false ∧ r.file.NeverFails ∧ Reach env r ∧
      r.num_entries = ((keysOf ops).length : Int) := by
  have hreach : Reach env (Rep.create opt (WritableFile.create script)) := Reach.create opt script
  obtain ⟨r, hrun⟩ := run_increasing_isSome ops (Rep.create opt (WritableFile.create script))
    hops hreach rfl rfl hscript hkeys (fun hn => absurd hn (by simp [Rep.create]))
  obtain ⟨hok, hc, hnf⟩ := run_neverFails hrun hops hreach rfl rfl hscript
  have hinv := run_HistoryInv hrun hok hc (HistoryInv_create opt (WritableFile.create script))
  rw [List.nil_append] at hinv
  exact ⟨r, hrun, hok, hc, hnf, run_Reach hreach hrun, hinv.1⟩

/-- C14: when N keys, each greater than the one before it in the order of the
comparator, are added to a new builder on a file whose appends and flushes
never fail, with flushes anywhere in between, whatever the block size and the
compression of the options, and N is in the range of the counter (below 2^63),
every call returns, `Finish` returns ok and `NumEntries` is N, before `Finish`
and after it. -/
theorem NumEntries_counts_adds (env : Env) (opt : Options) (script : List Status)
    (ops : List Op) (hscript : ∀ s ∈ script, s.ok = true)
    (hops : ∀ op ∈ ops, op.isAddOrFlush = true)
    (hkeys : (keysOf ops).Chain' (fun a b => opt.comparator.Compare b a > 0))
    (hN : (keysOf ops).length < 2 ^ 63) :
    ∃ r r4, run env (Rep.create opt (WritableFile.create script)) ops = some r ∧
      Finish env r = some (Status.OK, r4) ∧ ok r4 = true ∧
      NumEntries r = (keysOf ops).length ∧ NumEntries r4 = (keysOf ops).length := by
  obtain ⟨r, hrun, hok, hc, hnf, hreach, hne⟩ := run_from_create opt script ops hscript hops hkeys
  obtain ⟨r4, hF, -, hst, -, hne4⟩ := Finish_neverFails env r hc hok hnf (Reach_PendingInv hreach)
  have hmod : ∀ n : Nat, n < 2 ^ 63 → (((n : Int) % 2 ^ 64).toNat) = n := by
    intro n hn
    have h1 : (n : Int) % 2 ^ 64 = (n : Int) :=
      Int.emod_eq_of_lt (by omega) (by
        have : (n : Int) < 2 ^ 63 := by exact_mod_cast hn
        omega)
    rw [h1]
    rfl
  refine ⟨r, r4, hrun, hF, ?_, ?_, ?_⟩
  · unfold ok
    rw [hst]
    rfl
  · unfold NumEntries
    rw [hne]
    exact hmod _ hN
  · unfold NumEntries
    rw [hne4, hne]
    exact hmod _ hN

/-- C14, at a concrete input: the keys "a", "b", "c" added to the sample builder. -/
theorem NumEntries_counts_adds_witness :
    ∃ r r4, run sampleEnv (Rep.create sampleOptions (WritableFile.create []))
        [Op.add [97] [49], Op.add [98] [50], Op.add [99] [51]] = some r ∧
      Finish sampleEnv r = some (Status.OK, r4) ∧ ok r4 = true ∧
      NumEntries r = (keysOf [Op.add [97] [49], Op.add [98] [50], Op.add [99] [51]]).length ∧
      NumEntries r4 = (keysOf [Op.add [97] [49], Op.add [98] [50], Op.add [99] [51]]).length :=
  NumEntries_counts_adds sampleEnv sampleOptions []
    [Op.add [97] [49], Op.add [98] [50], Op.add [99] [51]]
    (fun s hs => absurd hs (List.not_mem_nil s)) (by decide)
    (by simp [keysOf, sampleOptions, sampleComparator, bytewiseCompare])
    (by simp [keysOf])

/-! ## The bytes of the data blocks -/

theorem WriteBlock_ok_contents {env : Env} {r r1 : Rep} {o : Options} {block b1 : BlockBuilder}
    {hd : BlockHandle} (h : WriteBlock env r o block = some (r1, b1, hd))
    (hok1 : ok r1 = true) :
    r1.file.contents =
        r.file.contents ++ WriteBlock_bytes env r.options.compression (block.Finish env o) ∧
      hd.size = (WriteBlock_stored env r.options.compression (block.Finish env o)).length := by
  constructor
  · by_cases h1 : (r.file.Append (WriteBlock_payload env r o block)).1.ok = true
    · by_cases h2 : ((r.file.Append (WriteBlock_payload env r o block)).2.Append
          (WriteBlock_trailer env (WriteBlock_payload env r o block)
            (WriteBlock_type env r o block))).1.ok = true
      · rw [(WriteBlock_both_ok h h1 h2).2.1, File_Append_ok_contents _ _ h2,
          File_Append_ok_contents _ _ h1, List.append_assoc, WriteBlock_bytes_eq]
      · exfalso
        have hs := (WriteBlock_trailer_fails h h1 (by simpa using h2)).1
        unfold ok at hok1
        rw [hs] at hok1
        exact h2 hok1
    · exfalso
      have hs := (WriteBlock_payload_fails h (by simpa using h1)).1
      unfold ok at hok1
      rw [hs] at hok1
      exact h1 hok1
  · rw [(WriteBlock_frame h).2.2.1, ← WriteBlock_payload_eq env r o block]

theorem Flush_ContentsInv {env : Env} {opt : Options} {r r1 : Rep} {B : List WrittenBlock}
    (h : Flush env r = some r1) (hok1 : ok r1 = true) (hinv : ContentsInv env opt r B) :
    ContentsInv env opt r1 (B ++ Flush_written env r) := by
  obtain ⟨-, -, h1 | h1⟩ := Flush_written_of_ok h hok1
  · rw [h1.1, h1.2.1, List.append_nil]
    exact hinv
  · obtain ⟨-, -, rw, b, hd, hw, hokw, hfw, hr1⟩ := h1
    obtain ⟨hcont, hsize⟩ := WriteBlock_ok_contents hw hokw
    have hopt : r1.options = r.options := by rw [hr1]; exact (WriteBlock_fields hw).1
    have hfile : r1.file.contents = rw.file.contents := by
      rw [hr1]; exact File_Flush_contents _
    obtain ⟨ho, hc, hs⟩ := hinv
    rw [ho] at hcont hsize
    refine ⟨by rw [hopt, ho], ?_, ?_⟩
    · rw [hfile, hcont, hc, hfw]
      simp [BlockBuilder.Finish]
    · intro x hx
      rw [hfw] at hx
      rcases List.mem_append.1 hx with hx | hx
      · exact hs x hx
      · rw [List.mem_singleton] at hx
        rw [hx]
        exact hsize

theorem step_ContentsInv {env : Env} {opt : Options} {r r1 : Rep} {op : Op}
    {B : List WrittenBlock} {E : List (Bytes × Bytes)} (h : step env r op = some r1)
    (hop : op.isAddOrFlush = true) (hok1 : ok r1 = true)
    (hinv : ContentsInv env opt r B) (hE : EntriesInv r B E) :
    ContentsInv env opt r1 (B ++ step_written env r op) ∧
      EntriesInv r1 (B ++ step_written env r op) (E ++ entriesOf [op]) := by
  cases op with
  | add key value =>
    obtain ⟨hcl, h1 | h1⟩ := Add_cases h
    · rw [h1.2, h1.1] at hok1
      exact absurd hok1 (by simp)
    · obtain ⟨hok, r2, ha, h2 | h2⟩ := h1
      · have : step_written env r (Op.add key value) = Flush_written env r2 := by
          simp [step_written, Add_written, hcl, hok, ha, h2.1]
        rw [this]
        have hf := Add_entry_isSome_fields ha
        have hinv2 : ContentsInv env opt r2 B := by
          unfold ContentsInv at *
          rw [hf.2.2.1, hf.2.2.2.2.1]
          exact hinv
        exact ⟨Flush_ContentsInv h2.2 hok1 hinv2,
          (Flush_EntriesInv h2.2 hok1 (Add_entry_EntriesInv ha hE)).1⟩
      · have : step_written env r (Op.add key value) = [] := by
          simp only [step_written, Add_written, hcl, hok, ha]
          rw [if_neg (by simp), if_neg (by omega)]
        rw [this, List.append_nil, h2.2]
        have hf := Add_entry_isSome_fields ha
        refine ⟨?_, Add_entry_EntriesInv ha hE⟩
        unfold ContentsInv at *
        rw [hf.2.2.1, hf.2.2.2.2.1]
        exact hinv
  | flush =>
    have hf : Flush env r = some r1 := h
    refine ⟨Flush_ContentsInv hf hok1 hinv, ?_⟩
    have := (Flush_EntriesInv hf hok1 hE).1
    simpa [entriesOf, step_written] using this
  | changeOptions o => simp [Op.isAddOrFlush] at hop
  | finish => simp [Op.isAddOrFlush] at hop
  | abandon => simp [Op.isAddOrFlush] at hop

theorem run_ContentsInv {env : Env} {opt : Options} {ops : List Op} {r r1 : Rep}
    {B : List WrittenBlock} {E : List (Bytes × Bytes)} (h : run env r ops = some r1)
    (hops : ∀ op ∈ ops, op.isAddOrFlush = true) (hok1 : ok r1 = true) (hc1 : r1.closed = false)
    (hinv : ContentsInv env opt r B) (hE : EntriesInv r B E) :
    ContentsInv env opt r1 (B ++ run_written env r ops) ∧
      EntriesInv r1 (B ++ run_written env r ops) (E ++ entriesOf ops) := by
  induction ops generalizing r B E with
  | nil =>
    simp only [run, Option.some.injEq] at h
    rw [← h]
    simpa [run_written, entriesOf] using ⟨hinv, hE⟩
  | cons op ops ih =>
    simp only [run] at h
    cases hs : step env r op with
    | none => rw [hs] at h; simp at h
    | some r2 =>
      rw [hs] at h
      simp only at h
      obtain ⟨hok2, -⟩ := run_ok_open h hok1 hc1
      obtain ⟨hi2, hE2⟩ := step_ContentsInv hs (hops op (List.mem_cons_self _ _)) hok2 hinv hE
      obtain ⟨hi3, hE3⟩ := ih h (fun o ho => hops o (List.mem_cons_of_mem _ ho)) hi2 hE2
      have hw : run_written env r (op :: ops) =
          step_written env r op ++ run_written env r2 ops := by
        simp [run_written, hs]
      have he : entriesOf (op :: ops) = entriesOf [op] ++ entriesOf ops := by
        cases op <;> simp [entriesOf]
      rw [hw, he, ← List.append_assoc, ← List.append_assoc]
      exact ⟨hi3, hE3⟩

theorem run_then {env : Env} (ops ops2 : List Op) (r r1 : Rep) (h : run env r ops = some r1) :
    run env r (ops ++ ops2) = run env r1 ops2 := by
  induction ops generalizing r with
  | nil =>
    simp only [run, Option.some.injEq] at h
    rw [h]
    rfl
  | cons op ops ih =>
    simp only [run] at h
    cases hs : step env r op with
    | none => rw [hs] at h; simp at h
    | some r2 =>
      rw [hs] at h
      simp only at h
      simp only [List.cons_append, run, hs]
      exact ih r2 h

/-- C11: when keys, each greater than the one before it in the order of the
comparator, are added to a new builder on a file that never fails, with flushes
anywhere in between, and `Abandon` is called after them, every call returns and
`Abandon` changes nothing but `closed`: the file, the offset, the status (ok) and
the entry count (the number of keys added) are those before it. The file then
holds exactly the data blocks written before, each as stored payload and 5-byte
trailer, and nothing after them; its length is the sum over these blocks of the
stored payload length plus 5, which is `FileSize` (as long as it fits 64 bits).
The entries added are those of the data blocks written followed by those still
in the data block, which stay there unwritten. -/
theorem Abandon_leaves_data_blocks (env : Env) (opt : Options) (script : List Status)
    (ops : List Op) (hscript : ∀ s ∈ script, s.ok = true)
    (hops : ∀ op ∈ ops, op.isAddOrFlush = true)
    (hkeys : (keysOf ops).Chain' (fun a b => opt.comparator.Compare b a > 0)) :
    ∃ (r r1 : Rep) (B : List WrittenBlock),
      run env (Rep.create opt (WritableFile.create script)) ops = some r ∧
      Abandon r = some r1 ∧
      run env (Rep.create opt (WritableFile.create script)) (ops ++ [Op.abandon]) = some r1 ∧
      B = run_written env (Rep.create opt (WritableFile.create script)) (ops ++ [Op.abandon]) ∧
      r1 = { r with closed := true } ∧
      r1.file = r.file ∧ r1.offset = r.offset ∧ r1.status = r.status ∧ ok r1 = true ∧
      r1.num_entries = r.num_entries ∧ r1.num_entries = ((keysOf ops).length : Int) ∧
      r1.file.contents =
        (B.map fun b =>
          WriteBlock_bytes env opt.compression (env.BlockBuilder_Finish opt b.entries)).flatten ∧
      r1.file.contents.length =
        (B.map fun b =>
          (WriteBlock_stored env opt.compression
            (env.BlockBuilder_Finish opt b.entries)).length + 5).sum ∧
      (∀ b ∈ B, b.handle.size =
        (WriteBlock_stored env opt.compression (env.BlockBuilder_Finish opt b.entries)).length) ∧
      (r1.file.contents.length < 2 ^ 64 → FileSize r1 = r1.file.contents.length) ∧
      (B.map fun b => b.entries).flatten ++ r1.data_block.entries = entriesOf ops ∧
      r1.data_block = r.data_block := by
  obtain ⟨r, hrun, hok, hc, hnf, hreach, hne⟩ := run_from_create opt script ops hscript hops hkeys
  have hab : Abandon r = some { r with closed := true } := by
    unfold Abandon
    rw [if_neg (by simp [hc])]
  have hrun2 : run env (Rep.create opt (WritableFile.create script)) (ops ++ [Op.abandon]) =
      some { r with closed := true } := by
    rw [run_then ops [Op.abandon] _ r hrun]
    simp [run, step, hab]
  have hB : run_written env (Rep.create opt (WritableFile.create script)) (ops ++ [Op.abandon]) =
      run_written env (Rep.create opt (WritableFile.create script)) ops := by
    rw [run_written_append env ops [Op.abandon] _ r hrun]
    simp [run_written, step, hab, step_written]
  have hinv0 : ContentsInv env opt (Rep.create opt (WritableFile.create script)) [] := by
    unfold ContentsInv
    exact ⟨rfl, rfl, fun b hb => absurd hb (List.not_mem_nil b)⟩
  have hE0 : EntriesInv (Rep.create opt (WritableFile.create script)) [] [] := rfl
  obtain ⟨⟨-, hcont, hsize⟩, hE⟩ := run_ContentsInv hrun hops hok hc hinv0 hE0
  rw [List.nil_append] at hcont hsize hE
  rw [List.nil_append] at hE
  have hlen : r.file.contents.length =
      ((run_written env (Rep.create opt (WritableFile.create script)) ops).map fun b =>
        (WriteBlock_stored env opt.compression
          (env.BlockBuilder_Finish opt b.entries)).length + 5).sum := by
    rw [hcont, List.length_flatten, List.map_map]
    congr 1
    apply List.map_congr_left
    intro b _
    exact WriteBlock_bytes_length env _ _
  refine ⟨r, { r with closed := true }, _, hrun, hab, hrun2, rfl, rfl, rfl, rfl, rfl, hok, rfl,
    hne, ?_, ?_, ?_, ?_, ?_, rfl⟩
  · rw [hB]; exact hcont
  · rw [hB]; exact hlen
  · rw [hB]; exact hsize
  · intro hlt
    exact ((Reach_OffsetInv hreach) hlt).2 hok
  · rw [hB]; exact hE

/-- C11, at a concrete input: "a", a flush and "b" on the sample builder, then
`Abandon`: the file holds the block of "a" only. -/
theorem Abandon_leaves_data_blocks_witness :
    (sampleRun [] [Op.add [97] [49], Op.flush, Op.add [98] [50], Op.abandon]).closed = true ∧
      (sampleRun [] [Op.add [97] [49], Op.flush, Op.add [98] [50], Op.abandon]).file.contents =
        WriteBlock_bytes sampleEnv sampleOptions.compression
          (sampleEnv.BlockBuilder_Finish sampleOptions [([97], [49])]) ∧
      (sampleRun [] [Op.add [97] [49], Op.flush, Op.add [98] [50],
        Op.abandon]).data_block.entries = [([98], [50])] ∧
      ∃ (r r1 : Rep) (B : List WrittenBlock),
        run sampleEnv (Rep.create sampleOptions (WritableFile.create []))
          [Op.add [97] [49], Op.flush, Op.add [98] [50]] = some r ∧
        Abandon r = some r1 ∧
        B = run_written sampleEnv (Rep.create sampleOptions (WritableFile.create []))
          ([Op.add [97] [49], Op.flush, Op.add [98] [50]] ++ [Op.abandon]) ∧
        r1.file = r.file ∧
        r1.file.contents.length =
          (B.map fun b =>
            (WriteBlock_stored sampleEnv sampleOptions.compression
              (sampleEnv.BlockBuilder_Finish sampleOptions b.entries)).length + 5).sum ∧
        (r1.file.contents.length < 2 ^ 64 → FileSize r1 = r1.file.contents.length) := by
  refine ⟨by decide, by decide, by decide, ?_⟩
  obtain ⟨r, r1, B, h1, h2, -, h4, -, h6, -, -, -, -, -, -, h13, -, h15, -, -⟩ :=
    Abandon_leaves_data_blocks sampleEnv sampleOptions []
      [Op.add [97] [49], Op.flush, Op.add [98] [50]]
      (fun s hs => absurd hs (List.not_mem_nil s)) (by decide)
      (by simp [keysOf, sampleOptions, sampleComparator, bytewiseCompare])
  exact ⟨r, r1, B, h1, h2, h4, h6, h13, h15⟩

/-! ## The state at a failed assertion -/

theorem WriteBlock_outcome_result (env : Env) (r : Rep) (o : Options) (block : BlockBuilder) :
    (WriteBlock_outcome env r o block).result = WriteBlock env r o block := by
  unfold WriteBlock_outcome
  cases WriteBlock env r o block <;> rfl

theorem Flush_outcome_result (env : Env) (r : Rep) :
    (Flush_outcome env r).result = Flush env r := by
  unfold Flush_outcome Flush WriteBlock_outcome
  split
  · rfl
  · split
    · rfl
    · split
      · rfl
      · split
        · rfl
        · cases WriteBlock env r r.options r.data_block with
          | none => rfl
          | some res =>
            obtain ⟨r1, block, handle⟩ := res
            simp only
            split <;> rfl

theorem Add_entry_outcome_result (env : Env) (r : Rep) (key value : Bytes) :
    (Add_entry_outcome env r key value).result = Add_entry env r key value := by
  unfold Add_entry_outcome Add_entry
  split
  · rfl
  · split <;> rfl

theorem Add_outcome_result (env : Env) (r : Rep) (key value : Bytes) :
    (Add_outcome env r key value).result = Add env r key value := by
  unfold Add_outcome Add
  split
  · rfl
  · split
    · rfl
    · rw [← Add_entry_outcome_result env r key value]
      cases Add_entry_outcome env r key value with
      | aborted s => rfl
      | returned r2 =>
        simp only [Outcome.result]
        by_cases hge : r2.data_block.CurrentSizeEstimate env r2.options ≥ r2.options.block_size
        · rw [if_pos hge, if_pos hge]
          exact Flush_outcome_result env r2
        · rw [if_neg hge, if_neg hge]

theorem Finish_metaindex_outcome_result (env : Env) (r : Rep) :
    (Finish_metaindex_outcome env r).result = Finish_metaindex env r := by
  unfold Finish_metaindex_outcome Finish_metaindex WriteBlock_outcome
  split
  · cases WriteBlock env r r.options { entries := [] } with
    | none => rfl
    | some res => rfl
  · rfl

theorem Finish_index_outcome_result (env : Env) (r : Rep) :
    (Finish_index_outcome env r).result = Finish_index env r := by
  unfold Finish_index_outcome Finish_index WriteBlock_outcome
  split
  · simp only
    cases WriteBlock env (Finish_pending env r) (Finish_pending env r).index_block_options
        (Finish_pending env r).index_block with
    | none => rfl
    | some res => rfl
  · rfl

theorem Finish_outcome_result (env : Env) (r : Rep) :
    (Finish_outcome env r).result = Finish env r := by
  unfold Finish_outcome Finish Finish_close
  rw [← Flush_outcome_result env r]
  cases Flush_outcome env r with
  | aborted s => rfl
  | returned r0 =>
    simp only [Outcome.result]
    by_cases hcl : r0.closed = true
    · rw [if_pos hcl, if_pos hcl]
    · rw [if_neg hcl, if_neg hcl]
      simp only
      rw [← Finish_metaindex_outcome_result env { r0 with closed := true }]
      cases Finish_metaindex_outcome env { r0 with closed := true } with
      | aborted s => rfl
      | returned res2 =>
        obtain ⟨r2, mh⟩ := res2
        simp only [Outcome.result]
        rw [← Finish_index_outcome_result env r2]
        cases Finish_index_outcome env r2 with
        | aborted s => rfl
        | returned res3 => rfl

theorem Abandon_outcome_result (r : Rep) : (Abandon_outcome r).result = Abandon r := by
  unfold Abandon_outcome Abandon
  split <;> rfl

theorem step_outcome_result (env : Env) (r : Rep) (op : Op) :
    (step_outcome env r op).result = step env r op := by
  cases op with
  | add key value => exact Add_outcome_result env r key value
  | flush => exact Flush_outcome_result env r
  | changeOptions o => rfl
  | finish =>
    simp only [step_outcome, step]
    rw [← Finish_outcome_result env r]
    cases Finish_outcome env r <;> rfl
  | abandon => exact Abandon_outcome_result r

theorem Outcome_result_some {α : Type} {x : Outcome α} {a : α} (h : x.result = some a) :
    x = Outcome.returned a := by
  cases x with
  | returned b =>
    simp only [Outcome.result, Option.some.injEq] at h
    rw [h]
  | aborted s => simp [Outcome.result] at h

theorem run_outcome_result (env : Env) (r : Rep) (ops : List Op) :
    (run_outcome env r ops).result = run env r ops := by
  induction ops generalizing r with
  | nil => rfl
  | cons op ops ih =>
    simp only [run_outcome, run]
    rw [← step_outcome_result env r op]
    cases step_outcome env r op with
    | aborted s => rfl
    | returned r1 => exact ih r1

theorem run_outcome_then {env : Env} (ops ops2 : List Op) (r r1 : Rep)
    (h : run env r ops = some r1) :
    run_outcome env r (ops ++ ops2) = run_outcome env r1 ops2 := by
  induction ops generalizing r with
  | nil =>
    simp only [run, Option.some.injEq] at h
    rw [h]
    rfl
  | cons op ops ih =>
    simp only [run] at h
    cases hs : step env r op with
    | none => rw [hs] at h; simp at h
    | some r2 =>
      rw [hs] at h
      simp only at h
      have hso : step_outcome env r op = Outcome.returned r2 :=
        Outcome_result_some (by rw [step_outcome_result, hs])
      simp only [List.cons_append, run_outcome, hso]
      exact ih r2 h

theorem Flush_outcome_closed (env : Env) (r : Rep) (hc : r.closed = true) :
    Flush_outcome env r = Outcome.aborted r := by
  simp [Flush_outcome, hc]

theorem Add_outcome_closed (env : Env) (r : Rep) (key value : Bytes) (hc : r.closed = true) :
    Add_outcome env r key value = Outcome.aborted r := by
  simp [Add_outcome, hc]

theorem Finish_outcome_closed (env : Env) (r : Rep) (hc : r.closed = true) :
    Finish_outcome env r = Outcome.aborted r := by
  simp [Finish_outcome, Flush_outcome_closed env r hc]

theorem Abandon_outcome_closed (r : Rep) (hc : r.closed = true) :
    Abandon_outcome r = Outcome.aborted r := by
  simp [Abandon_outcome, hc]

theorem step_outcome_closed (env : Env) (r : Rep) (op : Op) (hc : r.closed = true)
    (hop : op.assertsOpen = true) : step_outcome env r op = Outcome.aborted r := by
  cases op with
  | add key value => exact Add_outcome_closed env r key value hc
  | flush => exact Flush_outcome_closed env r hc
  | changeOptions o => simp [Op.assertsOpen] at hop
  | finish => simp [step_outcome, Finish_outcome_closed env r hc]
  | abandon => exact Abandon_outcome_closed r hc

theorem Finish_closes {env : Env} {r r1 : Rep} {st : Status} (h : Finish env r = some (st, r1)) :
    r1.closed = true := by
  obtain ⟨r0, r1a, r2, r3, hm, hi, h0, h1, h2, h3, h4, -⟩ := Finish_stages h
  rw [h4, Finish_footer_closed, Finish_index_closed h3, Finish_metaindex_closed h2,
    (Finish_close_some h1).2]

/-! ## Calls that fail an assertion -/

/-- C13: in an open state with ok status reached from a new builder by calls
that added at least one key, `Add` of a key that compares less than or equal to
the key added last fails the order assertion of line 90. The state of the
builder at the failed assertion is the state in which `Add` was called, for the
call alone and at the end of the whole sequence of calls: no index entry was
added to the index block (also while one is pending), no field was assigned and
the output file is as it was, so no byte was written. The key the new key is
compared with, `last_key`, is the key added last. -/
theorem Add_out_of_order_fails (env : Env) (opt : Options) (script : List Status)
    (ops : List Op) (r : Rep) (prev key value : Bytes)
    (hrun : run env (Rep.create opt (WritableFile.create script)) ops = some r)
    (hc : r.closed = false) (hok : ok r = true)
    (hprev : (keysOf ops).getLast? = some prev)
    (hle : r.options.comparator.Compare key prev ≤ 0) :
    r.last_key = prev ∧ r.num_entries > 0 ∧ Add_entry env r key value = none ∧
      Add env r key value = none ∧
      run env (Rep.create opt (WritableFile.create script)) (ops ++ [Op.add key value]) =
        none ∧
      Add_entry_outcome env r key value = Outcome.aborted r ∧
      Add_outcome env r key value = Outcome.aborted r ∧
      run_outcome env (Rep.create opt (WritableFile.create script))
        (ops ++ [Op.add key value]) = Outcome.aborted r := by
  have hinv := run_HistoryInv hrun hok hc (HistoryInv_create opt (WritableFile.create script))
  rw [List.nil_append] at hinv
  have hlk := hinv.2 prev hprev
  have hpos : r.num_entries > 0 := by
    rw [hinv.1]
    have : keysOf ops ≠ [] := by
      intro hnil
      rw [hnil] at hprev
      simp at hprev
    have := List.length_pos.2 this
    exact_mod_cast this
  have hcond : r.num_entries > 0 ∧ ¬ (r.options.comparator.Compare key r.last_key > 0) :=
    ⟨hpos, by rw [hlk]; omega⟩
  have hA : Add_entry env r key value = none := by
    unfold Add_entry
    rw [if_pos hcond]
  have hAdd : Add env r key value = none := by
    unfold Add
    rw [if_neg (by simp [hc]), if_neg (by simp [hok]), hA]
  have hAo : Add_entry_outcome env r key value = Outcome.aborted r := by
    unfold Add_entry_outcome
    rw [if_pos hcond]
  have hAddo : Add_outcome env r key value = Outcome.aborted r := by
    unfold Add_outcome
    rw [if_neg (by simp [hc]), if_neg (by simp [hok]), hAo]
  refine ⟨hlk, hpos, hA, hAdd, ?_, hAo, hAddo, ?_⟩
  · rw [run_then ops [Op.add key value] _ r hrun]
    simp [run, step, hAdd]
  · rw [run_outcome_then ops [Op.add key value] _ r hrun]
    simp [run_outcome, step_outcome, hAddo]

/-- C13, at a concrete input: after "a" and "b", each followed by a flush (so an
index entry is pending), adding "b" again and adding "a". -/
theorem Add_out_of_order_fails_witness :
    Add_outcome sampleEnv
        (sampleRun [] [Op.add [97] [49], Op.flush, Op.add [98] [50], Op.flush]) [98] [51] =
      Outcome.aborted (sampleRun [] [Op.add [97] [49], Op.flush, Op.add [98] [50], Op.flush]) ∧
    run_outcome sampleEnv (Rep.create sampleOptions (WritableFile.create []))
        ([Op.add [97] [49], Op.flush, Op.add [98] [50], Op.flush] ++ [Op.add [97] [51]]) =
      Outcome.aborted (sampleRun [] [Op.add [97] [49], Op.flush, Op.add [98] [50], Op.flush]) ∧
    (sampleRun [] [Op.add [97] [49], Op.flush, Op.add [98] [50], Op.flush]).pending_index_entry =
      true ∧
    Add sampleEnv (sampleRun [] [Op.add [97] [49], Op.flush, Op.add [98] [50], Op.flush])
      [97] [51] = none :=
  ⟨(Add_out_of_order_fails sampleEnv sampleOptions []
      [Op.add [97] [49], Op.flush, Op.add [98] [50], Op.flush]
      (sampleRun [] [Op.add [97] [49], Op.flush, Op.add [98] [50], Op.flush]) [98] [98] [51]
      rfl rfl rfl rfl (by decide)).2.2.2.2.2.2.1,
    (Add_out_of_order_fails sampleEnv sampleOptions []
      [Op.add [97] [49], Op.flush, Op.add [98] [50], Op.flush]
      (sampleRun [] [Op.add [97] [49], Op.flush, Op.add [98] [50], Op.flush]) [98] [97] [51]
      rfl rfl rfl rfl (by decide)).2.2.2.2.2.2.2,
    rfl,
    (Add_out_of_order_fails sampleEnv sampleOptions []
      [Op.add [97] [49], Op.flush, Op.add [98] [50], Op.flush]
      (sampleRun [] [Op.add [97] [49], Op.flush, Op.add [98] [50], Op.flush]) [98] [97] [51]
      rfl rfl rfl rfl (by decide)).2.2.2.1⟩

/-- C15: on a builder that is already closed each of `Add`, `Flush`, `Finish`
and `Abandon` fails its assertion that the builder is not closed (`Finish` fails
it in the `Flush` it calls first), and the state of the builder at the failed
assertion is the state in which it was called: the output file is as it was, no
byte was appended. The same holds at the end of a sequence of calls that leads
to the closed state and goes on with one of these calls. A builder that `Finish`
or `Abandon` returned from is closed, so a second `Finish`, or a `Finish` after
`Abandon`, fails in the state the first call left: no second index block or
footer is written. -/
theorem closed_calls_fail (env : Env) (r : Rep) (hc : r.closed = true) :
    (∀ key value, Add env r key value = none) ∧ Flush env r = none ∧ Finish env r = none ∧
      Abandon r = none ∧
      (∀ (r0 : Rep) (st : Status), Finish env r0 = some (st, r) → Finish env r = none) ∧
      (∀ r0 : Rep, Abandon r0 = some r → Finish env r = none) ∧
      (∀ key value, Add_outcome env r key value = Outcome.aborted r) ∧
      Flush_outcome env r = Outcome.aborted r ∧
      Finish_outcome env r = Outcome.aborted r ∧
      Abandon_outcome r = Outcome.aborted r ∧
      (∀ (r0 : Rep) (ops : List Op) (op : Op), run env r0 ops = some r →
        op.assertsOpen = true → run_outcome env r0 (ops ++ [op]) = Outcome.aborted r) ∧
      (∀ (r0 r1 : Rep) (st : Status), Finish env r0 = some (st, r1) →
        r1.closed = true ∧ Finish_outcome env r1 = Outcome.aborted r1 ∧
          run_outcome env r0 [Op.finish, Op.finish] = Outcome.aborted r1) ∧
      (∀ r0 r1 : Rep, Abandon r0 = some r1 →
        r1.closed = true ∧ Finish_outcome env r1 = Outcome.aborted r1 ∧
          run_outcome env r0 [Op.abandon, Op.finish] = Outcome.aborted r1) := by
  refine ⟨fun key value => Add_closed env r key value hc, Flush_closed_none env r hc,
    Finish_closed_none env r hc, Abandon_closed r hc,
    fun _ _ _ => Finish_closed_none env r hc, fun _ _ => Finish_closed_none env r hc,
    fun key value => Add_outcome_closed env r key value hc, Flush_outcome_closed env r hc,
    Finish_outcome_closed env r hc, Abandon_outcome_closed r hc, ?_, ?_, ?_⟩
  · intro r0 ops op hrun hop
    rw [run_outcome_then ops [op] r0 r hrun]
    simp [run_outcome, step_outcome_closed env r op hc hop]
  · intro r0 r1 st hF
    have hc1 := Finish_closes hF
    have hrun : run env r0 [Op.finish] = some r1 := by simp [run, step, hF]
    refine ⟨hc1, Finish_outcome_closed env r1 hc1, ?_⟩
    rw [show [Op.finish, Op.finish] = [Op.finish] ++ [Op.finish] from rfl,
      run_outcome_then [Op.finish] [Op.finish] r0 r1 hrun]
    simp [run_outcome, step_outcome_closed env r1 Op.finish hc1 rfl]
  · intro r0 r1 hA
    have hc1 : r1.closed = true := by rw [(Abandon_some hA).2]
    have hrun : run env r0 [Op.abandon] = some r1 := by simp [run, step, hA]
    refine ⟨hc1, Finish_outcome_closed env r1 hc1, ?_⟩
    rw [show [Op.abandon, Op.finish] = [Op.abandon] ++ [Op.finish] from rfl,
      run_outcome_then [Op.abandon] [Op.finish] r0 r1 hrun]
    simp [run_outcome, step_outcome_closed env r1 Op.finish hc1 rfl]

/-- C15, at a concrete input: the sample builder closed by `Finish`, and closed by `Abandon`. -/
theorem closed_calls_fail_witness :
    Finish sampleEnv (sampleRun [] [Op.add [97] [49], Op.finish]) = none ∧
      Finish sampleEnv (sampleRun [] [Op.add [97] [49], Op.abandon]) = none ∧
      Finish_outcome sampleEnv (sampleRun [] [Op.add [97] [49], Op.finish]) =
        Outcome.aborted (sampleRun [] [Op.add [97] [49], Op.finish]) ∧
      run_outcome sampleEnv (sampleRep []) ([Op.add [97] [49], Op.finish] ++ [Op.finish]) =
        Outcome.aborted (sampleRun [] [Op.add [97] [49], Op.finish]) ∧
      run_outcome sampleEnv (sampleRep []) ([Op.add [97] [49], Op.abandon] ++ [Op.finish]) =
        Outcome.aborted (sampleRun [] [Op.add [97] [49], Op.abandon]) :=
  ⟨(closed_calls_fail sampleEnv (sampleRun [] [Op.add [97] [49], Op.finish]) rfl).2.2.1,
    (closed_calls_fail sampleEnv (sampleRun [] [Op.add [97] [49], Op.abandon]) rfl).2.2.1,
    (closed_calls_fail sampleEnv (sampleRun [] [Op.add [97] [49], Op.finish])
      rfl).2.2.2.2.2.2.2.2.1,
    (closed_calls_fail sampleEnv (sampleRun [] [Op.add [97] [49], Op.finish])
      rfl).2.2.2.2.2.2.2.2.2.2.1 (sampleRep []) [Op.add [97] [49], Op.finish] Op.finish rfl rfl,
    (closed_calls_fail sampleEnv (sampleRun [] [Op.add [97] [49], Op.abandon])
      rfl).2.2.2.2.2.2.2.2.2.2.1 (sampleRep []) [Op.add [97] [49], Op.abandon] Op.finish rfl rfl⟩

end leveldb
